import Mathlib

/-! XPRESS-Huffman (`xpress_huff.cpp`): a shallow embedding and its properties.

Bytes, 16-bit and 32-bit machine words are natural numbers; arithmetic that can
wrap in the C++ code is reduced modulo the width of its type explicitly.
`size_t` is taken to be 64 bits wide.
-/

namespace XpressHuff

/-! ## General definitions -/

def MAX_OFFSET : Nat := 0xFFFF
def CHUNK_SIZE : Nat := 0x10000
def STREAM_END : Nat := 0x100
def STREAM_END_LEN_1 : Nat := 1
def SYMBOLS : Nat := 0x200
def HALF_SYMBOLS : Nat := 0x100
def MIN_DATA : Nat := HALF_SYMBOLS + 4

/-- Width of `uint32_t` arithmetic. -/
def U32 : Nat := 2 ^ 32
/-- Width of `size_t` arithmetic. -/
def SIZE_T : Nat := 2 ^ 64

/-- The two error codes stored in `errno` by this file. -/
inductive Errno where
  | E_INVALID_DATA
  | E_INSUFFICIENT_BUFFER
  deriving DecidableEq, Repr

/-- Expansion of the helper `LT(n)`: sixteen copies of `n`. -/
def LT (n : Nat) : List Nat := List.replicate 16 n

def Log2Table : List Nat :=
  [0, 0, 1, 1, 2, 2, 2, 2, 3, 3, 3, 3, 3, 3, 3, 3] ++
  LT 4 ++ LT 5 ++ LT 5 ++ LT 6 ++ LT 6 ++ LT 6 ++ LT 6 ++
  LT 7 ++ LT 7 ++ LT 7 ++ LT 7 ++ LT 7 ++ LT 7 ++ LT 7 ++ LT 7

def OffsetMasks : List Nat :=
  [0x0000, 0x0001, 0x0003, 0x0007,
   0x000F, 0x001F, 0x003F, 0x007F,
   0x00FF, 0x01FF, 0x03FF, 0x07FF,
   0x0FFF, 0x1FFF, 0x3FFF, 0x7FFF]

/-- The function `highbit(x)`: `y = x >> 8; return y ? 8 + Log2Table[y] : Log2Table[x]`.
A table index past the end of the table reads 0 here. -/
def highbit (x : Nat) : Nat :=
  let y := x >>> 8
  if y ≠ 0 then 8 + Log2Table.getD y 0 else Log2Table.getD x 0

/-! ## The code-length table header -/

/-- Header loop of `xh_encode`:
`for (i = 0, i2 = 0; i < HALF_SYMBOLS; ++i, i2+=2) out[i] = (lens[i2+1] << 4) | lens[i2];`
with the store truncated to a byte. -/
def writeHeader (lens : List Nat) : List Nat :=
  (List.range HALF_SYMBOLS).map
    (fun i => ((lens.getD (2 * i + 1) 0 <<< 4) ||| lens.getD (2 * i) 0) % 256)

/-- Unpacking loop of `xpress_huff_decompress_chunk`:
`codeLengths[i2++] = (in[i] & 0xF); codeLengths[i2++] = (in[i] >> 4);` for the 256 header bytes. -/
def readHeader (inp : List Nat) : List Nat :=
  (List.range HALF_SYMBOLS).flatMap
    (fun i => [inp.getD i 0 &&& 0xF, inp.getD i 0 >>> 4])

/-! ## The external collaborators, as interfaces

`Bitstream.h`, `HuffmanDecoder.h`, `HuffmanEncoder.h` and `XpressDictionary.h` are not part of
the sources at hand. The functions of `xpress_huff.cpp` are embedded over arbitrary
implementations of the operations they call. -/

/-- Operations of `InputBitstream` called by `xpress_huff_decompress_chunk`; `τ` is the state
of the reader. -/
structure InputBitstream (τ : Type) where
  /-- The constructor `InputBitstream(in, len)`. -/
  init : List Nat → Nat → τ
  Peek : τ → Nat → Nat
  Skip : τ → Nat → τ
  MaskIsZero : τ → Bool
  RemainingRawBytes : τ → Nat
  ReadRawByte : τ → Nat × τ
  ReadRawUInt16 : τ → Nat × τ
  ReadRawUInt32 : τ → Nat × τ
  RawPosition : τ → Nat

/-- Operations of `HuffmanDecoder<16, SYMBOLS>`; `δ` is the decoder once `SetCodeLengths`
has succeeded. -/
structure HuffmanDecoder (τ δ : Type) where
  SetCodeLengths : List Nat → Option δ
  DecodeSymbol : δ → τ → Nat × τ
  INVALID_SYMBOL : Nat

/-- Operations of `OutputBitstream` called by `xh_encode`; `σ` is the state of the writer and
`contents` the bytes it has put into its buffer, `RawPosition` of them. -/
structure OutputBitstream (σ : Type) where
  /-- The constructor `OutputBitstream(out, len)`. -/
  init : Nat → σ
  WriteBits : σ → Nat → Nat → Bool × σ
  WriteRawByte : σ → Nat → Bool × σ
  WriteRawUInt16 : σ → Nat → Bool × σ
  WriteRawUInt32 : σ → Nat → Bool × σ
  Finish : σ → σ
  RawPosition : σ → Nat
  contents : σ → List Nat

/-- Operations of `HuffmanEncoder<16, SYMBOLS>`; `ε` is the encoder once `CreateCodes` has
succeeded. -/
structure HuffmanEncoder (σ ε : Type) where
  CreateCodes : List Nat → Option ε
  HuffmanCodeLengths : ε → List Nat
  EncodeSymbol : ε → Nat → σ → Bool × σ

/-- The match finder: `Find pos` is the pair `(len, off)` that `d->Find(in, &off)` yields with
`in` at index `pos` of the whole input. -/
abbrev Dictionary := Nat → Nat × Nat

/-! ## Compression -/

/-- Little-endian bytes of a 16-bit store. -/
def le16 (v : Nat) : List Nat := [v % 256, v / 256 % 256]

/-- Little-endian bytes of a 32-bit store. -/
def le32 (v : Nat) : List Nat := [v % 256, v / 256 % 256, v / 65536 % 256, v / 16777216 % 256]

/-- The byte `in[p]`. -/
def rd8 (buf : List Nat) (p : Nat) : Nat := buf.getD p 0 % 256

/-- The load `*(uint16_t*)(in + p)`. -/
def rd16 (buf : List Nat) (p : Nat) : Nat := rd8 buf p + 256 * rd8 buf (p + 1)

/-- The load `*(uint32_t*)(in + p)`. -/
def rd32 (buf : List Nat) (p : Nat) : Nat :=
  rd8 buf p + 256 * rd8 buf (p + 1) + 65536 * rd8 buf (p + 2) + 16777216 * rd8 buf (p + 3)

/-- The store `*(uint32_t*)(buf + p) = v` into bytes already there. -/
def store32 (buf : List Nat) (p : Nat) (v : Nat) : List Nat :=
  buf.take p ++ le32 v ++ buf.drop (p + 4)

/-- The increment `++symbol_counts[s]`. -/
def bump (counts : List Nat) (s : Nat) : List Nat :=
  counts.set s ((counts.getD s 0 + 1) % U32)

/-- Local state of `xh_lz77_compress`: `pos` is `in` as an index into the whole input, `buf`
the bytes between `out_orig` and `out`, `counts` is `symbol_counts`. -/
structure LzState where
  pos : Nat
  rem : Nat
  mask : Nat
  buf : List Nat
  counts : List Nat
  deriving DecidableEq, Repr

/-- Body of the loop `for (i = 0; i < 32 && rem > 0; ++i)` of `xh_lz77_compress`. -/
def lzToken (Find : Dictionary) (inp : List Nat) (st : LzState) : LzState :=
  let mask := st.mask >>> 1
  if 3 ≤ st.rem ∧ 3 ≤ (Find st.pos).1 then
    let off := (Find st.pos).2
    let len := if (Find st.pos).1 > st.rem then st.rem else (Find st.pos).1
    let buf := st.buf ++ le16 off
    let len3 := len - 3
    let buf := if len3 > 0xFFFF then buf ++ [0xFF] ++ le16 0 ++ le32 len3 else buf
    let buf := if len3 ≥ 0xFF then buf ++ [0xFF] ++ le16 len3 else buf ++ [len3 % 256]
    { pos := st.pos + len, rem := st.rem - len, mask := mask ||| 0x80000000, buf := buf,
      counts := bump st.counts ((highbit off <<< 4) ||| min 0xF len3 ||| 0x100) }
  else
    { pos := st.pos + 1, rem := st.rem - 1, mask := mask, buf := st.buf ++ [inp.getD st.pos 0],
      counts := bump st.counts (inp.getD st.pos 0) }

/-- The loop `for (i = 0; i < 32 && rem > 0; ++i)`, entered with `32 - i` passes left; gives
the final `i` and state. -/
def lzGroup (Find : Dictionary) (inp : List Nat) : Nat → Nat → LzState → Nat × LzState
  | 0, i, st => (i, st)
  | k + 1, i, st =>
    if 0 < st.rem then lzGroup Find inp k (i + 1) (lzToken Find inp st) else (i, st)

/-- The loop `while (rem > 0)` of `xh_lz77_compress`, with `i` and `mask_out` (an index into
`buf`) as left by the latest pass. -/
def lzLoop (Find : Dictionary) (inp : List Nat) : Nat → Nat → Nat → LzState → Nat × Nat × LzState
  | 0, i, mask_out, st => (i, mask_out, st)
  | fuel + 1, i, mask_out, st =>
    if 0 < st.rem then
      let g := lzGroup Find inp 32 0
        { st with mask := 0, buf := st.buf ++ [0, 0, 0, 0] }
      lzLoop Find inp fuel g.1 st.buf.length
        { g.2 with buf := store32 g.2.buf st.buf.length g.2.mask }
    else (i, mask_out, st)

/-- Result of `xh_lz77_compress`: the returned byte count, the buffer written, the updated
`*in_len` and the symbol counts. -/
structure LzResult where
  ret : Nat
  buf : List Nat
  in_len : Nat
  counts : List Nat
  deriving DecidableEq, Repr

/-- The function `xh_lz77_compress(in, &in_len, in_end, out, symbol_counts, d)` with `in` at index `pos` and
`in_end` at index `in_end` of the whole input `inp`. -/
def xh_lz77_compress (Find : Dictionary) (inp : List Nat) (pos in_len in_end : Nat) :
    LzResult :=
  let r := lzLoop Find inp in_len 0 0 ⟨pos, in_len, 0, [], List.replicate SYMBOLS 0⟩
  let i := r.1
  let mask_out := r.2.1
  let st := r.2.2
  let in_len1 := in_len - st.rem
  let mask := st.mask >>> (32 - i)
  if pos + in_len1 = in_end then
    let buf := if i = 32 then st.buf ++ le32 1 else st.buf
    let mask := if i = 32 then mask else mask ||| ((1 <<< i) % U32)
    let buf := store32 (buf ++ [0, 0, 0]) mask_out mask
    ⟨buf.length, buf, in_len1, bump st.counts STREAM_END⟩
  else
    let buf := store32 st.buf mask_out mask
    ⟨buf.length, buf, in_len1, st.counts⟩

/-- Local state of `xh_encode`: `p` is `in` as an index into the intermediate buffer. -/
structure EncState (σ : Type) where
  p : Nat
  rem : Int
  bstr : σ

/-- The writes of the length extension in `xh_encode` (`if (len >= 0xF) ...`); `false` when
one of them fails. -/
def encodeLength {σ : Type} (W : OutputBitstream σ) (len : Nat) (s : σ) : Bool × σ :=
  if len ≥ 0xF then
    if len ≥ 0xFF + 0xF then
      let r1 := W.WriteRawByte s 0xFF
      if r1.1 = false then (false, r1.2)
      else if len > 0xFFFF then
        let r2 := W.WriteRawUInt16 r1.2 0x0000
        if r2.1 = false then (false, r2.2)
        else W.WriteRawUInt32 r2.2 len
      else W.WriteRawUInt16 r1.2 (len % 65536)
    else W.WriteRawByte s ((len - 0xF) % 256)
  else (true, s)

/-- Body of the `for` loop over the bits of a mask in `xh_encode`; `false` when it leaves the
loop through one of its `break`s. -/
def encodeToken {σ ε : Type} (W : OutputBitstream σ) (E : HuffmanEncoder σ ε) (enc : ε)
    (buf : List Nat) (mask : Nat) (st : EncState σ) : Bool × EncState σ :=
  if mask &&& 1 = 1 then
    let off := rd16 buf st.p
    let len0 := rd8 buf (st.p + 2)
    let len1 := if len0 = 0xFF then rd16 buf (st.p + 3) else len0
    let len := if len0 = 0xFF ∧ len1 = 0 then rd32 buf (st.p + 5) else len1
    let adv := if len0 = 0xFF then (if len1 = 0 then 9 else 5) else 3
    let p := st.p + adv
    let rem := st.rem - adv
    let O := highbit off
    let offm := off &&& OffsetMasks.getD O 0
    let sym := (O <<< 4) ||| min 0xF len ||| 0x100
    let r1 := E.EncodeSymbol enc sym st.bstr
    if r1.1 = false then (false, ⟨p, rem, r1.2⟩)
    else
      let r2 := encodeLength W len r1.2
      if r2.1 = false then (false, ⟨p, rem, r2.2⟩)
      else
        let r3 := W.WriteBits r2.2 offm O
        (r3.1, ⟨p, rem, r3.2⟩)
  else
    let r := E.EncodeSymbol enc (rd8 buf st.p) st.bstr
    if r.1 = false then (false, ⟨st.p, st.rem, r.2⟩)
    else (true, ⟨st.p + 1, st.rem - 1, r.2⟩)

/-- The loop `for (i = 32, mask = ...; mask && rem > 0; --i, mask >>= 1)` of `xh_encode`, for
at most `k` passes; gives the final `i` and state. -/
def encodeGroup {σ ε : Type} (W : OutputBitstream σ) (E : HuffmanEncoder σ ε) (enc : ε)
    (buf : List Nat) : Nat → Nat → Nat → EncState σ → Nat × EncState σ
  | 0, i, _, st => (i, st)
  | k + 1, i, mask, st =>
    if mask ≠ 0 ∧ 0 < st.rem then
      let r := encodeToken W E enc buf mask st
      if r.1 then encodeGroup W E enc buf k (i - 1) (mask >>> 1) r.2 else (i, r.2)
    else (i, st)

/-- The loop `for (end = in+i; in != end && encoder->EncodeSymbol(*in, &bstr); ++in);` with
`n` bytes to go; `false` when it ends with `in != end`. -/
def encodeLits {σ ε : Type} (E : HuffmanEncoder σ ε) (enc : ε) (buf : List Nat) :
    Nat → EncState σ → Bool × EncState σ
  | 0, st => (true, st)
  | n + 1, st =>
    let r := E.EncodeSymbol enc (rd8 buf st.p) st.bstr
    if r.1 then encodeLits E enc buf n ⟨st.p + 1, st.rem, r.2⟩
    else (false, ⟨st.p, st.rem, r.2⟩)

/-- The loop `while (rem > 0)` of `xh_encode`. -/
def encodeLoop {σ ε : Type} (W : OutputBitstream σ) (E : HuffmanEncoder σ ε) (enc : ε)
    (buf : List Nat) : Nat → EncState σ → EncState σ
  | 0, st => st
  | fuel + 1, st =>
    if 0 < st.rem then
      let g := encodeGroup W E enc buf 32 32 (rd32 buf st.p) ⟨st.p + 4, st.rem - 4, st.bstr⟩
      if g.2.rem < 0 then g.2
      else
        let i := if g.2.rem < (g.1 : Int) then g.2.rem.toNat % 256 else g.1
        let l := encodeLits E enc buf i g.2
        if l.1 then encodeLoop W E enc buf fuel ⟨l.2.p, l.2.rem - (i : Int), l.2.bstr⟩
        else l.2
    else st

/-- Result of a compression function: the returned byte count, the value given to `errno` by
this file (if any) and the bytes written to `out`. -/
structure CompressResult where
  ret : Nat
  errno : Option Errno
  out : List Nat
  deriving DecidableEq, Repr

/-- The function `xh_encode(in, in_len, out, out_len, encoder)`; each pass of `while (rem > 0)` takes at
least 4 bytes off `rem`, so `in_len` passes are enough. -/
def xh_encode {σ ε : Type} (W : OutputBitstream σ) (E : HuffmanEncoder σ ε) (enc : ε)
    (buf : List Nat) (in_len : Nat) (out_len : Nat) : CompressResult :=
  let hdr := writeHeader (E.HuffmanCodeLengths enc)
  let st := encodeLoop W E enc buf in_len ⟨0, (in_len : Int), W.init (out_len - HALF_SYMBOLS)⟩
  if 0 < st.rem then ⟨0, some .E_INSUFFICIENT_BUFFER, hdr ++ W.contents st.bstr⟩
  else
    let s := W.Finish st.bstr
    ⟨W.RawPosition s + HALF_SYMBOLS, none, hdr ++ W.contents s⟩

/-- The function `xpress_huff_compress_chunk(in, &in_len, in_end, out, out_len, buf, d)`; the second
component is the updated `*in_len`. A failure of `CreateCodes` leaves `errno` to the encoder. -/
def xpress_huff_compress_chunk {σ ε : Type} (W : OutputBitstream σ)
    (E : HuffmanEncoder σ ε) (Find : Dictionary) (inp : List Nat) (pos in_len in_end : Nat)
    (out_len : Nat) : CompressResult × Nat :=
  if out_len < MIN_DATA then (⟨0, some .E_INSUFFICIENT_BUFFER, []⟩, in_len)
  else if in_len = 0 then
    (⟨MIN_DATA, none, (List.replicate MIN_DATA 0).set (STREAM_END >>> 1) STREAM_END_LEN_1⟩,
      in_len)
  else
    let lz := xh_lz77_compress Find inp pos in_len in_end
    if lz.ret = 0 then (⟨0, none, []⟩, lz.in_len)
    else
      match E.CreateCodes lz.counts with
      | none => (⟨0, none, []⟩, lz.in_len)
      | some enc => (xh_encode W E enc lz.buf lz.ret out_len, lz.in_len)

/-- The loop `while (in_len > CHUNK_SIZE)` of `xpress_huff_compress` followed by the last
chunk; `acc` holds the bytes between the start of the output and `out`. -/
def compressLoop {σ ε : Type} (W : OutputBitstream σ) (E : HuffmanEncoder σ ε)
    (Find : Dictionary) (inp : List Nat) (in_end : Nat) :
    Nat → Nat → Nat → Nat → Nat → List Nat → CompressResult
  | 0, _, _, _, _, acc => ⟨0, none, acc⟩
  | fuel + 1, pos, in_len, out_len, total, acc =>
    if in_len > CHUNK_SIZE then
      let c := xpress_huff_compress_chunk W E Find inp pos CHUNK_SIZE in_end out_len
      if c.1.ret = 0 then ⟨0, c.1.errno, acc ++ c.1.out⟩
      else compressLoop W E Find inp in_end fuel (pos + c.2) ((in_len + SIZE_T - c.2) % SIZE_T)
        ((out_len + SIZE_T - c.1.ret) % SIZE_T) ((total + c.1.ret) % SIZE_T) (acc ++ c.1.out)
    else
      let c := xpress_huff_compress_chunk W E Find inp pos in_len in_end out_len
      if c.1.ret = 0 then ⟨0, c.1.errno, acc ++ c.1.out⟩
      else ⟨(total + c.1.ret) % SIZE_T, c.1.errno, acc ++ c.1.out⟩

/-- The function `xpress_huff_compress(in, in_len, out, out_len)` on the input bytes `inp`; the allocation
of the scratch buffer is taken to succeed. One pass of the loop per chunk, so `in_len + 1`
passes are enough. -/
def xpress_huff_compress {σ ε : Type} (W : OutputBitstream σ) (E : HuffmanEncoder σ ε)
    (Find : Dictionary) (inp : List Nat) (in_len : Nat) (out_len : Nat) : CompressResult :=
  if in_len = 0 then ⟨0, none, []⟩
  else compressLoop W E Find inp in_len (in_len + 1) 0 in_len out_len 0 []

/-! ## Decompression -/

/-- Local state of the decode loop: `out` holds the bytes from `out_origin` up to `out + i`
(the output of the earlier chunks followed by the `i` bytes of this one). -/
structure DecState (τ : Type) where
  out : List Nat
  i : Nat
  bstr : τ
  deriving DecidableEq, Repr

/-- What one pass through the body of the `do ... while` loop does. -/
inductive Step (τ : Type) where
  /-- A `return false` with `errno` set; `out` is the output as it stands then. -/
  | fail (e : Errno) (out : List Nat)
  /-- The `*end_of_stream = true; break;`. -/
  | stop (st : DecState τ)
  /-- The body ran to its end. -/
  | next (st : DecState τ)
  deriving DecidableEq, Repr

/-- The length of a match: the nibble of the symbol, extended by the raw byte, 16-bit word and
32-bit word read from the stream, plus 3; `uint32_t` arithmetic. -/
def decodeLength {τ : Type} (B : InputBitstream τ) (nib : Nat) (s : τ) :
    Except Errno (Nat × τ) :=
  if nib = 0xF then
    if B.RemainingRawBytes s < 1 then .error .E_INVALID_DATA
    else
      let r1 := B.ReadRawByte s
      let len := r1.1 % 256
      if len = 0xFF then
        if B.RemainingRawBytes r1.2 < 2 then .error .E_INVALID_DATA
        else
          let r2 := B.ReadRawUInt16 r1.2
          let len := r2.1 % 65536
          if len = 0 then
            if B.RemainingRawBytes r2.2 < 4 then .error .E_INVALID_DATA
            else
              let r3 := B.ReadRawUInt32 r2.2
              let len := r3.1 % U32
              if len < 0xF then .error .E_INVALID_DATA
              else .ok ((len - 0xF + 0xF + 3) % U32, r3.2)
          else
            if len < 0xF then .error .E_INVALID_DATA
            else .ok ((len - 0xF + 0xF + 3) % U32, r2.2)
      else .ok ((len + 0xF + 3) % U32, r1.2)
  else .ok ((nib + 3) % U32, s)

/-- The loop `for (end = i + len; i < end; ++i) { out[i] = out[i-off]; }`, for `n` passes. -/
def copyMatch (off : Nat) : Nat → List Nat → List Nat
  | 0, out => out
  | n + 1, out => copyMatch off n (out ++ [out.getD (out.length - off) 0])

/-- The offset of a match, `off += 1 << sym` on the residual that `bstr.Peek` gave, for the
offset-bit-length `O`; `uint32_t` arithmetic. -/
def matchOffset (peek O : Nat) : Nat := (peek + (1 <<< O)) % U32

/-- Body of the decode loop for a symbol that is neither invalid, nor the end of the stream,
nor a literal. The test `(out+i-off) < out_origin` compares `off` with the number of bytes
between `out_origin` and `out + i`. -/
def decodeMatch {τ : Type} (B : InputBitstream τ) (out_len : Nat) (sym : Nat)
    (st : DecState τ) : Step τ :=
  let nib := sym &&& 0xF
  let O := (sym >>> 4) &&& 0xF
  let peek := B.Peek st.bstr O % U32
  if peek = 0xFFFFFFFF then .fail .E_INVALID_DATA st.out
  else
    let off := matchOffset peek O
    if st.out.length < off then .fail .E_INVALID_DATA st.out
    else
      match decodeLength B nib st.bstr with
      | .error e => .fail e st.out
      | .ok (len, s1) =>
        let s2 := B.Skip s1 O
        let e := (st.i + len) % SIZE_T
        if e > out_len then .fail .E_INSUFFICIENT_BUFFER st.out
        else if off = 1 then
          .next ⟨st.out ++ List.replicate len (st.out.getD (st.out.length - 1) 0), e, s2⟩
        else
          .next ⟨copyMatch off (e - st.i) st.out, st.i + (e - st.i), s2⟩

/-- Body of the `do ... while` loop of `xpress_huff_decompress_chunk`. -/
def decodeStep {τ δ : Type} (B : InputBitstream τ) (H : HuffmanDecoder τ δ) (dec : δ)
    (out_len : Nat) (st : DecState τ) : Step τ :=
  let r := H.DecodeSymbol dec st.bstr
  let sym := r.1
  let s := r.2
  if sym = H.INVALID_SYMBOL then .fail .E_INVALID_DATA st.out
  else if sym = STREAM_END ∧ B.MaskIsZero s = true then .stop ⟨st.out, st.i, s⟩
  else if sym < 0x100 then
    if st.i = out_len then .fail .E_INSUFFICIENT_BUFFER st.out
    else .next ⟨st.out ++ [sym % 256], st.i + 1, s⟩
  else decodeMatch B out_len sym ⟨st.out, st.i, s⟩

/-- Result of `xpress_huff_decompress_chunk`: `fail` is `return false` (with the value given
to `errno`, if any), `ok` is `return true` with `*in_pos`, `*out_pos` and whether
`*end_of_stream` was set; `out` holds the bytes from `out_origin` on. -/
inductive ChunkResult where
  | fail (errno : Option Errno) (out : List Nat)
  | ok (in_pos out_pos : Nat) (out : List Nat) (end_of_stream : Bool)
  deriving DecidableEq, Repr

/-- The `do ... while (i < CHUNK_SIZE || !bstr.MaskIsZero())` loop, run for at most `fuel`
passes; `none` when the fuel does not suffice. -/
def decodeLoop {τ δ : Type} (B : InputBitstream τ) (H : HuffmanDecoder τ δ) (dec : δ)
    (out_len : Nat) : Nat → DecState τ → Option ChunkResult
  | 0, _ => none
  | fuel + 1, st =>
    match decodeStep B H dec out_len st with
    | .fail e out => some (.fail (some e) out)
    | .stop st1 => some (.ok (B.RawPosition st1.bstr + HALF_SYMBOLS) st1.i st1.out true)
    | .next st1 =>
      if st1.i < CHUNK_SIZE ∨ B.MaskIsZero st1.bstr = false then
        decodeLoop B H dec out_len fuel st1
      else some (.ok (B.RawPosition st1.bstr + HALF_SYMBOLS) st1.i st1.out false)

/-- The function `xpress_huff_decompress_chunk(in, in_len, &in_pos, out, out_len, &out_pos, out_origin,
&end_of_stream)`; `hist` holds the bytes between `out_origin` and `out`. -/
def xpress_huff_decompress_chunk {τ δ : Type} (B : InputBitstream τ)
    (H : HuffmanDecoder τ δ) (fuel : Nat) (inp : List Nat) (in_len : Nat)
    (hist : List Nat) (out_len : Nat) : Option ChunkResult :=
  if in_len < MIN_DATA then
    some (.fail (if in_len ≠ 0 then some .E_INVALID_DATA else none) hist)
  else
    match H.SetCodeLengths (readHeader inp) with
    | none => some (.fail (some .E_INVALID_DATA) hist)
    | some dec =>
      decodeLoop B H dec out_len fuel
        ⟨hist, 0, B.init (inp.drop HALF_SYMBOLS) (in_len - HALF_SYMBOLS)⟩

/-- What a pass through the loop body leaves of the output: nothing is taken back, and the
bytes added are as many as `i` advanced, `i` staying within `out_len`. -/
def StepSafe {τ : Type} (out_len : Nat) (st : DecState τ) : Step τ → Prop
  | .fail _ out => out = st.out
  | .stop st1 => st1.out = st.out ∧ st1.i = st.i
  | .next st1 => st.i ≤ st1.i ∧ st1.i ≤ out_len ∧
      ∃ w, st1.out = st.out ++ w ∧ w.length = st1.i - st.i

/-- What a chunk leaves of the output, `hist` being what was there before: the bytes added
are at most `out_len`, and `out_pos` of them when the chunk succeeds. -/
def ChunkSafe (hist : List Nat) (out_len : Nat) : ChunkResult → Prop
  | .fail _ out => ∃ w, out = hist ++ w ∧ w.length ≤ out_len
  | .ok _ out_pos out _ => out_pos ≤ out_len ∧ ∃ w, out = hist ++ w ∧ w.length = out_pos

/-- Result of `xpress_huff_decompress`: the returned count, the value given to `errno` (if
any) and the bytes written from `out_start` on. -/
structure DecompressResult where
  ret : Nat
  errno : Option Errno
  out : List Nat
  deriving DecidableEq, Repr

/-- The `do ... while (!end_of_stream)` loop of `xpress_huff_decompress`, for at most `fuel`
chunks of at most `fuel` symbols each; `hist` holds the bytes between `out_start` and `out`. -/
def decompressLoop {τ δ : Type} (B : InputBitstream τ) (H : HuffmanDecoder τ δ)
    (fuel : Nat) : Nat → List Nat → Nat → List Nat → Nat → Option DecompressResult
  | 0, _, _, _, _ => none
  | n + 1, inp, in_len, hist, out_len =>
    match xpress_huff_decompress_chunk B H fuel inp in_len hist out_len with
    | none => none
    | some (.fail e out) => some ⟨0, e, out⟩
    | some (.ok in_pos out_pos out eos) =>
      if eos then some ⟨hist.length + out_pos, none, out⟩
      else decompressLoop B H fuel n (inp.drop in_pos) ((in_len + SIZE_T - in_pos) % SIZE_T)
        out ((out_len + SIZE_T - out_pos) % SIZE_T)

/-- The function `xpress_huff_decompress(in, in_len, out, out_len)`. -/
def xpress_huff_decompress {τ δ : Type} (B : InputBitstream τ) (H : HuffmanDecoder τ δ)
    (fuel : Nat) (inp : List Nat) (in_len : Nat) (out_len : Nat) :
    Option DecompressResult :=
  decompressLoop B H fuel fuel inp in_len [] out_len

/-! ## A reference Bit Coder

The theorems above the interfaces hold for every implementation. Concrete evaluations need
one implementation; this one is written from the contract the specification gives for the
bit-level reader/writer and the canonical Huffman coder. -/

/-- The store `*(uint16_t*)(buf + p) = v` into bytes already there. -/
def store16 (buf : List Nat) (p : Nat) (v : Nat) : List Nat :=
  buf.take p ++ le16 v ++ buf.drop (p + 2)

/-- Modelled from the spec: state of the bit-level writer of `Bitstream.h` (not among the
sources): the bytes written so far (two 16-bit slots are reserved ahead of the raw bytes), the
capacity, the two reserved slots, and the pending bits, first bit highest. -/
structure OutBits where
  mem : List Nat
  len : Nat
  p0 : Nat
  p1 : Option Nat
  mask : Nat
  bits : Nat
  deriving DecidableEq, Repr

/-- Modelled from the spec: writing `n` bits of `b`; a full 16-bit word goes to the older
reserved slot and a new slot is reserved at the raw position, which fails when no slot is
left. -/
def OutBits.WriteBits (s : OutBits) (b n : Nat) : Bool × OutBits :=
  let bits := s.bits + n
  let mask := (s.mask ||| (b <<< (32 - bits))) % U32
  if bits > 16 then
    match s.p1 with
    | none => (false, { s with mask := mask, bits := bits })
    | some q =>
      let mem := store16 s.mem s.p0 (mask >>> 16)
      if mem.length + 2 > s.len then
        (true, { s with mem := mem, p0 := q, p1 := none, mask := (mask <<< 16) % U32,
                        bits := bits - 16 })
      else
        (true, { s with mem := mem ++ [0, 0], p0 := q, p1 := some mem.length,
                        mask := (mask <<< 16) % U32, bits := bits - 16 })
  else (true, { s with mask := mask, bits := bits })

/-- Modelled from the spec: writing raw bytes at the raw position, which fails when the
buffer is exhausted. -/
def OutBits.WriteRaw (s : OutBits) (bs : List Nat) : Bool × OutBits :=
  if s.mem.length + bs.length > s.len then (false, s)
  else (true, { s with mem := s.mem ++ bs })

/-- Modelled from the spec: flushing the pending bits into the reserved slots. -/
def OutBits.Finish (s : OutBits) : OutBits :=
  let mem := store16 s.mem s.p0 (s.mask >>> 16)
  match s.p1 with
  | none => { s with mem := mem }
  | some q => { s with mem := store16 mem q 0 }

/-- Modelled from the spec: the bit-level writer of `Bitstream.h` (not among the sources),
"writing N bits, writing raw bytes/16-bit/32-bit values unaligned to bit position", all
multi-byte integers little-endian. -/
def refOutputBitstream : OutputBitstream OutBits where
  init := fun len => ⟨[0, 0, 0, 0], len, 0, some 2, 0, 0⟩
  WriteBits := OutBits.WriteBits
  WriteRawByte := fun s x => s.WriteRaw [x % 256]
  WriteRawUInt16 := fun s x => s.WriteRaw (le16 x)
  WriteRawUInt32 := fun s x => s.WriteRaw (le32 x)
  Finish := OutBits.Finish
  RawPosition := fun s => s.mem.length
  contents := fun s => s.mem

/-- Modelled from the spec: state of the bit-level reader of `Bitstream.h` (not among the
sources): the bytes, the raw position, the length, and the 32-bit group of pending bits of
which the highest `bits` are valid. -/
structure InBits where
  data : List Nat
  index : Nat
  len : Nat
  mask : Nat
  bits : Nat
  deriving DecidableEq, Repr

/-- Modelled from the spec: "peeking N bits without consuming"; `0xFFFFFFFF` when fewer than
`n` bits are left. -/
def InBits.Peek (s : InBits) (n : Nat) : Nat :=
  if n > s.bits then 0xFFFFFFFF else if n = 0 then 0 else s.mask >>> (32 - n)

/-- Modelled from the spec: "skipping N bits"; the group is refilled with the next 16-bit
word once fewer than 16 bits are pending. -/
def InBits.Skip (s : InBits) (n : Nat) : InBits :=
  let mask := (s.mask <<< n) % U32
  let bits := s.bits - n
  if bits < 16 ∧ s.index + 2 ≤ s.len then
    { s with mask := mask ||| (rd16 s.data s.index <<< (16 - bits)), bits := bits + 16,
             index := s.index + 2 }
  else { s with mask := mask, bits := bits }

/-- Modelled from the spec: the bit-level reader of `Bitstream.h` (not among the sources);
`MaskIsZero` is "no further mask bits are pending in the current 32-group (all remaining bits
zero)". -/
def refInputBitstream : InputBitstream InBits where
  init := fun inp len =>
    ⟨inp, 4, len, (rd16 inp 0 <<< 16) ||| rd16 inp 2, 32⟩
  Peek := InBits.Peek
  Skip := InBits.Skip
  MaskIsZero := fun s => decide (s.bits = 0 ∨ s.mask >>> (32 - s.bits) = 0)
  RemainingRawBytes := fun s => s.len - s.index
  ReadRawByte := fun s => (rd8 s.data s.index, { s with index := s.index + 1 })
  ReadRawUInt16 := fun s => (rd16 s.data s.index, { s with index := s.index + 2 })
  ReadRawUInt32 := fun s => (rd32 s.data s.index, { s with index := s.index + 4 })
  RawPosition := fun s => s.index

/-- Modelled from the spec: the code word of symbol `s` in the canonical Huffman code of the
length table `lens` ("a prefix code derivable purely from a per-symbol length table"): code
words are handed out in increasing order, shorter lengths first and smaller symbols first. -/
def codeOf (lens : List Nat) (s : Nat) : Nat :=
  (lens.enum.map (fun tl =>
    if 0 < tl.2 ∧ (tl.2 < lens.getD s 0 ∨ (tl.2 = lens.getD s 0 ∧ tl.1 < s))
    then 2 ^ (lens.getD s 0 - tl.2) else 0)).sum

/-- Modelled from the spec: a tree of the Huffman construction, as its weight and its leaves
(symbol and depth), put into a list of trees ordered by weight, behind the trees of the same
weight. -/
def huffInsert (n : Nat × List (Nat × Nat)) :
    List (Nat × List (Nat × Nat)) → List (Nat × List (Nat × Nat))
  | [] => [n]
  | m :: ms => if n.1 < m.1 then n :: m :: ms else m :: huffInsert n ms

/-- Modelled from the spec: the Huffman construction: the two trees of least weight are made
one tree, whose leaves are one level deeper, as long as there are two trees. -/
def huffMerge : Nat → List (Nat × List (Nat × Nat)) → List (Nat × List (Nat × Nat))
  | fuel + 1, a :: b :: ns =>
    huffMerge fuel (huffInsert (a.1 + b.1, (a.2 ++ b.2).map (fun sd => (sd.1, sd.2 + 1))) ns)
  | _, ns => ns

/-- Modelled from the spec: the depth of each symbol that occurs in the Huffman tree of the
counts. -/
def huffDepths (counts : List Nat) : List (Nat × Nat) :=
  let leaves := (counts.enum.filter (fun sc => sc.2 ≠ 0)).map
    (fun sc => (sc.2, [(sc.1, 0)]))
  ((huffMerge leaves.length (leaves.foldr huffInsert [])).map (fun t => t.2)).flatten

/-- Modelled from the spec: the length of the balanced code, in which every symbol that occurs
gets the same length, the least one that gives each its own code word. -/
def balancedLength (counts : List Nat) : Nat :=
  let used := (counts.filter (fun c => c ≠ 0)).length
  if used ≤ 2 then 1 else Nat.log2 (used - 1) + 1

/-- Modelled from the spec: `build(counts) -> lengths` of `HuffmanEncoder.h` (not among the
sources), "building code lengths from symbol frequencies": the length of a symbol that occurs
is its depth in the Huffman tree of the counts (1 when it is the only symbol), and 0 for a
symbol that does not occur. A tree deeper than 15, which the 4-bit fields of the header
cannot hold, is replaced by the balanced code. -/
def refCreateCodes (counts : List Nat) : List Nat :=
  let ds := huffDepths counts
  if ds.all (fun sd => sd.2 ≤ 15) then
    counts.enum.map (fun sc =>
      if sc.2 ≠ 0 then max 1 ((ds.lookup sc.1).getD 0) else 0)
  else counts.map (fun c => if c ≠ 0 then balancedLength counts else 0)

/-- Modelled from the spec: `encode(symbol) -> bits` of `HuffmanEncoder.h` (not among the
sources), for the reference writer. -/
def refHuffmanEncoder : HuffmanEncoder OutBits (List Nat) where
  CreateCodes := fun counts => some (refCreateCodes counts)
  HuffmanCodeLengths := fun lens => lens
  EncodeSymbol := fun lens sym s => s.WriteBits (codeOf lens sym) (lens.getD sym 0)

/-- Modelled from the spec: `decode() -> symbol` of `HuffmanDecoder.h` (not among the
sources), for the reference reader: the symbol whose code word the pending bits start with;
a length table is accepted when its code words fit (Kraft's inequality). -/
def refHuffmanDecoder : HuffmanDecoder InBits (List Nat) where
  SetCodeLengths := fun lens =>
    if (lens.map (fun l => if 0 < l then 2 ^ (15 - l) else 0)).sum ≤ 2 ^ 15
    then some lens else none
  DecodeSymbol := fun lens s =>
    match lens.enum.find? (fun tl =>
        decide (0 < tl.2 ∧ s.Peek tl.2 = codeOf lens tl.1)) with
    | some tl => (tl.1, s.Skip tl.2)
    | none => (0xFFFF, s)
  INVALID_SYMBOL := 0xFFFF

/-! ## Concrete inputs -/

/-- A match finder that never finds a match. -/
def noMatches : Dictionary := fun _ => (0, 0)

/-- The length table in which only symbol 0x100 has a code, of length 1: the table of the
260-byte block written for a chunk of length zero. -/
def lensEnd : List Nat := (List.replicate 512 0).set 0x100 1

/-- The length table in which only the literal 97 has a code, of length 1. -/
def lensLit : List Nat := (List.replicate 512 0).set 97 1

/-- A reader over four zero bytes, as `InputBitstream(in, 4)` leaves it. -/
def zeroBits : InBits := ⟨[0, 0, 0, 0], 4, 4, 0, 32⟩

/-- A decode state with one byte produced, over `zeroBits`. -/
def stateOne : DecState InBits := ⟨[7], 1, zeroBits⟩

/-- A decode state with three bytes produced, over `zeroBits`. -/
def stateFull : DecState InBits := ⟨[1, 2, 3], 3, zeroBits⟩

/-- An input of 65539 bytes: `ab` 32766 times, then seven times `a`. The first chunk ends
with `a` at index 65532 followed by `aaa`; the second chunk is `aaa`. -/
def inputC1 : List Nat :=
  (List.replicate 32766 [97, 98]).flatten ++ [97, 97, 97, 97, 97, 97, 97]

/-- The longest matches in `inputC1` at the places where `xh_lz77_compress` asks: at index 2
the alternation `ab` goes on for 65531 bytes (offset 2), at index 65533 the run of `a` goes on
for the 6 bytes up to the end of the input (offset 1), at index 65536 for the last 3. -/
def matchesC1 : Dictionary :=
  fun p => if p = 2 then (65531, 2) else if p = 65533 then (6, 1)
    else if p = 65536 then (3, 1) else (0, 0)

/-- The two blocks (263 and 260 bytes) that the compression of `inputC1` gives. -/
def streamC1 : List Nat :=
  List.replicate 48 0 ++ [32, 2] ++ List.replicate 78 0 ++ [2] ++ List.replicate 14 0 ++ [32] ++
  List.replicate 112 0 ++ [0, 29, 0, 0, 255, 248, 255] ++
  List.replicate 128 0 ++ [1] ++ List.replicate 127 0 ++ [0, 0, 0, 0]

/-- An input of eight different bytes. -/
def inputC5 : List Nat := [0, 1, 2, 3, 4, 5, 6, 7]

/-- A block of 260 bytes: a table that gives the symbols 0 to 7 and 0x100 the length 4, and
four bytes of payload that hold the code words of 0 to 7. -/
def streamC5 : List Nat :=
  [68, 68, 68, 68] ++ List.replicate 124 0 ++ [4] ++ List.replicate 127 0 ++ [35, 1, 103, 69]

/-- An input of nine different bytes. -/
def inputNine : List Nat := [0, 1, 2, 3, 4, 5, 6, 7, 8]

/-- The block that the compression of `inputNine` into 260 bytes gives: the table has the
length 3 for the symbols 0 to 5 and the length 4 for 6, 7, 8 and 0x100. -/
def streamNine : List Nat :=
  [51, 51, 51, 68, 4] ++ List.replicate 123 0 ++ [4] ++ List.replicate 127 0 ++ [57, 5, 123, 115]

/-- An input of fifty bytes `a`. -/
def inputRun : List Nat := List.replicate 50 97

/-- A match finder that reports, in `inputRun`, the run that goes on at index 30 for the 20
bytes up to the end of the input (offset 1), and nothing elsewhere. -/
def matchesRun : Dictionary := fun p => if p = 30 then (20, 1) else (0, 0)

/-- A reader over a raw length extension `0xFF, 0x0000, 0xFFFFFFFF` that follows four zero
bytes of bit stream. -/
def wrapBits : InBits := ⟨[0, 0, 0, 0, 0xFF, 0, 0, 0xFF, 0xFF, 0xFF, 0xFF], 4, 11, 0, 32⟩

/-- A decode state with one byte produced, over `wrapBits`. -/
def stateWrap : DecState InBits := ⟨[7], 1, wrapBits⟩

/-! ## The tokens of the intermediate stream -/

/-- A token of the intermediate stream: a literal byte, or a match with its raw offset and its
length minus 3. -/
inductive Token where
  | lit (b : Nat)
  | mtch (off len3 : Nat)
  deriving DecidableEq, Repr

/-- The end-of-stream token: offset 0, length field 0. -/
def terminator : Token := .mtch 0 0

/-- Number of input bytes a token stands for. -/
def Token.span : Token → Nat
  | .lit _ => 1
  | .mtch _ l => l + 3

/-- The mask bit of a token. -/
def Token.bit : Token → Nat
  | .lit _ => 0
  | .mtch _ _ => 1

/-- The bytes `xh_lz77_compress` writes for a token. -/
def Token.bytes : Token → List Nat
  | .lit b => [b]
  | .mtch off l =>
    le16 off ++ (if l > 0xFFFF then [0xFF] ++ le16 0 ++ le32 l else []) ++
      (if l ≥ 0xFF then [0xFF] ++ le16 l else [l % 256])

/-- The symbol `xh_lz77_compress` counts for a token. -/
def Token.sym : Token → Nat
  | .lit b => b
  | .mtch off l => (highbit off <<< 4) ||| min 0xF l ||| 0x100

/-- The token `xh_lz77_compress` emits with `in` at index `pos` and `rem` bytes to go. -/
def lzNext (Find : Dictionary) (inp : List Nat) (pos rem : Nat) : Token :=
  if 3 ≤ rem ∧ 3 ≤ (Find pos).1 then
    .mtch (Find pos).2 ((if (Find pos).1 > rem then rem else (Find pos).1) - 3)
  else .lit (inp.getD pos 0)

/-- What one token does to the mask in `xh_lz77_compress`: `mask >>= 1`, and
`mask |= 0x80000000` for a match. -/
def maskStep (m : Nat) : Token → Nat
  | .lit _ => m >>> 1
  | .mtch _ _ => (m >>> 1) ||| 0x80000000

/-- Sum of the spans of a list of tokens. -/
def spanSum (ts : List Token) : Nat := (ts.map Token.span).sum

/-- The tokens of one group: at most `k` of them, as long as `rem > 0`. -/
def groupToks (Find : Dictionary) (inp : List Nat) : Nat → Nat → Nat → List Token
  | 0, _, _ => []
  | k + 1, pos, rem =>
    if 0 < rem then
      lzNext Find inp pos rem ::
        groupToks Find inp k (pos + (lzNext Find inp pos rem).span)
          (rem - (lzNext Find inp pos rem).span)
    else []

/-- The groups of a chunk: groups of at most 32 tokens, as long as `rem > 0`. -/
def chunkGroups (Find : Dictionary) (inp : List Nat) : Nat → Nat → Nat → List (List Token)
  | 0, _, _ => []
  | fuel + 1, pos, rem =>
    if 0 < rem then
      groupToks Find inp 32 pos rem ::
        chunkGroups Find inp fuel (pos + spanSum (groupToks Find inp 32 pos rem))
          (rem - spanSum (groupToks Find inp 32 pos rem))
    else []

/-- The mask of a group: bit `j`, least significant first, is the bit of the `j`-th token. -/
def maskOf : List Token → Nat
  | [] => 0
  | t :: ts => t.bit + 2 * maskOf ts

/-- The bytes of a group: its 32-bit mask and the bytes of its tokens. -/
def grpBytes (g : List Token) : List Nat := le32 (maskOf g) ++ g.flatMap Token.bytes

/-- The groups with the end-of-stream token added: in the last group when it has fewer than
32 tokens, in a new group otherwise. -/
def addTerminator (gs : List (List Token)) : List (List Token) :=
  match gs.getLast? with
  | none => [[terminator]]
  | some g =>
    if g.length = 32 then gs ++ [[terminator]] else gs.dropLast ++ [g ++ [terminator]]

/-- The symbol counts after the tokens `ts`, starting from `counts`. -/
def countToks (counts : List Nat) (ts : List Token) : List Nat :=
  (ts.map Token.sym).foldl bump counts

/-- The state of `xh_lz77_compress` after a group `g` was written, with the mask as the loop
stores it. -/
def afterGroup (st : LzState) (g : List Token) : LzState :=
  { pos := st.pos + spanSum g, rem := st.rem - spanSum g, mask := g.foldl maskStep 0,
    buf := st.buf ++ le32 (g.foldl maskStep 0) ++ g.flatMap Token.bytes,
    counts := countToks st.counts g }

/-- All groups but the last hold exactly 32 tokens, and the last holds 1 to 32. -/
def FullButLast : List (List Token) → Prop
  | [] => True
  | [g] => 1 ≤ g.length ∧ g.length ≤ 32
  | g :: g1 :: gs => g.length = 32 ∧ FullButLast (g1 :: gs)

/-- The groups `xh_lz77_compress` writes for the chunk of `n` bytes at index `pos`, the
end-of-stream token included when the chunk ends at `in_end`. -/
def lzGroups (Find : Dictionary) (inp : List Nat) (pos n in_end : Nat) : List (List Token) :=
  if pos + n = in_end then addTerminator (chunkGroups Find inp n pos n)
  else chunkGroups Find inp n pos n

/-- The tokens fit the `rem` bytes they stand for: each spans no more than what is left when
it is emitted, a match spans at least 3, fewer than 3 bytes left give a literal, and nothing
is left after the last token. -/
def TokensFit : Nat → List Token → Prop
  | rem, [] => rem = 0
  | rem, t :: ts => 1 ≤ t.span ∧ t.span ≤ rem ∧ (t.bit = 1 → 3 ≤ t.span) ∧
      (rem < 3 → t.bit = 0) ∧ TokensFit (rem - t.span) ts

/-- The size `xpress_huff_compress` allocates for the scratch buffer, for an input of `in_len`
bytes: `(in_len > CHUNK_SIZE) ? 73739 : (in_len / 32 * 36 + 36 + 4 + 7)`. -/
def scratchSize (in_len : Nat) : Nat :=
  if in_len > CHUNK_SIZE then 73739 else in_len / 32 * 36 + 36 + 4 + 7

/-- The lengths of the windows of an input of `n ≥ 1` bytes: 65536 for each chunk but the
last, and the 1 to 65536 bytes that are left for the last. -/
def windows (n : Nat) : List Nat :=
  List.replicate ((n - 1) / CHUNK_SIZE) CHUNK_SIZE ++ [n - (n - 1) / CHUNK_SIZE * CHUNK_SIZE]

/-- The stream driver as the specification words it: the chunk driver is invoked on one
window after the other, each starting where the one before ended and with the capacity the
chunks before left; the first call that returns 0 makes the result 0; otherwise the result
is the sum of the sizes returned (in `size_t`). -/
def compressWindows {σ ε : Type} (W : OutputBitstream σ) (E : HuffmanEncoder σ ε)
    (Find : Dictionary) (inp : List Nat) (in_end : Nat) :
    List Nat → Nat → Nat → Nat → List Nat → CompressResult
  | [], _, _, total, acc => ⟨total, none, acc⟩
  | [w], pos, out_len, total, acc =>
    let c := xpress_huff_compress_chunk W E Find inp pos w in_end out_len
    if c.1.ret = 0 then ⟨0, c.1.errno, acc ++ c.1.out⟩
    else ⟨(total + c.1.ret) % SIZE_T, c.1.errno, acc ++ c.1.out⟩
  | w :: w1 :: ws, pos, out_len, total, acc =>
    let c := xpress_huff_compress_chunk W E Find inp pos w in_end out_len
    if c.1.ret = 0 then ⟨0, c.1.errno, acc ++ c.1.out⟩
    else compressWindows W E Find inp in_end (w1 :: ws) (pos + w)
      ((out_len + SIZE_T - c.1.ret) % SIZE_T) ((total + c.1.ret) % SIZE_T) (acc ++ c.1.out)

/-! ## A recording Bit Coder -/

/-- A call made to the Bit Coder by `xh_encode`. -/
inductive Event where
  | sym (s : Nat)
  | rawByte (b : Nat)
  | rawUInt16 (w : Nat)
  | rawUInt32 (d : Nat)
  | bits (v n : Nat)
  deriving DecidableEq, Repr

/-- A writer that records the calls made to it, in order, and lets each of them succeed. -/
def traceWriter : OutputBitstream (List Event) where
  init := fun _ => []
  WriteBits := fun s v n => (true, s ++ [.bits v n])
  WriteRawByte := fun s b => (true, s ++ [.rawByte b])
  WriteRawUInt16 := fun s w => (true, s ++ [.rawUInt16 w])
  WriteRawUInt32 := fun s d => (true, s ++ [.rawUInt32 d])
  Finish := fun s => s
  RawPosition := fun s => s.length
  contents := fun _ => []

/-- An encoder that records the symbols passed to `EncodeSymbol`, in order, and lets each call
succeed. -/
def traceEncoder : HuffmanEncoder (List Event) Unit where
  CreateCodes := fun _ => some ()
  HuffmanCodeLengths := fun _ => List.replicate SYMBOLS 0
  EncodeSymbol := fun _ sym s => (true, s ++ [.sym sym])

/-- A writer that does what `W` does and records every call made to it, in order, whether the
call succeeds or not. -/
def logWriter {σ : Type} (W : OutputBitstream σ) : OutputBitstream (σ × List Event) where
  init := fun n => (W.init n, [])
  WriteBits := fun s v n =>
    ((W.WriteBits s.1 v n).1, (W.WriteBits s.1 v n).2, s.2 ++ [.bits v n])
  WriteRawByte := fun s b =>
    ((W.WriteRawByte s.1 b).1, (W.WriteRawByte s.1 b).2, s.2 ++ [.rawByte b])
  WriteRawUInt16 := fun s w =>
    ((W.WriteRawUInt16 s.1 w).1, (W.WriteRawUInt16 s.1 w).2, s.2 ++ [.rawUInt16 w])
  WriteRawUInt32 := fun s d =>
    ((W.WriteRawUInt32 s.1 d).1, (W.WriteRawUInt32 s.1 d).2, s.2 ++ [.rawUInt32 d])
  Finish := fun s => (W.Finish s.1, s.2)
  RawPosition := fun s => W.RawPosition s.1
  contents := fun s => W.contents s.1

/-- An encoder that does what `E` does and records every symbol passed to `EncodeSymbol`, in
order, whether the call succeeds or not. -/
def logEncoder {σ ε : Type} (E : HuffmanEncoder σ ε) : HuffmanEncoder (σ × List Event) ε where
  CreateCodes := E.CreateCodes
  HuffmanCodeLengths := E.HuffmanCodeLengths
  EncodeSymbol := fun enc sym s =>
    ((E.EncodeSymbol enc sym s.1).1, (E.EncodeSymbol enc sym s.1).2, s.2 ++ [.sym sym])

/-- The symbols among the recorded calls: the arguments of `EncodeSymbol`, in order. -/
def symsOf (log : List Event) : List Nat :=
  log.filterMap (fun e => match e with
    | .sym s => some s
    | _ => none)

/-- The calls `xh_encode` makes for the length extension of a match with length minus 3 `l`. -/
def lenEvents (l : Nat) : List Event :=
  if l ≥ 0xF then
    if l ≥ 0xFF + 0xF then
      if l > 0xFFFF then [.rawByte 0xFF, .rawUInt16 0, .rawUInt32 l]
      else [.rawByte 0xFF, .rawUInt16 (l % 65536)]
    else [.rawByte ((l - 0xF) % 256)]
  else []

/-- The calls `xh_encode` makes for a token: for a literal its symbol; for a match its symbol,
the length extension and the low bits of the offset. -/
def Token.events : Token → List Event
  | .lit b => [.sym b]
  | .mtch off l =>
    [.sym ((highbit off <<< 4) ||| min 0xF l ||| 0x100)] ++ lenEvents l ++
      [.bits (off &&& OffsetMasks.getD (highbit off) 0) (highbit off)]

/-- A token whose fields have the width they are stored in: a literal is a byte, a match has a
16-bit offset and a length minus 3 of at most 0xFFFF. -/
def Token.wf : Token → Prop
  | .lit b => b < 256
  | .mtch off l => off < 65536 ∧ l ≤ 0xFFFF

/-- What `xh_encode` reads for a match at index `p` of the intermediate buffer: the offset,
the length minus 3, and the number of bytes read. -/
def readMatch (buf : List Nat) (p : Nat) : Nat × Nat × Nat :=
  let len0 := rd8 buf (p + 2)
  let len1 := if len0 = 0xFF then rd16 buf (p + 3) else len0
  (rd16 buf p,
    if len0 = 0xFF ∧ len1 = 0 then rd32 buf (p + 5) else len1,
    if len0 = 0xFF then (if len1 = 0 then 9 else 5) else 3)

/-- Number of tokens of a group that the loop over the mask bits of `xh_encode` handles: those
up to the last match; the literals after it are left to the loop that follows. -/
def loopCount : List Token → Nat
  | [] => 0
  | t :: ts => if maskOf (t :: ts) = 0 then 0 else 1 + loopCount ts

/-- An input of seven bytes, `abababa`; with `matchesC1` the match at index 2 takes the
five bytes that are left. -/
def inputC16 : List Nat := [97, 98, 97, 98, 97, 98, 97]

/-- The assumptions on the bit reader and the Huffman decoder under which decompression is
shown to end: the reader has a count `bitsLeft` of the bits it can still give, at most 8 per
byte it was given; a symbol decode that succeeds takes at least one of them and no other
operation adds any (for a decoder made from the header of a block of bytes); and `Inv len` holds of the states the reader goes through when it was
given `len` bytes (at least the 4 bytes of the first two words), in which the raw position
is at most `len`. Raw reads are only made after `RemainingRawBytes` was checked. -/
structure ReaderContract {τ δ : Type} (B : InputBitstream τ) (H : HuffmanDecoder τ δ)
    (bitsLeft : τ → Nat) (Inv : Nat → τ → Prop) : Prop where
  init_inv : ∀ inp len, 4 ≤ len → Inv len (B.init inp len)
  init_bits : ∀ inp len, 4 ≤ len → bitsLeft (B.init inp len) ≤ 8 * len
  position : ∀ len s, Inv len s → B.RawPosition s ≤ len
  decode : ∀ hdr dec len s, (∀ b ∈ hdr, b < 256) →
    H.SetCodeLengths (readHeader hdr) = some dec → Inv len s →
    Inv len (H.DecodeSymbol dec s).2 ∧
    ((H.DecodeSymbol dec s).1 ≠ H.INVALID_SYMBOL →
      bitsLeft (H.DecodeSymbol dec s).2 < bitsLeft s)
  skip : ∀ len s n, Inv len s → Inv len (B.Skip s n) ∧ bitsLeft (B.Skip s n) ≤ bitsLeft s
  rawByte : ∀ len s, Inv len s → 1 ≤ B.RemainingRawBytes s →
    Inv len (B.ReadRawByte s).2 ∧ bitsLeft (B.ReadRawByte s).2 ≤ bitsLeft s
  rawUInt16 : ∀ len s, Inv len s → 2 ≤ B.RemainingRawBytes s →
    Inv len (B.ReadRawUInt16 s).2 ∧ bitsLeft (B.ReadRawUInt16 s).2 ≤ bitsLeft s
  rawUInt32 : ∀ len s, Inv len s → 4 ≤ B.RemainingRawBytes s →
    Inv len (B.ReadRawUInt32 s).2 ∧ bitsLeft (B.ReadRawUInt32 s).2 ≤ bitsLeft s

/-- The bits the reference reader can still give: the pending ones and those of the bytes
after the raw position. -/
def InBits.bitsLeft (s : InBits) : Nat := s.bits + 8 * (s.len - s.index)

/-- The states of the reference reader that was given `len` bytes: the raw position is
within them. -/
def InBits.Inv (len : Nat) (s : InBits) : Prop := s.len = len ∧ s.index ≤ s.len

/-- What a successful chunk reports for `in_pos` when it was given `in_len` bytes. -/
def ChunkConsumes (in_len : Nat) : ChunkResult → Prop
  | .fail _ _ => True
  | .ok in_pos _ _ _ => HALF_SYMBOLS ≤ in_pos ∧ in_pos ≤ in_len ∧
      (in_len + SIZE_T - in_pos) % SIZE_T < in_len

/-! # Theorems -/

/-! ## Facts about the tables -/

set_option maxRecDepth 100000 in
theorem Log2Table_spec : ∀ y, y < 256 → y ≠ 0 →
    2 ^ (Log2Table.getD y 0) ≤ y ∧ y < 2 ^ (Log2Table.getD y 0 + 1) ∧ Log2Table.getD y 0 ≤ 7 := by
  decide

set_option maxRecDepth 100000 in
theorem OffsetMasks_spec : ∀ O, O < 16 → OffsetMasks.getD O 0 = 2 ^ O - 1 := by decide

theorem highbit_bounds (off : Nat) (h1 : 1 ≤ off) (h2 : off ≤ 0xFFFF) :
    highbit off ≤ 15 ∧ 2 ^ highbit off ≤ off ∧ off < 2 ^ (highbit off + 1) := by
  unfold highbit
  simp only [Nat.shiftRight_eq_div_pow]
  by_cases hy : off / 2 ^ 8 = 0
  · have hlt : off < 256 := by
      have := (Nat.div_eq_zero_iff (show 0 < 2 ^ 8 by norm_num)).mp hy
      omega
    have := Log2Table_spec off hlt (by omega)
    simp only [hy, ne_eq, not_true_eq_false, if_false]
    omega
  · have hylt : off / 2 ^ 8 < 256 := by omega
    have := Log2Table_spec (off / 2 ^ 8) hylt hy
    simp only [hy, ne_eq, not_false_eq_true, if_true]
    obtain ⟨ha, hb, hc⟩ := this
    refine ⟨by omega, ?_, ?_⟩
    · rw [Nat.pow_add]
      have : 2 ^ 8 * (off / 2 ^ 8) ≤ off := Nat.mul_div_le off (2 ^ 8)
      calc 2 ^ 8 * 2 ^ Log2Table.getD (off / 2 ^ 8) 0 ≤ 2 ^ 8 * (off / 2 ^ 8) := Nat.mul_le_mul_left _ ha
        _ ≤ off := this
    · have h3 : off < 2 ^ 8 * (off / 2 ^ 8 + 1) := by
        have := Nat.lt_mul_div_succ off (show 0 < 2 ^ 8 by norm_num)
        simpa using this
      have h4 : off / 2 ^ 8 + 1 ≤ 2 ^ (Log2Table.getD (off / 2 ^ 8) 0 + 1) := hb
      calc off < 2 ^ 8 * (off / 2 ^ 8 + 1) := h3
        _ ≤ 2 ^ 8 * 2 ^ (Log2Table.getD (off / 2 ^ 8) 0 + 1) := Nat.mul_le_mul_left _ h4
        _ = 2 ^ (8 + Log2Table.getD (off / 2 ^ 8) 0 + 1) := by rw [← Nat.pow_add]; ring_nf

/-- C9: for a raw offset `1 ≤ off ≤ 0xFFFF`, `O = highbit off` is the position of the highest
set bit (`O ≤ 15`, `2^O ≤ off < 2^(O+1)`), the transmitted residual `off & OffsetMasks[O]` is
below `2^O`, and the decoder's reconstruction `(1 << O) + residual` gives `off` back. -/
theorem C9_offset_roundtrip (off : Nat) (h1 : 1 ≤ off) (h2 : off ≤ 0xFFFF) :
    highbit off ≤ 15 ∧ 2 ^ highbit off ≤ off ∧ off < 2 ^ (highbit off + 1) ∧
    (off &&& OffsetMasks.getD (highbit off) 0) < 2 ^ highbit off ∧
    (1 <<< highbit off) + (off &&& OffsetMasks.getD (highbit off) 0) = off := by
  obtain ⟨ha, hb, hc⟩ := highbit_bounds off h1 h2
  have hm := OffsetMasks_spec (highbit off) (by omega)
  rw [hm, Nat.and_pow_two_sub_one_eq_mod, Nat.shiftLeft_eq, Nat.one_mul]
  refine ⟨ha, hb, hc, Nat.mod_lt _ (Nat.pos_pow_of_pos _ (by norm_num)), ?_⟩
  have hp : 2 ^ (highbit off + 1) = 2 * 2 ^ highbit off := by rw [Nat.pow_succ]; ring
  have : off % 2 ^ highbit off = off - 2 ^ highbit off := by
    rw [Nat.mod_eq_sub_mod hb]
    exact Nat.mod_eq_of_lt (by omega)
  omega

/-- Witness of C9 at the offset 0x1234. -/
theorem C9_offset_roundtrip_witness :
    highbit 0x1234 ≤ 15 ∧ 2 ^ highbit 0x1234 ≤ 0x1234 ∧ 0x1234 < 2 ^ (highbit 0x1234 + 1) ∧
    (0x1234 &&& OffsetMasks.getD (highbit 0x1234) 0) < 2 ^ highbit 0x1234 ∧
    (1 <<< highbit 0x1234) + (0x1234 &&& OffsetMasks.getD (highbit 0x1234) 0) = 0x1234 :=
  C9_offset_roundtrip 0x1234 (by decide) (by decide)

/-! ## The code-length table header -/

set_option maxRecDepth 100000 in
theorem nibble_pack : ∀ a, a < 16 → ∀ b, b < 16 →
    ((b <<< 4) ||| a) % 256 = a ||| (b <<< 4) ∧
    (((b <<< 4) ||| a) % 256) &&& 0xF = a ∧ (((b <<< 4) ||| a) % 256) >>> 4 = b := by
  decide

theorem writeHeader_length (lens : List Nat) : (writeHeader lens).length = 256 := by
  simp [writeHeader, HALF_SYMBOLS]

theorem writeHeader_getD (lens : List Nat) (i : Nat) (hi : i < 256) :
    (writeHeader lens).getD i 0 =
      ((lens.getD (2 * i + 1) 0 <<< 4) ||| lens.getD (2 * i) 0) % 256 := by
  simp [writeHeader, HALF_SYMBOLS, List.getD_eq_getElem?_getD, List.getElem?_map,
    List.getElem?_range hi]

theorem readHeader_prefix (inp lens : List Nat) (hlen : lens.length = 512)
    (h : ∀ i, i < 256 → inp.getD i 0 &&& 0xF = lens.getD (2 * i) 0 ∧
      inp.getD i 0 >>> 4 = lens.getD (2 * i + 1) 0) :
    ∀ n, n ≤ 256 → (List.range n).flatMap
      (fun i => [inp.getD i 0 &&& 0xF, inp.getD i 0 >>> 4]) = lens.take (2 * n) := by
  intro n
  induction n with
  | zero => intro _; simp
  | succ n ih =>
    intro hn
    have h1 : 2 * n < lens.length := by omega
    have h2 : 2 * n + 1 < lens.length := by omega
    rw [List.range_succ, List.flatMap_append, ih (by omega)]
    obtain ⟨ha, hb⟩ := h n (by omega)
    simp only [List.flatMap_cons, List.flatMap_nil, List.append_nil, ha, hb]
    rw [show 2 * (n + 1) = 2 * n + 1 + 1 by ring, List.take_succ, List.take_succ]
    simp only [List.getD_eq_getElem?_getD, List.getElem?_eq_getElem h1,
      List.getElem?_eq_getElem h2, Option.getD_some, Option.toList_some, List.append_assoc,
      List.singleton_append]

/-- C10: for a table of 512 code lengths, each at most 15, `xh_encode` writes exactly 256 header
bytes, byte `i` being `lens[2i] | (lens[2i+1] << 4)`, and the unpacking loop of
`xpress_huff_decompress_chunk` applied to those bytes gives the 512 lengths back. -/
theorem C10_header_roundtrip (lens : List Nat) (hlen : lens.length = 512)
    (hnib : ∀ l ∈ lens, l ≤ 15) :
    (writeHeader lens).length = 256 ∧
    (∀ i, i < 256 → (writeHeader lens).getD i 0 =
        lens.getD (2 * i) 0 ||| (lens.getD (2 * i + 1) 0 <<< 4)) ∧
    readHeader (writeHeader lens) = lens := by
  have hn : ∀ j, j < 512 → lens.getD j 0 < 16 := by
    intro j hj
    have hj2 : j < lens.length := by omega
    have := hnib (lens[j]) (List.getElem_mem hj2)
    simp only [List.getD_eq_getElem?_getD, List.getElem?_eq_getElem hj2, Option.getD_some]
    omega
  refine ⟨writeHeader_length lens, ?_, ?_⟩
  · intro i hi
    rw [writeHeader_getD lens i hi]
    exact (nibble_pack _ (hn (2 * i) (by omega)) _ (hn (2 * i + 1) (by omega))).1
  · have := readHeader_prefix (writeHeader lens) lens hlen (by
      intro i hi
      rw [writeHeader_getD lens i hi]
      have := nibble_pack _ (hn (2 * i) (by omega)) _ (hn (2 * i + 1) (by omega))
      exact ⟨this.2.1, this.2.2⟩) 256 (le_refl _)
    unfold readHeader
    rw [show HALF_SYMBOLS = 256 from rfl, this]
    exact List.take_of_length_le (by omega)

/-- Witness of C10 at the table in which every symbol has length 9. -/
theorem C10_header_roundtrip_witness :
    (List.replicate 512 9).length = 512 ∧
    readHeader (writeHeader (List.replicate 512 9)) = List.replicate 512 9 :=
  ⟨List.length_replicate 512 9,
    (C10_header_roundtrip (List.replicate 512 9) (List.length_replicate 512 9)
      (by intro l hl; rw [List.eq_of_mem_replicate hl]; decide)).2.2⟩

/-! ## Reading back what was stored -/

theorem rd8_append_right (a b : List Nat) (k : Nat) :
    rd8 (a ++ b) (a.length + k) = rd8 b k := by
  simp [rd8, List.getD_eq_getElem?_getD, List.getElem?_append_right]

theorem rd16_append_right (a b : List Nat) (k : Nat) :
    rd16 (a ++ b) (a.length + k) = rd16 b k := by
  simp only [rd16, Nat.add_assoc, rd8_append_right]

theorem rd32_append_right (a b : List Nat) (k : Nat) :
    rd32 (a ++ b) (a.length + k) = rd32 b k := by
  simp only [rd32, Nat.add_assoc, rd8_append_right]

theorem rd16_le16 (v : Nat) (rest : List Nat) : rd16 (le16 v ++ rest) 0 = v % 65536 := by
  simp [rd16, rd8, le16]
  omega

theorem rd32_le32 (v : Nat) (rest : List Nat) : rd32 (le32 v ++ rest) 0 = v % U32 := by
  simp [rd32, rd8, le32, U32]
  omega

/-! ## The length of a match on the wire -/

/-- C8: for every match length `3 ≤ n ≤ 2^32 - 1`, the extension writes of `xh_encode` for
`n - 3` succeed when 7 bytes of room are left and append some bytes `ext`; the decoder's length
computation, started on the nibble `min(15, n-3)` at the place where `ext` begins, gives
exactly `n` and leaves the raw position right behind `ext`. -/
theorem C8_length_roundtrip (n : Nat) (h3 : 3 ≤ n) (hn : n ≤ 2 ^ 32 - 1) (w : OutBits)
    (rest : List Nat) (hcap : w.mem.length + 7 ≤ w.len) :
    (encodeLength refOutputBitstream (n - 3) w).1 = true ∧
    ∃ ext : List Nat,
      (encodeLength refOutputBitstream (n - 3) w).2 = { w with mem := w.mem ++ ext } ∧
      ext.length ≤ 7 ∧
      ∀ r : InBits, r.data = w.mem ++ ext ++ rest → r.index = w.mem.length →
        r.len = r.data.length →
        decodeLength refInputBitstream (min 0xF (n - 3)) r =
          .ok (n, { r with index := r.index + ext.length }) := by
  obtain ⟨len, rfl⟩ : ∃ len, n = len + 3 := ⟨n - 3, by omega⟩
  simp only [Nat.add_sub_cancel]
  have hlen : len + 3 < U32 := by simp only [U32]; omega
  by_cases h15 : len < 0xF
  · refine ⟨by simp [encodeLength, Nat.not_le.mpr h15], [], ?_, by simp, ?_⟩
    · simp [encodeLength, Nat.not_le.mpr h15]
    · intro r _ _ _
      have hmin : min 0xF len = len := Nat.min_eq_right (by omega)
      have hne : len ≠ 0xF := by omega
      simp only [decodeLength, hmin, hne, if_false, List.length_nil, Nat.add_zero,
        Nat.mod_eq_of_lt hlen]
  · have hmin : min 0xF len = 0xF := Nat.min_eq_left (by omega)
    by_cases h270 : len < 0xFF + 0xF
    · -- one extension byte
      have hb : (len - 0xF) % 256 = len - 0xF := Nat.mod_eq_of_lt (by omega)
      refine ⟨?_, [len - 0xF], ?_, by simp, ?_⟩
      · have : ¬ (w.mem.length + 1 > w.len) := by omega
        simp [encodeLength, refOutputBitstream, OutBits.WriteRaw, Nat.not_lt.mp h15,
          Nat.not_le.mpr h270, this]
      · have : ¬ (w.mem.length + 1 > w.len) := by omega
        simp [encodeLength, refOutputBitstream, OutBits.WriteRaw, Nat.not_lt.mp h15,
          Nat.not_le.mpr h270, hb, this]
      · intro r hd hi hl
        have hrem : ¬ (r.len - r.index < 1) := by
          rw [hl, hd, hi]; simp
        have hrd : rd8 r.data r.index = len - 0xF := by
          rw [hd, hi, List.append_assoc]
          have := rd8_append_right w.mem ([len - 0xF] ++ rest) 0
          rw [Nat.add_zero] at this
          rw [this]
          simp [rd8, hb]
        have hne : ¬ (len - 0xF = 0xFF) := by omega
        have hval : (len - 0xF + 0xF + 3) % U32 = len + 3 := by
          rw [Nat.mod_eq_of_lt (by omega)]; omega
        simp only [decodeLength, hmin, refInputBitstream, hrem, hrd, if_true, if_false,
          Nat.mod_eq_of_lt (show len - 0xF < 256 by omega), hne, hval, List.length_singleton]
    · by_cases h64k : len ≤ 0xFFFF
      · -- 0xFF and a 16-bit word
        have hw : len % 65536 = len := Nat.mod_eq_of_lt (by omega)
        refine ⟨?_, [0xFF] ++ le16 len, ?_, by simp [le16], ?_⟩
        · have h1 : ¬ (w.mem.length + 1 > w.len) := by omega
          have h2 : ¬ (w.mem.length + 1 + 2 > w.len) := by omega
          simp [encodeLength, refOutputBitstream, OutBits.WriteRaw, Nat.not_lt.mp h15,
            Nat.not_lt.mp h270, Nat.not_lt.mpr h64k, h1, h2, le16]
        · have h1 : ¬ (w.mem.length + 1 > w.len) := by omega
          have h2 : ¬ (w.mem.length + 1 + 2 > w.len) := by omega
          simp [encodeLength, refOutputBitstream, OutBits.WriteRaw, Nat.not_lt.mp h15,
            Nat.not_lt.mp h270, Nat.not_lt.mpr h64k, h1, h2, le16, hw]
        · intro r hd hi hl
          have hrem1 : ¬ (r.len - r.index < 1) := by
            rw [hl, hd, hi]; simp [le16]
          have hrem2 : ¬ (r.len - (r.index + 1) < 2) := by
            rw [hl, hd, hi]; simp [le16]; omega
          have hrd1 : rd8 r.data r.index = 0xFF := by
            rw [hd, hi, List.append_assoc]
            have := rd8_append_right w.mem ([0xFF] ++ le16 len ++ rest) 0
            rw [Nat.add_zero] at this
            rw [this]
            simp [rd8]
          have hrd2 : rd16 r.data (r.index + 1) = len := by
            rw [hd, hi, List.append_assoc, rd16_append_right]
            have := rd16_append_right [0xFF] (le16 len ++ rest) 0
            simp only [List.length_singleton, Nat.add_zero] at this
            rw [List.append_assoc, this, rd16_le16, hw]
          have hne0 : ¬ (len = 0) := by omega
          have hge : ¬ (len < 0xF) := h15
          have hval : (len - 0xF + 0xF + 3) % U32 = len + 3 := by
            rw [Nat.mod_eq_of_lt (by omega)]; omega
          simp only [decodeLength, hmin, refInputBitstream, hrem1, hrd1, hrem2, hrd2, if_true,
            if_false, Nat.mod_eq_of_lt (show 0xFF < 256 by norm_num), hw, hne0, hge, hval]
          simp [le16, Nat.add_assoc]
      · -- 0xFF, a zero 16-bit word and a 32-bit word
        have hd32 : len % U32 = len := Nat.mod_eq_of_lt (by simp only [U32]; omega)
        refine ⟨?_, [0xFF] ++ le16 0 ++ le32 len, ?_, by simp [le16, le32], ?_⟩
        · have h1 : ¬ (w.mem.length + 1 > w.len) := by omega
          have h2 : ¬ (w.mem.length + 1 + 2 > w.len) := by omega
          have h3 : ¬ (w.mem.length + 1 + 2 + 4 > w.len) := by omega
          simp [encodeLength, refOutputBitstream, OutBits.WriteRaw, Nat.not_lt.mp h15,
            Nat.not_lt.mp h270, Nat.not_le.mp h64k, h1, h2, h3, le16, le32]
        · have h1 : ¬ (w.mem.length + 1 > w.len) := by omega
          have h2 : ¬ (w.mem.length + 1 + 2 > w.len) := by omega
          have h3 : ¬ (w.mem.length + 1 + 2 + 4 > w.len) := by omega
          simp [encodeLength, refOutputBitstream, OutBits.WriteRaw, Nat.not_lt.mp h15,
            Nat.not_lt.mp h270, Nat.not_le.mp h64k, h1, h2, h3, le16, le32]
        · intro r hd hi hl
          have hrem1 : ¬ (r.len - r.index < 1) := by
            rw [hl, hd, hi]; simp [le16, le32]
          have hrem2 : ¬ (r.len - (r.index + 1) < 2) := by
            rw [hl, hd, hi]; simp [le16, le32]; omega
          have hrem3 : ¬ (r.len - (r.index + 1 + 2) < 4) := by
            rw [hl, hd, hi]; simp [le16, le32]; omega
          have hrd1 : rd8 r.data r.index = 0xFF := by
            rw [hd, hi, List.append_assoc]
            have := rd8_append_right w.mem ([0xFF] ++ le16 0 ++ le32 len ++ rest) 0
            rw [Nat.add_zero] at this
            rw [this]
            simp [rd8]
          have hrd2 : rd16 r.data (r.index + 1) = 0 := by
            rw [hd, hi, List.append_assoc, rd16_append_right]
            have := rd16_append_right [0xFF] (le16 0 ++ (le32 len ++ rest)) 0
            simp only [List.length_singleton, Nat.add_zero] at this
            rw [List.append_assoc, List.append_assoc, this, rd16_le16]
          have hrd3 : rd32 r.data (r.index + 1 + 2) = len := by
            rw [hd, hi, List.append_assoc, Nat.add_assoc, rd32_append_right]
            have := rd32_append_right ([0xFF] ++ le16 0) (le32 len ++ rest) 0
            simp only [List.length_append, List.length_singleton, Nat.add_zero] at this
            rw [List.append_assoc, show (1 + 2 : Nat) = 1 + (le16 0).length from rfl, this,
              rd32_le32, hd32]
          have hge : ¬ (len < 0xF) := h15
          have hval : (len - 0xF + 0xF + 3) % U32 = len + 3 := by
            rw [Nat.mod_eq_of_lt (by omega)]; omega
          simp only [decodeLength, hmin, refInputBitstream, hrem1, hrd1, hrem2, hrd2, hrem3,
            hrd3, if_true, if_false, Nat.mod_eq_of_lt (show 0xFF < 256 by norm_num),
            Nat.zero_mod, hd32, hge, hval]
          simp [le16, le32, Nat.add_assoc]

/-! ## The decode loop -/

theorem decodeLength_error {τ : Type} (B : InputBitstream τ) (nib : Nat) (s : τ) (e : Errno)
    (h : decodeLength B nib s = .error e) : e = .E_INVALID_DATA := by
  unfold decodeLength at h
  simp only at h
  split_ifs at h <;> (cases h; rfl)

theorem decodeLength_lt {τ : Type} (B : InputBitstream τ) (nib : Nat) (s s1 : τ) (len : Nat)
    (h : decodeLength B nib s = .ok (len, s1)) : len < U32 := by
  unfold decodeLength at h
  simp only at h
  have hpos : 0 < U32 := by simp [U32]
  split_ifs at h <;> (cases h; exact Nat.mod_lt _ hpos)

theorem copyMatch_spec (off : Nat) : ∀ (n : Nat) (out : List Nat),
    ∃ w, copyMatch off n out = out ++ w ∧ w.length = n := by
  intro n
  induction n with
  | zero => intro out; exact ⟨[], by simp [copyMatch], rfl⟩
  | succ n ih =>
    intro out
    obtain ⟨w, hw, hl⟩ := ih (out ++ [out.getD (out.length - off) 0])
    refine ⟨out.getD (out.length - off) 0 :: w, ?_, by simp [hl]⟩
    rw [copyMatch, hw, List.append_assoc, List.singleton_append]



theorem decodeMatch_safe {τ : Type} (B : InputBitstream τ) (out_len sym : Nat)
    (st : DecState τ) (hcap : out_len + U32 ≤ SIZE_T) (hi : st.i ≤ out_len) :
    StepSafe out_len st (decodeMatch B out_len sym st) := by
  unfold decodeMatch
  simp only []
  cases hdl : decodeLength B (sym &&& 0xF) st.bstr with
  | error e =>
    simp only []
    split_ifs <;> rfl
  | ok p =>
    obtain ⟨len, s1⟩ := p
    have hlen := decodeLength_lt B _ _ _ _ hdl
    have hmod : (st.i + len) % SIZE_T = st.i + len := Nat.mod_eq_of_lt (by omega)
    simp only [hmod]
    split_ifs with h1 h2 h3 h4
    · rfl
    · rfl
    · rfl
    · simp only [StepSafe]
      exact ⟨by omega, by omega, _, rfl, by simp⟩
    · simp only [StepSafe]
      obtain ⟨w, hw, hl⟩ := copyMatch_spec
        (matchOffset (B.Peek st.bstr (sym >>> 4 &&& 0xF) % U32) (sym >>> 4 &&& 0xF))
        (st.i + len - st.i) st.out
      exact ⟨by omega, by omega, w, hw, by rw [hl]; omega⟩

theorem decodeStep_safe {τ δ : Type} (B : InputBitstream τ) (H : HuffmanDecoder τ δ) (dec : δ)
    (out_len : Nat) (st : DecState τ) (hcap : out_len + U32 ≤ SIZE_T) (hi : st.i ≤ out_len) :
    StepSafe out_len st (decodeStep B H dec out_len st) := by
  unfold decodeStep
  simp only
  split_ifs with h1 h2 h3 h4
  · rfl
  · exact ⟨rfl, rfl⟩
  · rfl
  · simp only [StepSafe]
    exact ⟨by omega, by omega, _, rfl, by simp⟩
  · exact decodeMatch_safe B out_len _ ⟨st.out, st.i, _⟩ hcap hi

theorem decodeLoop_safe {τ δ : Type} (B : InputBitstream τ) (H : HuffmanDecoder τ δ) (dec : δ)
    (out_len : Nat) (hcap : out_len + U32 ≤ SIZE_T) (hist : List Nat) :
    ∀ (fuel : Nat) (st : DecState τ) (r : ChunkResult), st.i ≤ out_len →
      (∃ w, st.out = hist ++ w ∧ w.length = st.i) →
      decodeLoop B H dec out_len fuel st = some r → ChunkSafe hist out_len r := by
  intro fuel
  induction fuel with
  | zero => intro st r _ _ h; simp [decodeLoop] at h
  | succ fuel ih =>
    intro st r hi ⟨w, hw, hwl⟩ h
    have hs := decodeStep_safe B H dec out_len st hcap hi
    rw [decodeLoop] at h
    split at h
    · rename_i e out heq
      rw [heq] at hs
      cases h
      exact ⟨w, by rw [← hw]; exact hs, by omega⟩
    · rename_i st1 heq
      rw [heq] at hs
      cases h
      exact ⟨by rw [hs.2]; exact hi, w, by rw [hs.1, hw], by rw [hs.2, hwl]⟩
    · rename_i st1 heq
      rw [heq] at hs
      obtain ⟨h1, h2, w1, hw1, hl1⟩ := hs
      have hinv : ∃ w', st1.out = hist ++ w' ∧ w'.length = st1.i :=
        ⟨w ++ w1, by rw [hw1, hw, List.append_assoc], by simp [hwl, hl1]; omega⟩
      split_ifs at h
      · exact ih st1 r h2 hinv h
      · cases h
        obtain ⟨w', hw', hl'⟩ := hinv
        exact ⟨h2, w', hw', hl'⟩

/-- C4: with a capacity `out_len` that leaves room for a 32-bit length below the top of
`size_t`, every pass through the decode loop that starts with `i ≤ out_len` keeps what was
written, adds exactly the bytes between the old and the new `i`, and ends with `i ≤ out_len`;
a literal decoded when `i = out_len` and a match with `i + length > out_len` fail with
`E_INSUFFICIENT_BUFFER` and leave the output as it was; and whatever a chunk returns, it has
added no more than `out_len` bytes to the output. -/
theorem C4_writes_within_capacity {τ δ : Type} (B : InputBitstream τ)
    (H : HuffmanDecoder τ δ) (dec : δ) (out_len : Nat) (hcap : out_len + U32 ≤ SIZE_T) :
    (∀ st : DecState τ, st.i ≤ out_len →
      StepSafe out_len st (decodeStep B H dec out_len st)) ∧
    (∀ st : DecState τ, (H.DecodeSymbol dec st.bstr).1 ≠ H.INVALID_SYMBOL →
      (H.DecodeSymbol dec st.bstr).1 < 0x100 → st.i = out_len →
      decodeStep B H dec out_len st = .fail .E_INSUFFICIENT_BUFFER st.out) ∧
    (∀ (st : DecState τ) (sym len : Nat) (s1 : τ),
      B.Peek st.bstr ((sym >>> 4) &&& 0xF) % U32 ≠ 0xFFFFFFFF →
      matchOffset (B.Peek st.bstr ((sym >>> 4) &&& 0xF) % U32) ((sym >>> 4) &&& 0xF)
        ≤ st.out.length →
      decodeLength B (sym &&& 0xF) st.bstr = .ok (len, s1) →
      st.i ≤ out_len → st.i + len > out_len →
      decodeMatch B out_len sym st = .fail .E_INSUFFICIENT_BUFFER st.out) ∧
    (∀ (fuel : Nat) (inp : List Nat) (in_len : Nat) (hist : List Nat) (r : ChunkResult),
      xpress_huff_decompress_chunk B H fuel inp in_len hist out_len = some r →
      ChunkSafe hist out_len r) := by
  refine ⟨fun st hi => decodeStep_safe B H dec out_len st hcap hi, ?_, ?_, ?_⟩
  · intro st h1 h2 h3
    have hne : ¬ ((H.DecodeSymbol dec st.bstr).1 = STREAM_END ∧
        B.MaskIsZero (H.DecodeSymbol dec st.bstr).2 = true) := by
      rintro ⟨h, _⟩
      simp only [STREAM_END] at h
      omega
    simp only [decodeStep, h1, hne, h2, h3, if_true, if_false]
  · intro st sym len s1 hp ho hdl hi hgt
    have hlen := decodeLength_lt B _ _ _ _ hdl
    have hmod : (st.i + len) % SIZE_T = st.i + len := Nat.mod_eq_of_lt (by omega)
    unfold decodeMatch
    simp only [hp, Nat.not_lt.mpr ho, hdl, hmod, hgt, if_true, if_false]
  · intro fuel inp in_len hist r h
    unfold xpress_huff_decompress_chunk at h
    by_cases hmin : in_len < MIN_DATA
    · rw [if_pos hmin] at h
      cases h
      exact ⟨[], by simp, by simp⟩
    · rw [if_neg hmin] at h
      split at h
      · cases h
        exact ⟨[], by simp, by simp⟩
      · rename_i d _
        exact decodeLoop_safe B H d out_len hcap hist fuel _ r (Nat.zero_le _)
          ⟨[], by simp, rfl⟩ h



/-- C3, as the code has it: when the residual read for a match is an `O`-bit value, the offset
is `(1 << O) + residual`; with `hist.length + i` bytes produced over the whole stream so far,
an offset beyond them makes the token fail with `E_INVALID_DATA` and the output untouched; the
token fails with `E_INVALID_DATA` exactly when the offset is beyond them or the length
extension cannot be read or is below 15; and an offset within them, earlier chunks included,
with a length that is read and fits, is accepted. -/
theorem C3_offset_check {τ : Type} (B : InputBitstream τ) (out_len sym : Nat)
    (st : DecState τ) (hist w : List Nat) (hout : st.out = hist ++ w) (hw : w.length = st.i)
    (hres : B.Peek st.bstr ((sym >>> 4) &&& 0xF) < 2 ^ ((sym >>> 4) &&& 0xF)) :
    matchOffset (B.Peek st.bstr ((sym >>> 4) &&& 0xF) % U32) ((sym >>> 4) &&& 0xF) =
      (1 <<< ((sym >>> 4) &&& 0xF)) + B.Peek st.bstr ((sym >>> 4) &&& 0xF) ∧
    (hist.length + st.i < (1 <<< ((sym >>> 4) &&& 0xF)) + B.Peek st.bstr ((sym >>> 4) &&& 0xF) →
      decodeMatch B out_len sym st = .fail .E_INVALID_DATA st.out) ∧
    (decodeMatch B out_len sym st = .fail .E_INVALID_DATA st.out ↔
      (hist.length + st.i < (1 <<< ((sym >>> 4) &&& 0xF)) + B.Peek st.bstr ((sym >>> 4) &&& 0xF) ∨
        ∃ e, decodeLength B (sym &&& 0xF) st.bstr = .error e)) ∧
    ((1 <<< ((sym >>> 4) &&& 0xF)) + B.Peek st.bstr ((sym >>> 4) &&& 0xF) ≤ hist.length + st.i →
      ∀ (len : Nat) (s1 : τ), decodeLength B (sym &&& 0xF) st.bstr = .ok (len, s1) →
        (st.i + len) % SIZE_T ≤ out_len → ∃ st1, decodeMatch B out_len sym st = .next st1) := by
  have hO : (sym >>> 4) &&& 0xF ≤ 15 := Nat.and_le_right
  generalize hOdef : (sym >>> 4) &&& 0xF = O at *
  generalize hpdef : B.Peek st.bstr O = p at *
  have h2O : 2 ^ O ≤ 2 ^ 15 := Nat.pow_le_pow_right (by norm_num) hO
  have hpm : p % U32 = p := Nat.mod_eq_of_lt (by simp only [U32]; omega)
  have hne : ¬ (p = 0xFFFFFFFF) := by omega
  have hoff : matchOffset p O = (1 <<< O) + p := by
    unfold matchOffset
    rw [Nat.shiftLeft_eq, Nat.one_mul, Nat.mod_eq_of_lt (by simp only [U32]; omega)]
    omega
  have hlen : st.out.length = hist.length + st.i := by rw [hout, List.length_append, hw]
  rw [hpm]
  refine ⟨hoff, ?_, ?_, ?_⟩
  · intro hlt
    unfold decodeMatch
    simp only [hOdef, hpdef, hpm, hne, hoff, hlen, hlt, if_true, if_false]
  · unfold decodeMatch
    simp only [hOdef, hpdef, hpm, hne, hoff, hlen, if_false]
    by_cases hlt : hist.length + st.i < 1 <<< O + p
    · simp only [hlt, if_true, true_or]
    · simp only [hlt, if_false, false_or]
      cases hdl : decodeLength B (sym &&& 0xF) st.bstr with
      | error e =>
        have := decodeLength_error B _ _ _ hdl
        subst this
        simp
      | ok q =>
        obtain ⟨len, s1⟩ := q
        simp only [false_iff, reduceCtorEq, exists_false, iff_false]
        split_ifs <;> simp
  · intro hle len s1 hdl hfit
    unfold decodeMatch
    simp only [hOdef, hpdef, hpm, hne, hoff, hlen, Nat.not_lt.mpr hle, hdl,
      Nat.not_lt.mpr hfit, if_false]
    split_ifs
    · exact ⟨_, rfl⟩
    · exact ⟨_, rfl⟩

/-! ## The stream drivers -/

/-- C6, as the code has it: with fewer than 260 bytes of input left, at the start or after a
chunk that did not end the stream, the stream driver returns 0 and writes nothing more;
`errno` is set to `E_INVALID_DATA` when at least one byte is left, and is left untouched when
none is (the empty input). -/
theorem C6_short_input {τ δ : Type} (B : InputBitstream τ) (H : HuffmanDecoder τ δ)
    (fuel n : Nat) (inp : List Nat) (in_len : Nat) (hist : List Nat) (out_len : Nat)
    (hshort : in_len < 260) :
    decompressLoop B H fuel (n + 1) inp in_len hist out_len =
      some ⟨0, if in_len ≠ 0 then some .E_INVALID_DATA else none, hist⟩ ∧
    xpress_huff_decompress B H (n + 1) inp in_len out_len =
      some ⟨0, if in_len ≠ 0 then some .E_INVALID_DATA else none, []⟩ := by
  have hmin : in_len < MIN_DATA := hshort
  constructor
  · simp only [decompressLoop, xpress_huff_decompress_chunk, hmin, if_true]
  · simp only [xpress_huff_decompress, decompressLoop, xpress_huff_decompress_chunk, hmin,
      if_true]

/-- C7: a decoded symbol 0x100 (which is not the decoder's invalid-symbol value) is resolved
by `MaskIsZero` alone. With the mask zero the pass stops with `end_of_stream` and the output
as it was. Otherwise, a reader that peeks 0 for 0 bits gives offset 1 and length 3; with at
least one byte produced and 3 bytes of capacity left, three copies of the last output byte
are appended, `i` advances by 3, and, skipping 0 bits leaving the reader as it is, the loop
goes on to the next symbol. -/
theorem C7_stream_end_symbol {τ δ : Type} (B : InputBitstream τ) (H : HuffmanDecoder τ δ)
    (dec : δ) (out_len : Nat) (st : DecState τ)
    (hsym : (H.DecodeSymbol dec st.bstr).1 = STREAM_END)
    (hinv : H.INVALID_SYMBOL ≠ STREAM_END) :
    (B.MaskIsZero (H.DecodeSymbol dec st.bstr).2 = true →
      decodeStep B H dec out_len st = .stop ⟨st.out, st.i, (H.DecodeSymbol dec st.bstr).2⟩) ∧
    (B.MaskIsZero (H.DecodeSymbol dec st.bstr).2 = false →
      B.Peek (H.DecodeSymbol dec st.bstr).2 0 = 0 →
      matchOffset (B.Peek (H.DecodeSymbol dec st.bstr).2 ((STREAM_END >>> 4) &&& 0xF) % U32)
        ((STREAM_END >>> 4) &&& 0xF) = 1 ∧
      decodeLength B (STREAM_END &&& 0xF) (H.DecodeSymbol dec st.bstr).2 =
        .ok (3, (H.DecodeSymbol dec st.bstr).2) ∧
      (1 ≤ st.out.length → st.i + 3 ≤ out_len → out_len < SIZE_T →
        decodeStep B H dec out_len st =
          .next ⟨st.out ++ List.replicate 3 (st.out.getD (st.out.length - 1) 0), st.i + 3,
            B.Skip (H.DecodeSymbol dec st.bstr).2 0⟩ ∧
        (B.Skip (H.DecodeSymbol dec st.bstr).2 0 = (H.DecodeSymbol dec st.bstr).2 →
          ∀ fuel, decodeLoop B H dec out_len (fuel + 1) st =
            decodeLoop B H dec out_len fuel
              ⟨st.out ++ List.replicate 3 (st.out.getD (st.out.length - 1) 0), st.i + 3,
                (H.DecodeSymbol dec st.bstr).2⟩))) := by
  have hinv2 : ¬ (STREAM_END = H.INVALID_SYMBOL) := fun h => hinv h.symm
  have hO : (STREAM_END >>> 4) &&& 0xF = 0 := by decide
  have hN : STREAM_END &&& 0xF = 0 := by decide
  have hlit : ¬ (STREAM_END < 0x100) := by decide
  constructor
  · intro hz
    simp only [decodeStep, hsym, hinv2, hz, and_self, if_true, if_false]
  · intro hz hpeek
    have hoff : matchOffset (B.Peek (H.DecodeSymbol dec st.bstr).2 0 % U32) 0 = 1 := by
      rw [hpeek]; decide
    have hdl : decodeLength B 0 (H.DecodeSymbol dec st.bstr).2 =
        .ok (3, (H.DecodeSymbol dec st.bstr).2) := by
      simp [decodeLength, U32]
    rw [hO, hN]
    refine ⟨hoff, hdl, ?_⟩
    intro hprod hfit hsz
    have hmod : (st.i + 3) % SIZE_T = st.i + 3 := Nat.mod_eq_of_lt (by omega)
    have hp : ¬ (B.Peek (H.DecodeSymbol dec st.bstr).2 0 % U32 = 0xFFFFFFFF) := by
      rw [hpeek]; decide
    have hstep : decodeStep B H dec out_len st =
        .next ⟨st.out ++ List.replicate 3 (st.out.getD (st.out.length - 1) 0), st.i + 3,
          B.Skip (H.DecodeSymbol dec st.bstr).2 0⟩ := by
      simp only [decodeStep, hsym, hinv2, hz, hlit, if_false, decodeMatch, hO, hN,
        hp, hoff, hdl, hmod, Nat.not_lt.mpr hprod, Nat.not_lt.mpr hfit, if_true]
      simp
    refine ⟨hstep, ?_⟩
    intro hskip fuel
    rw [decodeLoop, hstep]
    simp only [hskip, hz, or_true, if_true]

/-- C2, as the code has it: compressing an empty input returns 0 and writes nothing, whatever
the capacity; 260 bytes is what the chunk driver returns for a chunk of length zero when the
capacity is at least 260. -/
theorem C2_empty_input {σ ε : Type} (W : OutputBitstream σ) (E : HuffmanEncoder σ ε)
    (Find : Dictionary) (inp : List Nat) (pos in_end out_len : Nat) :
    xpress_huff_compress W E Find inp 0 out_len = ⟨0, none, []⟩ ∧
    (260 ≤ out_len →
      (xpress_huff_compress_chunk W E Find inp pos 0 in_end out_len).1.ret = 260) := by
  constructor
  · simp [xpress_huff_compress]
  · intro hcap
    have h : ¬ (out_len < MIN_DATA) := by simp only [MIN_DATA, HALF_SYMBOLS]; omega
    simp only [xpress_huff_compress_chunk, h, if_false, if_true]
    rfl

/-! ## Evaluations at concrete inputs -/

/-- C2 as stated fails: compressing the empty input into 260 bytes does not return 260. -/
theorem C2_counterexample :
    (xpress_huff_compress refOutputBitstream refHuffmanEncoder noMatches [] 0 260).ret ≠ 260 := by
  decide

/-- Witness of C2 with the reference Bit Coder and a capacity of 260. -/
theorem C2_empty_input_witness :
    260 ≤ 260 ∧
    xpress_huff_compress refOutputBitstream refHuffmanEncoder noMatches [] 0 260 =
      ⟨0, none, []⟩ ∧
    (xpress_huff_compress_chunk refOutputBitstream refHuffmanEncoder noMatches [] 0 0 0
      260).1.ret = 260 :=
  ⟨by decide, (C2_empty_input refOutputBitstream refHuffmanEncoder noMatches [] 0 0 260).1,
    (C2_empty_input refOutputBitstream refHuffmanEncoder noMatches [] 0 0 260).2 (by decide)⟩

/-- C3 as stated fails: with one byte produced, the match symbol 0x10F (offset-bit-length 0,
saturated length nibble) has offset 1, which does not exceed the bytes produced, and yet the
token fails with `E_INVALID_DATA`, for want of a length byte. -/
theorem C3_counterexample :
    ¬ ([7].length < matchOffset (refInputBitstream.Peek zeroBits ((0x10F >>> 4) &&& 0xF) % U32)
        ((0x10F >>> 4) &&& 0xF)) ∧
    decodeMatch refInputBitstream 100 0x10F stateOne = .fail .E_INVALID_DATA [7] := by
  decide!

/-- Witness of C3: the symbol 0x142 (offset-bit-length 4) read over zero bits, after a chunk
of 20 bytes and 2 bytes of the current one. -/
theorem C3_offset_check_witness :
    refInputBitstream.Peek zeroBits ((0x142 >>> 4) &&& 0xF) < 2 ^ ((0x142 >>> 4) &&& 0xF) ∧
    matchOffset (refInputBitstream.Peek zeroBits ((0x142 >>> 4) &&& 0xF) % U32)
        ((0x142 >>> 4) &&& 0xF) =
      (1 <<< ((0x142 >>> 4) &&& 0xF)) + refInputBitstream.Peek zeroBits ((0x142 >>> 4) &&& 0xF) :=
  ⟨by decide, (C3_offset_check refInputBitstream 100 0x142
    ⟨List.replicate 20 1 ++ [2, 3], 2, zeroBits⟩ (List.replicate 20 1) [2, 3] rfl rfl
    (by decide)).1⟩

/-- Witness of C4: a literal decoded when the three bytes of capacity are used up. -/
theorem C4_writes_within_capacity_witness :
    3 + U32 ≤ SIZE_T ∧
    decodeStep refInputBitstream refHuffmanDecoder lensLit 3 stateFull =
      .fail .E_INSUFFICIENT_BUFFER stateFull.out := by
  have h1 : (refHuffmanDecoder.DecodeSymbol lensLit stateFull.bstr).1 ≠
      refHuffmanDecoder.INVALID_SYMBOL := by decide!
  have h2 : (refHuffmanDecoder.DecodeSymbol lensLit stateFull.bstr).1 < 0x100 := by decide!
  have h3 : stateFull.i = 3 := rfl
  exact ⟨by decide, (C4_writes_within_capacity refInputBitstream refHuffmanDecoder lensLit 3
    (by decide)).2.1 stateFull h1 h2 h3⟩

/-- C6 as stated fails: on the empty input the stream driver returns 0 without setting
`errno`. -/
theorem C6_counterexample :
    xpress_huff_decompress refInputBitstream refHuffmanDecoder 1 [] 0 0 =
      some ⟨0, none, []⟩ := by
  decide

/-- Witness of C6 on an input of five bytes. -/
theorem C6_short_input_witness :
    5 < 260 ∧
    decompressLoop refInputBitstream refHuffmanDecoder 1 1 [1, 2, 3, 4, 5] 5 [] 10 =
      some ⟨0, if 5 ≠ 0 then some .E_INVALID_DATA else none, []⟩ ∧
    xpress_huff_decompress refInputBitstream refHuffmanDecoder 1 [1, 2, 3, 4, 5] 5 10 =
      some ⟨0, if 5 ≠ 0 then some .E_INVALID_DATA else none, []⟩ :=
  ⟨by decide, C6_short_input refInputBitstream refHuffmanDecoder 1 0 [1, 2, 3, 4, 5] 5 [] 10
    (by decide)⟩

/-- Witness of C7: symbol 0x100 decoded from zero bits, with nothing pending after it. -/
theorem C7_stream_end_symbol_witness :
    (refHuffmanDecoder.DecodeSymbol lensEnd stateOne.bstr).1 = STREAM_END ∧
    refHuffmanDecoder.INVALID_SYMBOL ≠ STREAM_END ∧
    decodeStep refInputBitstream refHuffmanDecoder lensEnd 10 stateOne =
      .stop ⟨stateOne.out, stateOne.i,
        (refHuffmanDecoder.DecodeSymbol lensEnd stateOne.bstr).2⟩ := by
  have h1 : (refHuffmanDecoder.DecodeSymbol lensEnd stateOne.bstr).1 = STREAM_END := by decide!
  have h2 : refHuffmanDecoder.INVALID_SYMBOL ≠ STREAM_END := by decide!
  have h3 : refInputBitstream.MaskIsZero
      (refHuffmanDecoder.DecodeSymbol lensEnd stateOne.bstr).2 = true := by decide!
  exact ⟨h1, h2, (C7_stream_end_symbol refInputBitstream refHuffmanDecoder lensEnd 10 stateOne
    h1 h2).1 h3⟩

/-- Witness of C8 at the length 272, written after the four reserved bytes of a writer with
100 bytes of room. -/
theorem C8_length_roundtrip_witness :
    3 ≤ 272 ∧ 272 ≤ 2 ^ 32 - 1 ∧
    (encodeLength refOutputBitstream (272 - 3) (refOutputBitstream.init 100)).1 = true :=
  ⟨by decide, by decide,
    (C8_length_roundtrip 272 (by decide) (by decide) (refOutputBitstream.init 100) []
      (by decide)).1⟩

/-! ## Two defects, evaluated -/

theorem length_flatten_pairs (x y : Nat) (n : Nat) :
    ((List.replicate n [x, y]).flatten).length = 2 * n := by
  induction n with
  | zero => rfl
  | succ n ih =>
    rw [List.replicate_succ, List.flatten_cons, List.length_append, ih]
    simp only [List.length_cons, List.length_nil]
    omega

theorem inputC1_length : inputC1.length = 65539 := by
  unfold inputC1
  rw [List.length_append, length_flatten_pairs]
  rfl

theorem getD_flatten_pairs (x y : Nat) : ∀ (n i : Nat), i < 2 * n →
    ((List.replicate n [x, y]).flatten).getD i 0 = if i % 2 = 0 then x else y := by
  intro n
  induction n with
  | zero => intro i h; omega
  | succ n ih =>
    intro i h
    rw [List.replicate_succ, List.flatten_cons]
    match i with
    | 0 => rfl
    | 1 => rfl
    | j + 2 =>
      have : (j + 2) % 2 = j % 2 := by omega
      rw [this, ← ih j (by omega)]
      rfl

theorem inputC1_getD_low (i : Nat) (h : i < 65532) :
    inputC1.getD i 0 = if i % 2 = 0 then 97 else 98 := by
  unfold inputC1
  rw [List.getD_append _ _ _ _ (by rw [length_flatten_pairs]; omega)]
  exact getD_flatten_pairs 97 98 32766 i (by omega)

theorem inputC1_getD_high (j : Nat) (h : j < 7) : inputC1.getD (65532 + j) 0 = 97 := by
  unfold inputC1
  rw [List.getD_append_right _ _ _ _ (by rw [length_flatten_pairs]; omega), length_flatten_pairs]
  have : 65532 + j - 2 * 32766 = j := by omega
  rw [this]
  interval_cases j <;> rfl

/-- The matches of `matchesC1` are genuine and the longest there are. -/
theorem matchesC1_genuine :
    (∀ k, k < 65531 → inputC1.getD (2 + k) 0 = inputC1.getD k 0) ∧
    inputC1.getD (2 + 65531) 0 ≠ inputC1.getD 65531 0 ∧
    (∀ k, k < 6 → inputC1.getD (65533 + k) 0 = inputC1.getD (65532 + k) 0) ∧
    (∀ k, k < 3 → inputC1.getD (65536 + k) 0 = inputC1.getD (65535 + k) 0) := by
  refine ⟨?_, ?_, ?_, ?_⟩
  · intro k hk
    by_cases h : k = 65530
    · subst h
      rw [show 2 + 65530 = 65532 + 0 from rfl, inputC1_getD_high 0 (by omega),
        inputC1_getD_low 65530 (by omega)]
      rfl
    · rw [inputC1_getD_low (2 + k) (by omega), inputC1_getD_low k (by omega)]
      have : (2 + k) % 2 = k % 2 := by omega
      rw [this]
  · rw [show 2 + 65531 = 65532 + 1 from rfl, inputC1_getD_high 1 (by omega),
      inputC1_getD_low 65531 (by omega)]
    decide
  · intro k hk
    rw [show 65533 + k = 65532 + (k + 1) by omega, inputC1_getD_high (k + 1) (by omega),
      inputC1_getD_high k (by omega)]
  · intro k hk
    rw [show 65536 + k = 65532 + (k + 4) by omega, show 65535 + k = 65532 + (k + 3) by omega,
      inputC1_getD_high (k + 4) (by omega), inputC1_getD_high (k + 3) (by omega)]

set_option maxRecDepth 1000000 in
theorem compress_inputC1 :
    xpress_huff_compress refOutputBitstream refHuffmanEncoder matchesC1 inputC1 65539 100000 =
      ⟨523, none, streamC1⟩ := by
  decide!

set_option maxRecDepth 1000000 in
theorem decompress_streamC1 :
    (xpress_huff_decompress refInputBitstream refHuffmanDecoder 8 streamC1 523 100000).map
      (fun r => (r.ret, r.errno)) = some (65533, none) := by
  decide!

/-- C1 fails on the code: the 65539 bytes of `inputC1`, with the longest matches there are in
them (each a genuine match), compress to the 523 bytes of `streamC1` without error, the first
chunk ending in the match of offset 1 cut to length 3, whose symbol is 0x100; decompressing
these 523 bytes into a buffer of 100000 bytes takes that symbol for the end of the stream and
returns 65533, not 65539. -/
theorem C1_roundtrip_fails :
    inputC1.length = 65539 ∧
    ((∀ k, k < 65531 → inputC1.getD (2 + k) 0 = inputC1.getD k 0) ∧
      inputC1.getD (2 + 65531) 0 ≠ inputC1.getD 65531 0 ∧
      (∀ k, k < 6 → inputC1.getD (65533 + k) 0 = inputC1.getD (65532 + k) 0) ∧
      (∀ k, k < 3 → inputC1.getD (65536 + k) 0 = inputC1.getD (65535 + k) 0)) ∧
    xpress_huff_compress refOutputBitstream refHuffmanEncoder matchesC1 inputC1
      inputC1.length 100000 = ⟨523, none, streamC1⟩ ∧
    (xpress_huff_decompress refInputBitstream refHuffmanDecoder 8 streamC1 523 100000).map
      (fun r => (r.ret, r.errno)) = some (65533, none) := by
  refine ⟨inputC1_length, matchesC1_genuine, ?_, decompress_streamC1⟩
  rw [inputC1_length]
  exact compress_inputC1

set_option maxRecDepth 1000000 in
theorem inputNine_parse :
    (xh_lz77_compress noMatches inputNine 0 9 9).buf =
      [0, 2, 0, 0, 0, 1, 2, 3, 4, 5, 6, 7, 8, 0, 0, 0] ∧
    (refCreateCodes (xh_lz77_compress noMatches inputNine 0 9 9).counts).sum = 34 ∧
    (encodeGroup refOutputBitstream refHuffmanEncoder
      (refCreateCodes (xh_lz77_compress noMatches inputNine 0 9 9).counts)
      (xh_lz77_compress noMatches inputNine 0 9 9).buf 9 32 512
      ⟨4, 12, refOutputBitstream.init 4⟩).2.p = 13 ∧
    (encodeToken refOutputBitstream refHuffmanEncoder
      (refCreateCodes (xh_lz77_compress noMatches inputNine 0 9 9).counts)
      (xh_lz77_compress noMatches inputNine 0 9 9).buf 1
      (encodeGroup refOutputBitstream refHuffmanEncoder
        (refCreateCodes (xh_lz77_compress noMatches inputNine 0 9 9).counts)
        (xh_lz77_compress noMatches inputNine 0 9 9).buf 9 32 512
        ⟨4, 12, refOutputBitstream.init 4⟩).2).1 = false ∧
    (encodeToken refOutputBitstream refHuffmanEncoder
      (refCreateCodes (xh_lz77_compress noMatches inputNine 0 9 9).counts)
      (xh_lz77_compress noMatches inputNine 0 9 9).buf 1
      (encodeGroup refOutputBitstream refHuffmanEncoder
        (refCreateCodes (xh_lz77_compress noMatches inputNine 0 9 9).counts)
        (xh_lz77_compress noMatches inputNine 0 9 9).buf 9 32 512
        ⟨4, 12, refOutputBitstream.init 4⟩).2).2.rem = 0 ∧
    (xh_encode refOutputBitstream refHuffmanEncoder
      (refCreateCodes (xh_lz77_compress noMatches inputNine 0 9 9).counts)
      (xh_lz77_compress noMatches inputNine 0 9 9).buf 16 260).ret = 260 ∧
    (xh_encode refOutputBitstream refHuffmanEncoder
      (refCreateCodes (xh_lz77_compress noMatches inputNine 0 9 9).counts)
      (xh_lz77_compress noMatches inputNine 0 9 9).buf 16 260).errno = none ∧
    (xpress_huff_compress refOutputBitstream refHuffmanEncoder noMatches inputNine 9 262).ret =
      262 := by
  decide!

set_option maxRecDepth 1000000 in
theorem compress_inputNine :
    xpress_huff_compress refOutputBitstream refHuffmanEncoder noMatches inputNine 9 260 =
      ⟨260, none, streamNine⟩ := by
  decide!

set_option maxRecDepth 1000000 in
theorem decompress_streamNine :
    xpress_huff_decompress refInputBitstream refHuffmanDecoder 16 streamNine 260 100 =
      some ⟨0, some .E_INVALID_DATA, inputNine⟩ := by
  decide!

/-- C5 fails on the code: for the nine literals of `inputNine` and a destination of 260 bytes,
the Huffman code of the ten symbols takes 34 bits (six of length 3, four of length 4) and the
payload has room for 32. The nine literal symbols are written; the write of the terminator
(the tenth token, at index 13 of the intermediate buffer) fails with `rem` already at 0, and
`xh_encode` returns 260 without setting `errno`; the 260 bytes that `xpress_huff_compress`
returns do not decompress. With 262 bytes of room the same input gives 262 bytes. -/
theorem C5_failed_write_returns_count :
    (xh_lz77_compress noMatches inputNine 0 9 9).buf =
      [0, 2, 0, 0, 0, 1, 2, 3, 4, 5, 6, 7, 8, 0, 0, 0] ∧
    (refCreateCodes (xh_lz77_compress noMatches inputNine 0 9 9).counts).sum = 34 ∧
    (encodeGroup refOutputBitstream refHuffmanEncoder
      (refCreateCodes (xh_lz77_compress noMatches inputNine 0 9 9).counts)
      (xh_lz77_compress noMatches inputNine 0 9 9).buf 9 32 512
      ⟨4, 12, refOutputBitstream.init 4⟩).2.p = 13 ∧
    (encodeToken refOutputBitstream refHuffmanEncoder
      (refCreateCodes (xh_lz77_compress noMatches inputNine 0 9 9).counts)
      (xh_lz77_compress noMatches inputNine 0 9 9).buf 1
      (encodeGroup refOutputBitstream refHuffmanEncoder
        (refCreateCodes (xh_lz77_compress noMatches inputNine 0 9 9).counts)
        (xh_lz77_compress noMatches inputNine 0 9 9).buf 9 32 512
        ⟨4, 12, refOutputBitstream.init 4⟩).2).1 = false ∧
    (encodeToken refOutputBitstream refHuffmanEncoder
      (refCreateCodes (xh_lz77_compress noMatches inputNine 0 9 9).counts)
      (xh_lz77_compress noMatches inputNine 0 9 9).buf 1
      (encodeGroup refOutputBitstream refHuffmanEncoder
        (refCreateCodes (xh_lz77_compress noMatches inputNine 0 9 9).counts)
        (xh_lz77_compress noMatches inputNine 0 9 9).buf 9 32 512
        ⟨4, 12, refOutputBitstream.init 4⟩).2).2.rem = 0 ∧
    (xh_encode refOutputBitstream refHuffmanEncoder
      (refCreateCodes (xh_lz77_compress noMatches inputNine 0 9 9).counts)
      (xh_lz77_compress noMatches inputNine 0 9 9).buf 16 260).ret = 260 ∧
    (xh_encode refOutputBitstream refHuffmanEncoder
      (refCreateCodes (xh_lz77_compress noMatches inputNine 0 9 9).counts)
      (xh_lz77_compress noMatches inputNine 0 9 9).buf 16 260).errno = none ∧
    xpress_huff_compress refOutputBitstream refHuffmanEncoder noMatches inputNine 9 260 =
      ⟨260, none, streamNine⟩ ∧
    xpress_huff_decompress refInputBitstream refHuffmanDecoder 16 streamNine 260 100 =
      some ⟨0, some .E_INVALID_DATA, inputNine⟩ ∧
    (xpress_huff_compress refOutputBitstream refHuffmanEncoder noMatches inputNine 9 262).ret =
      262 :=
  ⟨inputNine_parse.1, inputNine_parse.2.1, inputNine_parse.2.2.1, inputNine_parse.2.2.2.1,
    inputNine_parse.2.2.2.2.1, inputNine_parse.2.2.2.2.2.1, inputNine_parse.2.2.2.2.2.2.1,
    compress_inputNine, decompress_streamNine, inputNine_parse.2.2.2.2.2.2.2⟩

/-! ## The chunk of length zero -/

/-- C12 as stated fails: the block written for a chunk of length zero does not have an
all-zero table, its byte 128 is 1. -/
theorem C12_counterexample :
    (xpress_huff_compress_chunk refOutputBitstream refHuffmanEncoder noMatches [] 0 0 0
      260).1.out.getD 128 0 ≠ 0 := by
  decide

set_option maxRecDepth 100000 in
/-- C12, as the code has it: for a chunk of length zero and a capacity of at least 260, the
chunk driver returns 260 with `errno` untouched and `*in_len` still 0, and the block is 260
zero bytes except for byte 128 (`STREAM_END >> 1`), which is 1: the table gives symbol 0x100
the code length 1 and no other symbol a code, and the four bytes after the table are zero. -/
theorem C12_empty_chunk {σ ε : Type} (W : OutputBitstream σ) (E : HuffmanEncoder σ ε)
    (Find : Dictionary) (inp : List Nat) (pos in_end out_len : Nat) (hcap : 260 ≤ out_len) :
    xpress_huff_compress_chunk W E Find inp pos 0 in_end out_len =
      (⟨260, none, List.replicate 128 0 ++ [1] ++ List.replicate 127 0 ++ [0, 0, 0, 0]⟩, 0) ∧
    readHeader (List.replicate 128 0 ++ [1] ++ List.replicate 127 0 ++ [0, 0, 0, 0]) =
      (List.replicate 512 0).set 0x100 1 := by
  have h : ¬ (out_len < MIN_DATA) := by simp only [MIN_DATA, HALF_SYMBOLS]; omega
  constructor
  · simp only [xpress_huff_compress_chunk, h, if_false, if_true]
    decide
  · decide

/-- Witness of C12 with the reference Bit Coder and a capacity of 260. -/
theorem C12_empty_chunk_witness :
    260 ≤ 260 ∧
    xpress_huff_compress_chunk refOutputBitstream refHuffmanEncoder noMatches [] 0 0 0 260 =
      (⟨260, none, List.replicate 128 0 ++ [1] ++ List.replicate 127 0 ++ [0, 0, 0, 0]⟩, 0) :=
  ⟨by decide, (C12_empty_chunk refOutputBitstream refHuffmanEncoder noMatches [] 0 0 260
    (by decide)).1⟩

/-! ## The copy of a match -/

theorem copyMatch_memset : ∀ (n : Nat) (out : List Nat), 1 ≤ out.length →
    copyMatch 1 n out = out ++ List.replicate n (out.getD (out.length - 1) 0) := by
  intro n
  induction n with
  | zero => intro out _; simp [copyMatch]
  | succ n ih =>
    intro out h
    rw [copyMatch, ih _ (by simp)]
    simp [List.replicate_succ, List.getD_eq_getElem?_getD]

theorem copyMatch_getD_old (off : Nat) (n : Nat) (out : List Nat) (j : Nat)
    (hj : j < out.length) : (copyMatch off n out).getD j 0 = out.getD j 0 := by
  obtain ⟨w, hw, _⟩ := copyMatch_spec off n out
  rw [hw, List.getD_append _ _ _ _ hj]

theorem copyMatch_getD_new (off : Nat) (hoff : 1 ≤ off) : ∀ (n : Nat) (out : List Nat),
    off ≤ out.length → ∀ k, k < n →
    (copyMatch off n out).getD (out.length + k) 0 =
      (copyMatch off n out).getD (out.length + k - off) 0 := by
  intro n
  induction n with
  | zero => intro out _ k hk; omega
  | succ n ih =>
    intro out hle k hk
    rw [copyMatch]
    have hl : (out ++ [out.getD (out.length - off) 0]).length = out.length + 1 := by simp
    cases k with
    | zero =>
      rw [Nat.add_zero, copyMatch_getD_old off n _ out.length (by rw [hl]; omega),
        copyMatch_getD_old off n _ (out.length - off) (by rw [hl]; omega),
        List.getD_append _ _ _ _ (show out.length - off < out.length by omega),
        List.getD_append_right _ _ _ _ (le_refl _)]
      simp
    | succ k =>
      have := ih (out ++ [out.getD (out.length - off) 0]) (by rw [hl]; omega) k (by omega)
      rw [hl] at this
      rw [show out.length + (k + 1) = out.length + 1 + k by omega]
      exact this

/-- C14: a legal match (offset `off ≥ 1` within the bytes produced, a length that is read and
fits the capacity) makes the pass end with `i` advanced by exactly the length and the output
extended by the byte-by-byte copy, whether the offset is 1 (the fill with the last byte) or
not: the bytes there before are unchanged, the length grows by `len`, and each new byte at
`p + k` equals the byte at `p + k - off` of the result, bytes written by this copy included. -/
theorem C14_copy_semantics {τ : Type} (B : InputBitstream τ) (out_len sym : Nat)
    (st : DecState τ) (len : Nat) (s1 : τ)
    (hpeek : B.Peek st.bstr ((sym >>> 4) &&& 0xF) % U32 ≠ 0xFFFFFFFF)
    (hoff1 : 1 ≤ matchOffset (B.Peek st.bstr ((sym >>> 4) &&& 0xF) % U32) ((sym >>> 4) &&& 0xF))
    (hoff2 : matchOffset (B.Peek st.bstr ((sym >>> 4) &&& 0xF) % U32) ((sym >>> 4) &&& 0xF)
      ≤ st.out.length)
    (hdl : decodeLength B (sym &&& 0xF) st.bstr = .ok (len, s1))
    (hfit : st.i + len ≤ out_len) (hsz : out_len < SIZE_T) :
    decodeMatch B out_len sym st =
      .next ⟨copyMatch (matchOffset (B.Peek st.bstr ((sym >>> 4) &&& 0xF) % U32)
        ((sym >>> 4) &&& 0xF)) len st.out, st.i + len, B.Skip s1 ((sym >>> 4) &&& 0xF)⟩ ∧
    (copyMatch (matchOffset (B.Peek st.bstr ((sym >>> 4) &&& 0xF) % U32)
        ((sym >>> 4) &&& 0xF)) len st.out).length = st.out.length + len ∧
    (∀ j, j < st.out.length →
      (copyMatch (matchOffset (B.Peek st.bstr ((sym >>> 4) &&& 0xF) % U32)
        ((sym >>> 4) &&& 0xF)) len st.out).getD j 0 = st.out.getD j 0) ∧
    (∀ k, k < len →
      (copyMatch (matchOffset (B.Peek st.bstr ((sym >>> 4) &&& 0xF) % U32)
        ((sym >>> 4) &&& 0xF)) len st.out).getD (st.out.length + k) 0 =
      (copyMatch (matchOffset (B.Peek st.bstr ((sym >>> 4) &&& 0xF) % U32)
        ((sym >>> 4) &&& 0xF)) len st.out).getD
          (st.out.length + k - matchOffset (B.Peek st.bstr ((sym >>> 4) &&& 0xF) % U32)
            ((sym >>> 4) &&& 0xF)) 0) ∧
    copyMatch 1 len st.out =
      st.out ++ List.replicate len (st.out.getD (st.out.length - 1) 0) := by
  generalize hO : (sym >>> 4) &&& 0xF = O at *
  generalize hoffd : matchOffset (B.Peek st.bstr O % U32) O = off at *
  have hmod : (st.i + len) % SIZE_T = st.i + len := Nat.mod_eq_of_lt (by omega)
  have hmem := copyMatch_memset len st.out (by omega)
  refine ⟨?_, ?_, ?_, ?_, hmem⟩
  · unfold decodeMatch
    simp only [hO, hoffd, hpeek, Nat.not_lt.mpr hoff2, hdl, hmod, Nat.not_lt.mpr hfit, if_false]
    by_cases h1 : off = 1
    · subst h1
      simp only [if_true, hmem]
    · simp only [h1, if_false, Nat.add_sub_cancel_left]
  · obtain ⟨w, hw, hl⟩ := copyMatch_spec off len st.out
    rw [hw, List.length_append, hl]
  · intro j hj
    exact copyMatch_getD_old off len st.out j hj
  · intro k hk
    exact copyMatch_getD_new off hoff1 len st.out hoff2 k hk

set_option maxRecDepth 100000 in
/-- Witness of C14: the symbol 0x100 read as a match over zero bits, with one byte produced
and a capacity of 10. -/
theorem C14_copy_semantics_witness :
    decodeMatch refInputBitstream 10 0x100 stateOne =
      .next ⟨copyMatch (matchOffset (refInputBitstream.Peek stateOne.bstr ((0x100 >>> 4) &&& 0xF)
          % U32) ((0x100 >>> 4) &&& 0xF)) 3 stateOne.out, stateOne.i + 3,
        refInputBitstream.Skip stateOne.bstr ((0x100 >>> 4) &&& 0xF)⟩ := by
  have h1 : refInputBitstream.Peek stateOne.bstr ((0x100 >>> 4) &&& 0xF) % U32 ≠ 0xFFFFFFFF := by
    decide!
  have h2 : 1 ≤ matchOffset (refInputBitstream.Peek stateOne.bstr ((0x100 >>> 4) &&& 0xF) % U32)
      ((0x100 >>> 4) &&& 0xF) := by decide!
  have h3 : matchOffset (refInputBitstream.Peek stateOne.bstr ((0x100 >>> 4) &&& 0xF) % U32)
      ((0x100 >>> 4) &&& 0xF) ≤ stateOne.out.length := by decide!
  have h4 : decodeLength refInputBitstream (0x100 &&& 0xF) stateOne.bstr =
      .ok (3, stateOne.bstr) := by rfl
  have h5 : stateOne.i + 3 ≤ 10 := by decide!
  exact (C14_copy_semantics refInputBitstream 10 0x100 stateOne 3 stateOne.bstr h1 h2 h3 h4 h5
    (by decide)).1

set_option maxRecDepth 100000 in
/-- C19 fails on the code: for the match symbol 0x10F followed by the raw length extension
`0xFF, 0x0000, 0xFFFFFFFF`, the 32-bit field passes the `len < 0xF` test and `len += 3` wraps:
the length is 2, not the field plus 3, and the match is accepted and copies 2 bytes. -/
theorem C19_length_wraps :
    (decodeLength refInputBitstream (0x10F &&& 0xF) wrapBits).toOption =
      some (2, { wrapBits with index := 11 }) ∧
    decodeMatch refInputBitstream 100 0x10F stateWrap =
      .next ⟨[7, 7, 7], 3, refInputBitstream.Skip { wrapBits with index := 11 } 0⟩ := by
  decide!

/-! ## The tokenizer -/

theorem lzToken_eq (Find : Dictionary) (inp : List Nat) (st : LzState) :
    lzToken Find inp st =
      { pos := st.pos + (lzNext Find inp st.pos st.rem).span,
        rem := st.rem - (lzNext Find inp st.pos st.rem).span,
        mask := maskStep st.mask (lzNext Find inp st.pos st.rem),
        buf := st.buf ++ (lzNext Find inp st.pos st.rem).bytes,
        counts := bump st.counts (lzNext Find inp st.pos st.rem).sym } := by
  unfold lzToken lzNext
  by_cases h : 3 ≤ st.rem ∧ 3 ≤ (Find st.pos).1
  · have hlen : (if (Find st.pos).1 > st.rem then st.rem else (Find st.pos).1) - 3 + 3 =
        (if (Find st.pos).1 > st.rem then st.rem else (Find st.pos).1) := by
      split_ifs <;> omega
    simp only [h, and_self, if_true, Token.span, Token.bytes, Token.sym, maskStep, hlen]
    congr 1
    split_ifs <;> simp [List.append_assoc]
  · simp only [h, if_false, Token.span, Token.bytes, Token.sym, maskStep]

theorem lzGroup_eq (Find : Dictionary) (inp : List Nat) : ∀ (k i : Nat) (st : LzState),
    lzGroup Find inp k i st =
      (i + (groupToks Find inp k st.pos st.rem).length,
        { pos := st.pos + spanSum (groupToks Find inp k st.pos st.rem),
          rem := st.rem - spanSum (groupToks Find inp k st.pos st.rem),
          mask := (groupToks Find inp k st.pos st.rem).foldl maskStep st.mask,
          buf := st.buf ++ (groupToks Find inp k st.pos st.rem).flatMap Token.bytes,
          counts := countToks st.counts (groupToks Find inp k st.pos st.rem) }) := by
  intro k
  induction k with
  | zero =>
    intro i st
    simp [lzGroup, groupToks, spanSum, countToks]
  | succ k ih =>
    intro i st
    rw [lzGroup, groupToks]
    by_cases h : 0 < st.rem
    · simp only [h, if_true]
      rw [ih, lzToken_eq]
      simp only [List.length_cons, spanSum, List.map_cons, List.sum_cons, List.foldl_cons,
        List.flatMap_cons, List.append_assoc, countToks]
      refine Prod.ext (by simp only; omega) ?_
      simp only [LzState.mk.injEq, and_true, true_and]
      omega
    · simp [h, spanSum, countToks]

theorem le32_length (v : Nat) : (le32 v).length = 4 := rfl

theorem store32_slot (pre four rest : List Nat) (v : Nat) (h4 : four.length = 4) :
    store32 (pre ++ four ++ rest) pre.length v = pre ++ le32 v ++ rest := by
  unfold store32
  have h1 : (pre ++ four ++ rest).take pre.length = pre := by
    rw [List.append_assoc, List.take_left]
  have h2 : (pre ++ four ++ rest).drop (pre.length + 4) = rest := by
    have : pre.length + 4 = (pre ++ four).length := by rw [List.length_append, h4]
    rw [this, List.drop_left]
  rw [h1, h2]

theorem lzLoop_eq (Find : Dictionary) (inp : List Nat) : ∀ (fuel i mask_out : Nat)
    (st : LzState),
    lzLoop Find inp fuel i mask_out st =
      (chunkGroups Find inp fuel st.pos st.rem).foldl
        (fun acc g => (g.length, acc.2.2.buf.length, afterGroup acc.2.2 g)) (i, mask_out, st) := by
  intro fuel
  induction fuel with
  | zero => intro i mo st; simp [lzLoop, chunkGroups]
  | succ fuel ih =>
    intro i mo st
    rw [lzLoop, chunkGroups]
    by_cases h : 0 < st.rem
    · simp only [h, if_true, List.foldl_cons]
      rw [lzGroup_eq]
      simp only [Nat.zero_add]
      rw [store32_slot st.buf [0, 0, 0, 0] _ _ rfl, ih]
      rfl
    · simp [h]

theorem maskOf_lt : ∀ ts : List Token, maskOf ts < 2 ^ ts.length := by
  intro ts
  induction ts with
  | nil => simp [maskOf]
  | cons t ts ih =>
    have hb : t.bit ≤ 1 := by cases t <;> simp [Token.bit]
    rw [maskOf, List.length_cons, Nat.pow_succ]
    omega

theorem maskOf_append : ∀ a b : List Token,
    maskOf (a ++ b) = maskOf a + 2 ^ a.length * maskOf b := by
  intro a b
  induction a with
  | nil => simp [maskOf]
  | cons t a ih =>
    rw [List.cons_append, maskOf, ih, maskOf, List.length_cons, Nat.pow_succ]
    ring

theorem maskStep_scaled (M j : Nat) (t : Token) (hM : M < 2 ^ j) (hj : j < 32) :
    maskStep (M * 2 ^ (32 - j)) t = (M + 2 ^ j * t.bit) * 2 ^ (32 - (j + 1)) := by
  have hpow : 2 ^ (32 - j) = 2 * 2 ^ (32 - (j + 1)) := by
    rw [show 32 - j = (32 - (j + 1)) + 1 by omega, Nat.pow_succ]; ring
  have hshift : (M * 2 ^ (32 - j)) >>> 1 = M * 2 ^ (32 - (j + 1)) := by
    rw [Nat.shiftRight_eq_div_pow, hpow, Nat.pow_one]
    rw [show M * (2 * 2 ^ (32 - (j + 1))) = 2 * (M * 2 ^ (32 - (j + 1))) by ring]
    exact Nat.mul_div_cancel_left _ (by norm_num)
  cases t with
  | lit b => simp only [maskStep, hshift, Token.bit, Nat.mul_zero, Nat.add_zero]
  | mtch off l =>
    simp only [maskStep, hshift, Token.bit, Nat.mul_one]
    have h31 : 2 ^ j * 2 ^ (32 - (j + 1)) = 2 ^ 31 := by
      rw [← Nat.pow_add]; congr 1; omega
    have hlt : M * 2 ^ (32 - (j + 1)) < 2 ^ 31 := by
      rw [← h31]
      exact Nat.mul_lt_mul_of_pos_right hM (Nat.pos_pow_of_pos _ (by norm_num))
    have := Nat.mul_add_lt_is_or hlt 1
    rw [Nat.mul_one] at this
    rw [Nat.or_comm, show (0x80000000 : Nat) = 2 ^ 31 by norm_num, ← this, Nat.add_mul, h31]
    omega

theorem foldl_maskStep : ∀ (ts : List Token) (M j : Nat), M < 2 ^ j → j + ts.length ≤ 32 →
    ts.foldl maskStep (M * 2 ^ (32 - j)) =
      (M + 2 ^ j * maskOf ts) * 2 ^ (32 - (j + ts.length)) := by
  intro ts
  induction ts with
  | nil => intro M j _ _; simp [maskOf]
  | cons t ts ih =>
    intro M j hM hj
    rw [List.length_cons] at hj
    rw [List.foldl_cons, maskStep_scaled M j t hM (by omega)]
    have hb : t.bit ≤ 1 := by cases t <;> simp [Token.bit]
    have hM2 : M + 2 ^ j * t.bit < 2 ^ (j + 1) := by
      rw [Nat.pow_succ]
      have : 2 ^ j * t.bit ≤ 2 ^ j * 1 := Nat.mul_le_mul_left _ hb
      omega
    rw [ih (M + 2 ^ j * t.bit) (j + 1) hM2 (by omega), maskOf, List.length_cons]
    congr 1
    · rw [Nat.pow_succ]; ring
    · congr 1; omega

theorem rawMask_eq (ts : List Token) (h : ts.length ≤ 32) :
    ts.foldl maskStep 0 = maskOf ts * 2 ^ (32 - ts.length) := by
  have := foldl_maskStep ts 0 0 (by norm_num) (by omega)
  simpa using this

theorem rawMask_shift (ts : List Token) (h : ts.length ≤ 32) :
    (ts.foldl maskStep 0) >>> (32 - ts.length) = maskOf ts := by
  rw [rawMask_eq ts h, Nat.shiftRight_eq_div_pow]
  exact Nat.mul_div_cancel _ (Nat.pos_pow_of_pos _ (by norm_num))

theorem lzNext_span (Find : Dictionary) (inp : List Nat) (pos rem : Nat) (h : 0 < rem) :
    1 ≤ (lzNext Find inp pos rem).span ∧ (lzNext Find inp pos rem).span ≤ rem := by
  unfold lzNext
  by_cases hm : 3 ≤ rem ∧ 3 ≤ (Find pos).1
  · simp only [hm, and_self, if_true, Token.span]
    split_ifs <;> omega
  · simp only [hm, if_false, Token.span]
    omega

theorem groupToks_length_le (Find : Dictionary) (inp : List Nat) : ∀ (k pos rem : Nat),
    (groupToks Find inp k pos rem).length ≤ k := by
  intro k
  induction k with
  | zero => intro pos rem; simp [groupToks]
  | succ k ih =>
    intro pos rem
    rw [groupToks]
    split_ifs
    · rw [List.length_cons]; exact Nat.succ_le_succ (ih _ _)
    · simp

theorem groupToks_span_le (Find : Dictionary) (inp : List Nat) : ∀ (k pos rem : Nat),
    spanSum (groupToks Find inp k pos rem) ≤ rem := by
  intro k
  induction k with
  | zero => intro pos rem; simp [groupToks, spanSum]
  | succ k ih =>
    intro pos rem
    rw [groupToks]
    by_cases h : 0 < rem
    · simp only [h, if_true, spanSum, List.map_cons, List.sum_cons]
      have h1 := lzNext_span Find inp pos rem h
      have h2 := ih (pos + (lzNext Find inp pos rem).span) (rem - (lzNext Find inp pos rem).span)
      simp only [spanSum] at h2
      omega
    · simp [h, spanSum]

theorem groupToks_short (Find : Dictionary) (inp : List Nat) : ∀ (k pos rem : Nat),
    (groupToks Find inp k pos rem).length < k → spanSum (groupToks Find inp k pos rem) = rem := by
  intro k
  induction k with
  | zero => intro pos rem h; simp at h
  | succ k ih =>
    intro pos rem
    rw [groupToks]
    by_cases h : 0 < rem
    · simp only [h, if_true, spanSum, List.map_cons, List.sum_cons, List.length_cons]
      intro hl
      have h1 := lzNext_span Find inp pos rem h
      have h2 := ih (pos + (lzNext Find inp pos rem).span)
        (rem - (lzNext Find inp pos rem).span) (by omega)
      simp only [spanSum] at h2
      omega
    · simp only [h, if_false, spanSum, List.map_nil, List.sum_nil]
      intro _; omega

theorem groupToks_pos (Find : Dictionary) (inp : List Nat) (k pos rem : Nat) (hk : 0 < k)
    (h : 0 < rem) : 1 ≤ (groupToks Find inp k pos rem).length ∧
      1 ≤ spanSum (groupToks Find inp k pos rem) := by
  obtain ⟨k, rfl⟩ : ∃ k1, k = k1 + 1 := ⟨k - 1, by omega⟩
  rw [groupToks]
  simp only [h, if_true, List.length_cons, spanSum, List.map_cons, List.sum_cons]
  have h1 := lzNext_span Find inp pos rem h
  omega

theorem chunkGroups_full (Find : Dictionary) (inp : List Nat) : ∀ (fuel pos rem : Nat),
    FullButLast (chunkGroups Find inp fuel pos rem) := by
  intro fuel
  induction fuel with
  | zero => intro pos rem; simp [chunkGroups, FullButLast]
  | succ fuel ih =>
    intro pos rem
    rw [chunkGroups]
    by_cases h : 0 < rem
    · simp only [h, if_true]
      have hrest := ih (pos + spanSum (groupToks Find inp 32 pos rem))
        (rem - spanSum (groupToks Find inp 32 pos rem))
      have hle := groupToks_length_le Find inp 32 pos rem
      have hpos := groupToks_pos Find inp 32 pos rem (by norm_num) h
      cases hr : chunkGroups Find inp fuel (pos + spanSum (groupToks Find inp 32 pos rem))
          (rem - spanSum (groupToks Find inp 32 pos rem)) with
      | nil => exact ⟨hpos.1, hle⟩
      | cons g1 gs =>
        rw [hr] at hrest
        refine ⟨?_, hrest⟩
        by_contra hne
        have hshort := groupToks_short Find inp 32 pos rem (by omega)
        rw [hshort, Nat.sub_self] at hr
        cases fuel with
        | zero => simp [chunkGroups] at hr
        | succ f => simp [chunkGroups] at hr
    · simp [h, FullButLast]

theorem chunkGroups_span (Find : Dictionary) (inp : List Nat) : ∀ (fuel pos rem : Nat),
    rem ≤ fuel → spanSum (chunkGroups Find inp fuel pos rem).flatten = rem := by
  intro fuel
  induction fuel with
  | zero => intro pos rem h; simp [chunkGroups, spanSum]; omega
  | succ fuel ih =>
    intro pos rem hf
    rw [chunkGroups]
    by_cases h : 0 < rem
    · simp only [h, if_true, List.flatten_cons, spanSum, List.map_append, List.sum_append]
      have hpos := groupToks_pos Find inp 32 pos rem (by norm_num) h
      have hle := groupToks_span_le Find inp 32 pos rem
      have := ih (pos + spanSum (groupToks Find inp 32 pos rem))
        (rem - spanSum (groupToks Find inp 32 pos rem)) (by omega)
      simp only [spanSum] at this hpos hle
      omega
    · simp [h, spanSum]; omega

theorem FullButLast_split : ∀ (init : List (List Token)) (last : List Token),
    FullButLast (init ++ [last]) →
    (∀ g ∈ init, g.length = 32) ∧ 1 ≤ last.length ∧ last.length ≤ 32 := by
  intro init
  induction init with
  | nil => intro last h; exact ⟨by simp, h.1, h.2⟩
  | cons g init ih =>
    intro last h
    cases init with
    | nil =>
      obtain ⟨h1, h2⟩ := h
      exact ⟨by simpa using h1, h2.1, h2.2⟩
    | cons g1 init =>
      obtain ⟨h1, h2⟩ := h
      obtain ⟨a, b, c⟩ := ih last h2
      refine ⟨?_, b, c⟩
      intro x hx
      rcases List.mem_cons.mp hx with rfl | hx
      · exact h1
      · exact a x hx

theorem foldl_afterGroup_buf : ∀ (gs : List (List Token)) (st : LzState),
    (gs.foldl afterGroup st).buf =
      st.buf ++ gs.flatMap (fun g => le32 (g.foldl maskStep 0) ++ g.flatMap Token.bytes) := by
  intro gs
  induction gs with
  | nil => intro st; simp
  | cons g gs ih =>
    intro st
    rw [List.foldl_cons, ih]
    simp [afterGroup, List.append_assoc]

theorem countToks_append (c : List Nat) (a b : List Token) :
    countToks c (a ++ b) = countToks (countToks c a) b := by
  simp [countToks, List.foldl_append]

theorem foldl_afterGroup_counts : ∀ (gs : List (List Token)) (st : LzState),
    (gs.foldl afterGroup st).counts = countToks st.counts gs.flatten := by
  intro gs
  induction gs with
  | nil => intro st; simp [countToks]
  | cons g gs ih =>
    intro st
    rw [List.foldl_cons, ih, List.flatten_cons, countToks_append]
    rfl

theorem foldl_afterGroup_rem : ∀ (gs : List (List Token)) (st : LzState),
    (gs.foldl afterGroup st).rem = st.rem - spanSum gs.flatten := by
  intro gs
  induction gs with
  | nil => intro st; simp [spanSum]
  | cons g gs ih =>
    intro st
    rw [List.foldl_cons, ih]
    simp only [afterGroup, List.flatten_cons, spanSum, List.map_append, List.sum_append]
    omega

theorem foldl_loop_state : ∀ (gs : List (List Token)) (a : Nat × Nat × LzState),
    (gs.foldl (fun acc g => (g.length, acc.2.2.buf.length, afterGroup acc.2.2 g)) a).2.2 =
      gs.foldl afterGroup a.2.2 := by
  intro gs
  induction gs with
  | nil => intro a; rfl
  | cons g gs ih => intro a; rw [List.foldl_cons, ih]; rfl

theorem foldl_loop_last (init : List (List Token)) (last : List Token)
    (a : Nat × Nat × LzState) :
    (init ++ [last]).foldl
        (fun acc g => (g.length, acc.2.2.buf.length, afterGroup acc.2.2 g)) a =
      (last.length, (init.foldl afterGroup a.2.2).buf.length,
        afterGroup (init.foldl afterGroup a.2.2) last) := by
  rw [List.foldl_append, List.foldl_cons, List.foldl_nil, foldl_loop_state]

theorem flatMap_full (init : List (List Token)) (h : ∀ g ∈ init, g.length = 32) :
    init.flatMap (fun g => le32 (g.foldl maskStep 0) ++ g.flatMap Token.bytes) =
      init.flatMap grpBytes := by
  induction init with
  | nil => rfl
  | cons g init ih =>
    have hg : g.length = 32 := h g (List.mem_cons_self _ _)
    rw [List.flatMap_cons, List.flatMap_cons, ih (fun x hx => h x (List.mem_cons_of_mem _ hx))]
    congr 1
    rw [grpBytes, rawMask_eq g (by omega), hg]
    simp

theorem chunkGroups_ne_nil (Find : Dictionary) (inp : List Nat) (fuel pos rem : Nat)
    (h : 0 < rem) : chunkGroups Find inp (fuel + 1) pos rem ≠ [] := by
  rw [chunkGroups]
  simp [h]

theorem lzLoop_result (Find : Dictionary) (inp : List Nat) (pos n : Nat)
    (init : List (List Token)) (last : List Token)
    (hgs : chunkGroups Find inp n pos n = init ++ [last])
    (hinit : ∀ g ∈ init, g.length = 32) :
    (lzLoop Find inp n 0 0 ⟨pos, n, 0, [], List.replicate SYMBOLS 0⟩).1 = last.length ∧
    (lzLoop Find inp n 0 0 ⟨pos, n, 0, [], List.replicate SYMBOLS 0⟩).2.1 =
      (init.flatMap grpBytes).length ∧
    (lzLoop Find inp n 0 0 ⟨pos, n, 0, [], List.replicate SYMBOLS 0⟩).2.2.rem =
      n - spanSum (init ++ [last]).flatten ∧
    (lzLoop Find inp n 0 0 ⟨pos, n, 0, [], List.replicate SYMBOLS 0⟩).2.2.mask =
      last.foldl maskStep 0 ∧
    (lzLoop Find inp n 0 0 ⟨pos, n, 0, [], List.replicate SYMBOLS 0⟩).2.2.buf =
      init.flatMap grpBytes ++ le32 (last.foldl maskStep 0) ++ last.flatMap Token.bytes ∧
    (lzLoop Find inp n 0 0 ⟨pos, n, 0, [], List.replicate SYMBOLS 0⟩).2.2.counts =
      countToks (List.replicate SYMBOLS 0) (init ++ [last]).flatten := by
  rw [lzLoop_eq]
  simp only [hgs]
  have hst := foldl_loop_state (init ++ [last])
    (0, 0, (⟨pos, n, 0, [], List.replicate SYMBOLS 0⟩ : LzState))
  have hlast := foldl_loop_last init last
    (0, 0, (⟨pos, n, 0, [], List.replicate SYMBOLS 0⟩ : LzState))
  have hbuf := foldl_afterGroup_buf init ⟨pos, n, 0, [], List.replicate SYMBOLS 0⟩
  simp only [List.nil_append] at hbuf
  rw [flatMap_full init hinit] at hbuf
  refine ⟨by rw [hlast], by rw [hlast]; simp only [hbuf], ?_, by rw [hlast]; rfl, ?_, ?_⟩
  · rw [hst, foldl_afterGroup_rem]
  · rw [hlast]
    simp only [afterGroup, hbuf]
  · rw [hst, foldl_afterGroup_counts]

theorem addTerminator_concat (init : List (List Token)) (last : List Token) :
    addTerminator (init ++ [last]) =
      if last.length = 32 then init ++ [last] ++ [[terminator]]
      else init ++ [last ++ [terminator]] := by
  simp [addTerminator]

theorem terminator_facts : terminator.bytes = [0, 0, 0] ∧ terminator.sym = STREAM_END ∧
    maskOf [terminator] = 1 ∧ terminator.bit = 1 := by
  decide

/-- The intermediate buffer is the groups of tokens, each group its mask followed by the
bytes of its tokens; all the input of the chunk is consumed, and the counts are those of the
symbols of the tokens. -/
theorem xh_lz77_compress_eq (Find : Dictionary) (inp : List Nat) (pos n in_end : Nat)
    (hn : 1 ≤ n) :
    xh_lz77_compress Find inp pos n in_end =
      ⟨((lzGroups Find inp pos n in_end).flatMap grpBytes).length,
        (lzGroups Find inp pos n in_end).flatMap grpBytes, n,
        countToks (List.replicate SYMBOLS 0) (lzGroups Find inp pos n in_end).flatten⟩ := by
  obtain ⟨f, rfl⟩ : ∃ f, n = f + 1 := ⟨n - 1, by omega⟩
  have hne := chunkGroups_ne_nil Find inp f pos (f + 1) (by omega)
  have hsplit := (List.dropLast_append_getLast hne).symm
  generalize (chunkGroups Find inp (f + 1) pos (f + 1)).dropLast = init at hsplit
  generalize (chunkGroups Find inp (f + 1) pos (f + 1)).getLast hne = last at hsplit
  have hfull := chunkGroups_full Find inp (f + 1) pos (f + 1)
  rw [hsplit] at hfull
  obtain ⟨hinit, hl1, hl32⟩ := FullButLast_split init last hfull
  have hspan := chunkGroups_span Find inp (f + 1) pos (f + 1) (le_refl _)
  rw [hsplit] at hspan
  obtain ⟨ri, rmo, rrem, rmask, rbuf, rcounts⟩ :=
    lzLoop_result Find inp pos (f + 1) init last hsplit hinit
  have hmask := rawMask_shift last hl32
  have hmlt := maskOf_lt last
  obtain ⟨tb, ts, tm, tbit⟩ := terminator_facts
  unfold xh_lz77_compress lzGroups
  simp only [ri, rmo, rrem, rmask, rbuf, rcounts, hspan, Nat.sub_self, Nat.sub_zero, hmask,
    hsplit, addTerminator_concat]
  by_cases hend : pos + (f + 1) = in_end
  · simp only [hend, if_true]
    by_cases h32 : last.length = 32
    · simp only [h32, if_true]
      have hb : store32 (init.flatMap grpBytes ++ le32 (last.foldl maskStep 0) ++
          last.flatMap Token.bytes ++ le32 1 ++ [0, 0, 0]) (init.flatMap grpBytes).length
          (maskOf last) = (init ++ [last] ++ [[terminator]]).flatMap grpBytes := by
        rw [List.append_assoc _ (le32 1), List.append_assoc _ (last.flatMap Token.bytes),
          store32_slot _ _ _ _ (le32_length _)]
        simp [grpBytes, tb, tm, List.append_assoc]
      rw [hb]
      simp [countToks_append, countToks, ts, List.flatten_append]
    · simp only [h32, if_false]
      have hor : maskOf last ||| (1 <<< last.length) % U32 = maskOf (last ++ [terminator]) := by
        rw [maskOf_append, tm, Nat.mul_one, Nat.shiftLeft_eq, Nat.one_mul]
        have hp : 2 ^ last.length < U32 := by
          have : last.length < 32 := by omega
          exact Nat.pow_lt_pow_right (by norm_num) this
        rw [Nat.mod_eq_of_lt hp, Nat.or_comm]
        have := Nat.mul_add_lt_is_or hmlt 1
        rw [Nat.mul_one] at this
        rw [← this]; omega
      have hb : store32 (init.flatMap grpBytes ++ le32 (last.foldl maskStep 0) ++
          last.flatMap Token.bytes ++ [0, 0, 0]) (init.flatMap grpBytes).length
          (maskOf last ||| (1 <<< last.length) % U32) =
          (init ++ [last ++ [terminator]]).flatMap grpBytes := by
        rw [hor, List.append_assoc _ (last.flatMap Token.bytes),
          store32_slot _ _ _ _ (le32_length _)]
        simp [grpBytes, tb, List.append_assoc]
      rw [hb]
      simp [countToks_append, countToks, ts, List.flatten_append]
  · simp only [hend, if_false]
    have hb : store32 (init.flatMap grpBytes ++ le32 (last.foldl maskStep 0) ++
        last.flatMap Token.bytes) (init.flatMap grpBytes).length (maskOf last) =
        (init ++ [last]).flatMap grpBytes := by
      rw [store32_slot _ _ _ _ (le32_length _)]
      simp [grpBytes, List.append_assoc]
    rw [hb]

theorem lzNext_fit (Find : Dictionary) (inp : List Nat) (pos rem : Nat) :
    ((lzNext Find inp pos rem).bit = 1 → 3 ≤ (lzNext Find inp pos rem).span) ∧
    (rem < 3 → (lzNext Find inp pos rem).bit = 0) := by
  unfold lzNext
  by_cases hm : 3 ≤ rem ∧ 3 ≤ (Find pos).1
  · simp only [hm, and_self, if_true, Token.span, Token.bit]
    exact ⟨fun _ => by omega, fun h => by omega⟩
  · simp only [hm, if_false, Token.span, Token.bit]
    exact ⟨fun h => by omega, fun _ => trivial⟩

theorem groupToks_fit (Find : Dictionary) (inp : List Nat) : ∀ (k pos rem : Nat)
    (rest : List Token), TokensFit (rem - spanSum (groupToks Find inp k pos rem)) rest →
    TokensFit rem (groupToks Find inp k pos rem ++ rest) := by
  intro k
  induction k with
  | zero => intro pos rem rest h; simpa [groupToks, spanSum] using h
  | succ k ih =>
    intro pos rem rest h
    rw [groupToks] at h ⊢
    by_cases hr : 0 < rem
    · simp only [hr, if_true, spanSum, List.map_cons, List.sum_cons] at h
      simp only [hr, if_true, List.cons_append]
      have h1 := lzNext_span Find inp pos rem hr
      have h2 := lzNext_fit Find inp pos rem
      refine ⟨h1.1, h1.2, h2.1, h2.2, ?_⟩
      apply ih
      rw [Nat.sub_sub]
      exact h
    · simpa [hr, spanSum] using h

theorem chunkGroups_fit (Find : Dictionary) (inp : List Nat) : ∀ (fuel pos rem : Nat),
    rem ≤ fuel → TokensFit rem (chunkGroups Find inp fuel pos rem).flatten := by
  intro fuel
  induction fuel with
  | zero => intro pos rem h; simp [chunkGroups, TokensFit]; omega
  | succ fuel ih =>
    intro pos rem hf
    rw [chunkGroups]
    by_cases h : 0 < rem
    · simp only [h, if_true, List.flatten_cons]
      apply groupToks_fit
      apply ih
      have := groupToks_pos Find inp 32 pos rem (by norm_num) h
      omega
    · simp [h, TokensFit]; omega

theorem TokensFit_span_le : ∀ (ts : List Token) (rem : Nat), TokensFit rem ts →
    ∀ t ∈ ts, t.span ≤ rem := by
  intro ts
  induction ts with
  | nil => intro rem _ t ht; simp at ht
  | cons a ts ih =>
    intro rem h t ht
    obtain ⟨_, h2, _, _, h5⟩ := h
    rcases List.mem_cons.mp ht with rfl | ht
    · exact h2
    · have := ih _ h5 t ht
      omega

theorem TokensFit_sum : ∀ (ts : List Token) (rem : Nat), TokensFit rem ts →
    spanSum ts = rem := by
  intro ts
  induction ts with
  | nil => intro rem h; simp only [TokensFit] at h; simp [spanSum, h]
  | cons a ts ih =>
    intro rem h
    obtain ⟨_, h2, _, _, h5⟩ := h
    have := ih _ h5
    simp only [spanSum, List.map_cons, List.sum_cons] at this ⊢
    omega

/-- C18: for a chunk of `1 ≤ n ≤ 65536` bytes and whatever the match finder reports, the
intermediate buffer is the groups of the tokens emitted; the tokens fit the `n` bytes (each
match spans between 3 bytes and what is left of the chunk, fewer than 3 bytes left give
literals, the spans sum to `n`); `*in_len` comes back as `n`; and every match has a length
minus 3 of at most 65533, so that its bytes are the offset and the 1-byte or 3-byte length
form, never the form of `len > 0xFFFF`. -/
theorem C18_tokenizer_consumption (Find : Dictionary) (inp : List Nat) (pos n in_end : Nat)
    (h1 : 1 ≤ n) (h2 : n ≤ 65536) :
    (xh_lz77_compress Find inp pos n in_end).buf =
      (lzGroups Find inp pos n in_end).flatMap grpBytes ∧
    (lzGroups Find inp pos n in_end).flatten =
      (chunkGroups Find inp n pos n).flatten ++
        (if pos + n = in_end then [terminator] else []) ∧
    TokensFit n (chunkGroups Find inp n pos n).flatten ∧
    spanSum (chunkGroups Find inp n pos n).flatten = n ∧
    (xh_lz77_compress Find inp pos n in_end).in_len = n ∧
    (∀ off l, Token.mtch off l ∈ (chunkGroups Find inp n pos n).flatten →
      l ≤ 65533 ∧ ¬ (l > 0xFFFF) ∧
      (Token.mtch off l).bytes =
        le16 off ++ (if l ≥ 0xFF then [0xFF] ++ le16 l else [l % 256])) := by
  have hfit := chunkGroups_fit Find inp n pos n (le_refl _)
  have heq := xh_lz77_compress_eq Find inp pos n in_end h1
  refine ⟨by rw [heq], ?_, hfit, TokensFit_sum _ _ hfit, by rw [heq], ?_⟩
  · unfold lzGroups
    by_cases hend : pos + n = in_end
    · simp only [hend, if_true]
      obtain ⟨f, rfl⟩ : ∃ f, n = f + 1 := ⟨n - 1, by omega⟩
      have hne := chunkGroups_ne_nil Find inp f pos (f + 1) (by omega)
      rw [← List.dropLast_append_getLast hne, addTerminator_concat]
      split_ifs <;> simp [List.flatten_append]
    · simp [hend]
  · intro off l hmem
    have := TokensFit_span_le _ _ hfit _ hmem
    simp only [Token.span] at this
    have hl : ¬ (l > 0xFFFF) := by omega
    refine ⟨by omega, hl, ?_⟩
    simp only [Token.bytes, hl, if_false, List.append_nil]

/-- Witness of C18: the eight literals of `inputC5`. -/
theorem C18_tokenizer_consumption_witness :
    1 ≤ 8 ∧ 8 ≤ 65536 ∧ (xh_lz77_compress noMatches inputC5 0 8 8).in_len = 8 :=
  ⟨by decide, by decide,
    (C18_tokenizer_consumption noMatches inputC5 0 8 8 (by decide) (by decide)).2.2.2.2.1⟩

/-! ## The size of the intermediate buffer -/

theorem Token_bytes_le (t : Token) : t.bytes.length ≤ t.span := by
  cases t with
  | lit b => simp [Token.bytes, Token.span]
  | mtch off l =>
    simp only [Token.bytes, Token.span, le16, le32]
    split_ifs <;> simp <;> omega

theorem flatMap_bytes_le : ∀ ts : List Token,
    (ts.flatMap Token.bytes).length ≤ spanSum ts := by
  intro ts
  induction ts with
  | nil => simp [spanSum]
  | cons t ts ih =>
    have := Token_bytes_le t
    simp only [List.flatMap_cons, List.length_append, spanSum, List.map_cons, List.sum_cons]
      at ih ⊢
    omega

theorem length_le_spanSum : ∀ ts : List Token, (∀ t ∈ ts, 1 ≤ t.span) →
    ts.length ≤ spanSum ts := by
  intro ts
  induction ts with
  | nil => intro _; simp
  | cons t ts ih =>
    intro h
    have h1 := h t (List.mem_cons_self _ _)
    have h2 := ih (fun x hx => h x (List.mem_cons_of_mem _ hx))
    simp only [List.length_cons, spanSum, List.map_cons, List.sum_cons] at h2 ⊢
    omega

theorem Token_span_pos (t : Token) : 1 ≤ t.span := by
  cases t <;> simp [Token.span]

theorem grpBytes_length (g : List Token) :
    (grpBytes g).length = 4 + (g.flatMap Token.bytes).length := by
  rw [grpBytes, List.length_append, le32_length]

theorem full_groups_bound : ∀ init : List (List Token), (∀ g ∈ init, g.length = 32) →
    (init.flatMap grpBytes).length ≤ 4 * init.length + spanSum init.flatten ∧
    32 * init.length ≤ spanSum init.flatten := by
  intro init
  induction init with
  | nil => intro _; simp [spanSum]
  | cons g init ih =>
    intro h
    have hg := h g (List.mem_cons_self _ _)
    obtain ⟨h1, h2⟩ := ih (fun x hx => h x (List.mem_cons_of_mem _ hx))
    have h3 := flatMap_bytes_le g
    have h4 := length_le_spanSum g (fun t _ => Token_span_pos t)
    simp only [List.flatMap_cons, List.length_append, grpBytes_length, List.length_cons,
      List.flatten_cons, spanSum, List.map_append, List.sum_append] at h1 h2 h3 h4 ⊢
    constructor <;> omega

theorem lz_length_bound (Find : Dictionary) (inp : List Nat) (pos n in_end : Nat)
    (hn : 1 ≤ n) :
    ((lzGroups Find inp pos n in_end).flatMap grpBytes).length ≤ n + 4 * (n / 32) + 7 := by
  obtain ⟨f, rfl⟩ : ∃ f, n = f + 1 := ⟨n - 1, by omega⟩
  have hne := chunkGroups_ne_nil Find inp f pos (f + 1) (by omega)
  have hsplit := (List.dropLast_append_getLast hne).symm
  generalize (chunkGroups Find inp (f + 1) pos (f + 1)).dropLast = init at hsplit
  generalize (chunkGroups Find inp (f + 1) pos (f + 1)).getLast hne = last at hsplit
  have hfull := chunkGroups_full Find inp (f + 1) pos (f + 1)
  rw [hsplit] at hfull
  obtain ⟨hinit, hl1, hl32⟩ := FullButLast_split init last hfull
  have hspan := chunkGroups_span Find inp (f + 1) pos (f + 1) (le_refl _)
  rw [hsplit] at hspan
  obtain ⟨b1, b2⟩ := full_groups_bound init hinit
  have b3 := flatMap_bytes_le last
  have b4 := length_le_spanSum last (fun t _ => Token_span_pos t)
  obtain ⟨tb, _, _, _⟩ := terminator_facts
  simp only [List.flatten_append, List.flatten_cons, List.flatten_nil, List.append_nil, spanSum,
    List.map_append, List.sum_append] at hspan
  simp only [spanSum] at b1 b2 b3 b4
  unfold lzGroups
  rw [hsplit, addTerminator_concat]
  have hdiv : ∀ k, 32 * k ≤ f + 1 → k ≤ (f + 1) / 32 := by
    intro k hk
    exact (Nat.le_div_iff_mul_le (by norm_num)).mpr (by omega)
  split_ifs with hend h32
  · have := hdiv (init.length + 1) (by omega)
    simp only [List.flatMap_append, List.flatMap_cons, List.flatMap_nil, List.append_nil,
      List.length_append, grpBytes_length, tb, List.length_cons, List.length_nil]
    omega
  · have := hdiv init.length (by omega)
    simp only [List.flatMap_append, List.flatMap_cons, List.flatMap_nil, List.append_nil,
      List.length_append, grpBytes_length, tb, List.length_cons, List.length_nil]
    omega
  · have := hdiv init.length (by omega)
    simp only [List.flatMap_append, List.flatMap_cons, List.flatMap_nil, List.append_nil,
      List.length_append, grpBytes_length]
    omega

/-- C17: for a chunk of `1 ≤ n ≤ 65536` bytes of an input of `N` bytes (the whole input when
`N ≤ 65536`) and whatever the match finder reports, the bytes `xh_lz77_compress` writes, the
end-of-stream token and its padding included, are the count it returns, at most
`n + 4 * (n / 32) + 7`, and so at most the size allocated for the scratch buffer:
`N / 32 * 36 + 36 + 4 + 7` when `N ≤ 65536`, and 73739 otherwise. -/
theorem C17_scratch_bound (Find : Dictionary) (inp : List Nat) (pos n in_end N : Nat)
    (h1 : 1 ≤ n) (h2 : n ≤ 65536) (hN : N ≤ 65536 → n = N) :
    (xh_lz77_compress Find inp pos n in_end).buf.length =
      (xh_lz77_compress Find inp pos n in_end).ret ∧
    (xh_lz77_compress Find inp pos n in_end).ret ≤ n + 4 * (n / 32) + 7 ∧
    (xh_lz77_compress Find inp pos n in_end).ret ≤ scratchSize N ∧
    (N ≤ 65536 → (xh_lz77_compress Find inp pos n in_end).ret ≤ N / 32 * 36 + 36 + 4 + 7) ∧
    (xh_lz77_compress Find inp pos n in_end).ret ≤ 73739 := by
  have heq := xh_lz77_compress_eq Find inp pos n in_end h1
  have hb := lz_length_bound Find inp pos n in_end h1
  rw [heq]
  simp only
  have hdiv : n / 32 * 32 ≤ n := Nat.div_mul_le_self n 32
  have hmod : n < n / 32 * 32 + 32 := by
    have := Nat.lt_div_mul_add (a := n) (b := 32) (by norm_num)
    omega
  have hq : n / 32 ≤ 2048 := by omega
  refine ⟨trivial, hb, ?_, ?_, by omega⟩
  · unfold scratchSize
    simp only [CHUNK_SIZE]
    split_ifs with hbig
    · omega
    · have := hN (by omega)
      subst this
      omega
  · intro hle
    have := hN hle
    subst this
    omega

/-- Witness of C17: the eight literals of `inputC5` as the whole input. -/
theorem C17_scratch_bound_witness :
    1 ≤ 8 ∧ 8 ≤ 65536 ∧ (xh_lz77_compress noMatches inputC5 0 8 8).ret ≤ scratchSize 8 :=
  ⟨by decide, by decide,
    (C17_scratch_bound noMatches inputC5 0 8 8 8 (by decide) (by decide) (fun _ => rfl)).2.2.1⟩

/-! ## The terminator -/

/-- C15: the groups of a chunk of `n ≥ 1` bytes end with a group `last` of `k` tokens,
`1 ≤ k ≤ 32`, whose mask is below `2^k`. When the chunk does not end at the end of the input,
the buffer is the groups of the tokens and nothing else, and the counts are those of the
tokens. When it does, for `k < 32` bit `k` is added to the mask of the last group, for
`k = 32` that mask stays and a group of mask 1 is appended; in both cases 3 zero bytes follow,
and the counts are those of the other case with `symbol_counts[0x100]` incremented once. -/
theorem C15_terminator_placement (Find : Dictionary) (inp : List Nat) (pos n in_end : Nat)
    (h1 : 1 ≤ n) (hne : pos + n ≠ in_end) :
    ∃ (init : List (List Token)) (last : List Token),
      chunkGroups Find inp n pos n = init ++ [last] ∧
      (∀ g ∈ init, g.length = 32) ∧ 1 ≤ last.length ∧ last.length ≤ 32 ∧
      maskOf last < 2 ^ last.length ∧
      (xh_lz77_compress Find inp pos n in_end).buf =
        init.flatMap grpBytes ++ le32 (maskOf last) ++ last.flatMap Token.bytes ∧
      (xh_lz77_compress Find inp pos n in_end).counts =
        countToks (List.replicate SYMBOLS 0) (init ++ [last]).flatten ∧
      (last.length < 32 → (xh_lz77_compress Find inp pos n (pos + n)).buf =
        init.flatMap grpBytes ++ le32 (maskOf last + 2 ^ last.length) ++
          last.flatMap Token.bytes ++ [0, 0, 0]) ∧
      (last.length = 32 → (xh_lz77_compress Find inp pos n (pos + n)).buf =
        init.flatMap grpBytes ++ le32 (maskOf last) ++ last.flatMap Token.bytes ++
          le32 1 ++ [0, 0, 0]) ∧
      (xh_lz77_compress Find inp pos n (pos + n)).counts =
        bump (xh_lz77_compress Find inp pos n in_end).counts STREAM_END := by
  have hne0 : chunkGroups Find inp n pos n ≠ [] := by
    obtain ⟨f, rfl⟩ : ∃ f, n = f + 1 := ⟨n - 1, by omega⟩
    exact chunkGroups_ne_nil Find inp f pos (f + 1) (by omega)
  have hsplit := (List.dropLast_append_getLast hne0).symm
  generalize (chunkGroups Find inp n pos n).dropLast = init at hsplit
  generalize (chunkGroups Find inp n pos n).getLast hne0 = last at hsplit
  have hfull := chunkGroups_full Find inp n pos n
  rw [hsplit] at hfull
  obtain ⟨hinit, hl1, hl32⟩ := FullButLast_split init last hfull
  obtain ⟨tb, ts, tm, _⟩ := terminator_facts
  have e0 := xh_lz77_compress_eq Find inp pos n in_end h1
  have e1 := xh_lz77_compress_eq Find inp pos n (pos + n) h1
  have g0 : lzGroups Find inp pos n in_end = init ++ [last] := by
    simp only [lzGroups, hne, if_false, hsplit]
  have g1 : lzGroups Find inp pos n (pos + n) =
      if last.length = 32 then init ++ [last] ++ [[terminator]]
      else init ++ [last ++ [terminator]] := by
    simp only [lzGroups, if_true, hsplit, addTerminator_concat]
  rw [g0] at e0
  rw [g1] at e1
  refine ⟨init, last, hsplit, hinit, hl1, hl32, maskOf_lt last, ?_, ?_, ?_, ?_, ?_⟩
  · rw [e0]
    simp [grpBytes, List.append_assoc]
  · rw [e0]
  · intro hlt
    have h32 : ¬ (last.length = 32) := by omega
    rw [e1]
    simp only [h32, if_false]
    simp [grpBytes, maskOf_append, tm, tb, List.append_assoc]
  · intro h32
    rw [e1]
    simp only [h32, if_true]
    simp [grpBytes, tm, tb, List.append_assoc]
  · rw [e1, e0]
    simp only
    split_ifs <;>
      simp [countToks, List.flatten_append, List.foldl_append, ts]

/-- Witness of C15: the eight literals of `inputC5`, compressed as a chunk that is not the
last of its input. -/
theorem C15_terminator_placement_witness :
    1 ≤ 8 ∧ (0 + 8 ≠ 9) ∧
    ∃ (init : List (List Token)) (last : List Token),
      chunkGroups noMatches inputC5 8 0 8 = init ++ [last] ∧
      (∀ g ∈ init, g.length = 32) ∧ 1 ≤ last.length ∧ last.length ≤ 32 ∧
      maskOf last < 2 ^ last.length ∧
      (xh_lz77_compress noMatches inputC5 0 8 9).buf =
        init.flatMap grpBytes ++ le32 (maskOf last) ++ last.flatMap Token.bytes ∧
      (xh_lz77_compress noMatches inputC5 0 8 9).counts =
        countToks (List.replicate SYMBOLS 0) (init ++ [last]).flatten ∧
      (last.length < 32 → (xh_lz77_compress noMatches inputC5 0 8 (0 + 8)).buf =
        init.flatMap grpBytes ++ le32 (maskOf last + 2 ^ last.length) ++
          last.flatMap Token.bytes ++ [0, 0, 0]) ∧
      (last.length = 32 → (xh_lz77_compress noMatches inputC5 0 8 (0 + 8)).buf =
        init.flatMap grpBytes ++ le32 (maskOf last) ++ last.flatMap Token.bytes ++
          le32 1 ++ [0, 0, 0]) ∧
      (xh_lz77_compress noMatches inputC5 0 8 (0 + 8)).counts =
        bump (xh_lz77_compress noMatches inputC5 0 8 9).counts STREAM_END :=
  ⟨by decide, by decide,
    C15_terminator_placement noMatches inputC5 0 8 9 (by decide) (by decide)⟩

/-! ## The chunks of the input -/

theorem chunk_in_len {σ ε : Type} (W : OutputBitstream σ) (E : HuffmanEncoder σ ε)
    (Find : Dictionary) (inp : List Nat) (pos n in_end out_len : Nat) :
    (xpress_huff_compress_chunk W E Find inp pos n in_end out_len).2 = n := by
  unfold xpress_huff_compress_chunk
  by_cases h1 : out_len < MIN_DATA
  · simp only [h1, if_true]
  · by_cases h2 : n = 0
    · simp only [h1, h2, if_true, if_false]
    · have heq := xh_lz77_compress_eq Find inp pos n in_end (by omega)
      simp only [h1, h2, if_false, heq]
      split_ifs
      · rfl
      · split <;> rfl

theorem compressLoop_windows {σ ε : Type} (W : OutputBitstream σ) (E : HuffmanEncoder σ ε)
    (Find : Dictionary) (inp : List Nat) (in_end : Nat) : ∀ (q r fuel pos out_len total : Nat)
    (acc : List Nat), 1 ≤ r → r ≤ CHUNK_SIZE → q * CHUNK_SIZE + r < SIZE_T → q < fuel →
    compressLoop W E Find inp in_end fuel pos (q * CHUNK_SIZE + r) out_len total acc =
      compressWindows W E Find inp in_end (List.replicate q CHUNK_SIZE ++ [r]) pos out_len
        total acc := by
  intro q
  induction q with
  | zero =>
    intro r fuel pos out_len total acc h1 h2 _ hf
    obtain ⟨f, rfl⟩ : ∃ f, fuel = f + 1 := ⟨fuel - 1, by omega⟩
    have hnot : ¬ (r > CHUNK_SIZE) := by omega
    simp only [compressLoop, Nat.zero_mul, Nat.zero_add, hnot, if_false, List.replicate_zero,
      List.nil_append, compressWindows]
  | succ q ih =>
    intro r fuel pos out_len total acc h1 h2 hsz hf
    obtain ⟨f, rfl⟩ : ∃ f, fuel = f + 1 := ⟨fuel - 1, by omega⟩
    have hmul : (q + 1) * CHUNK_SIZE = q * CHUNK_SIZE + CHUNK_SIZE := by ring
    have hbig : (q + 1) * CHUNK_SIZE + r > CHUNK_SIZE := by omega
    have hnext : ((q + 1) * CHUNK_SIZE + r + SIZE_T - CHUNK_SIZE) % SIZE_T =
        q * CHUNK_SIZE + r := by
      rw [show (q + 1) * CHUNK_SIZE + r + SIZE_T - CHUNK_SIZE = q * CHUNK_SIZE + r + SIZE_T by
        omega, Nat.add_mod_right]
      exact Nat.mod_eq_of_lt (by omega)
    have hl : List.replicate (q + 1) CHUNK_SIZE ++ [r] =
        CHUNK_SIZE :: (List.replicate q CHUNK_SIZE ++ [r]) := by
      rw [List.replicate_succ, List.cons_append]
    obtain ⟨w1, ws, hws⟩ : ∃ w1 ws, List.replicate q CHUNK_SIZE ++ [r] = w1 :: ws := by
      cases q with
      | zero => exact ⟨r, [], rfl⟩
      | succ q1 => exact ⟨CHUNK_SIZE, _, by rw [List.replicate_succ, List.cons_append]⟩
    rw [compressLoop, hl, hws]
    simp only [compressWindows, hbig, if_true, chunk_in_len, hnext]
    split_ifs
    · rfl
    · rw [← hws]
      exact ih r f _ _ _ _ h1 h2 (by omega) (by omega)

theorem windows_facts (n : Nat) (h1 : 1 ≤ n) :
    1 ≤ n - (n - 1) / CHUNK_SIZE * CHUNK_SIZE ∧ n - (n - 1) / CHUNK_SIZE * CHUNK_SIZE ≤ CHUNK_SIZE ∧
    (n - 1) / CHUNK_SIZE * CHUNK_SIZE + (n - (n - 1) / CHUNK_SIZE * CHUNK_SIZE) = n ∧
    (n - 1) / CHUNK_SIZE + 1 = (n + 65535) / 65536 := by
  simp only [CHUNK_SIZE]
  omega

/-- C13: for an input of `n ≥ 1` bytes (`n` a `size_t`), `xpress_huff_compress` is the chunk
driver invoked on the consecutive windows of `windows n`: `(n + 65535) / 65536` of them, all
of 65536 bytes but the last, which has 1 to 65536, together the `n` bytes of the input; the
result is 0 from the first chunk that returns 0, and the sum of the sizes returned
otherwise. -/
theorem C13_chunk_windows {σ ε : Type} (W : OutputBitstream σ) (E : HuffmanEncoder σ ε)
    (Find : Dictionary) (inp : List Nat) (n out_len : Nat) (h1 : 1 ≤ n) (hsz : n < SIZE_T) :
    xpress_huff_compress W E Find inp n out_len =
      compressWindows W E Find inp n (windows n) 0 out_len 0 [] ∧
    (windows n).length = (n + 65535) / 65536 ∧
    (windows n).sum = n ∧
    (windows n).dropLast = List.replicate ((n - 1) / 65536) 65536 ∧
    (∀ w ∈ (windows n).getLast?, 1 ≤ w ∧ w ≤ 65536) ∧
    (∀ pos total acc, out_len < 260 →
      compressWindows W E Find inp n (windows n) pos out_len total acc =
        ⟨0, some .E_INSUFFICIENT_BUFFER, acc⟩) := by
  obtain ⟨w1, w2, w3, w4⟩ := windows_facts n h1
  refine ⟨?_, ?_, ?_, ?_, ?_, ?_⟩
  · unfold xpress_huff_compress windows
    have hn : ¬ (n = 0) := by omega
    simp only [hn, if_false]
    have := compressLoop_windows W E Find inp n ((n - 1) / CHUNK_SIZE)
      (n - (n - 1) / CHUNK_SIZE * CHUNK_SIZE) (n + 1) 0 out_len 0 [] w1 w2 (by omega)
      (by
        have : (n - 1) / CHUNK_SIZE ≤ n - 1 := Nat.div_le_self _ _
        omega)
    rw [w3] at this
    exact this
  · simp only [windows, List.length_append, List.length_replicate, List.length_cons,
      List.length_nil]
    exact w4
  · simp only [windows, List.sum_append, List.sum_replicate, List.sum_cons, List.sum_nil,
      smul_eq_mul, Nat.add_zero]
    exact w3
  · simp [windows, CHUNK_SIZE]
  · intro w hw
    simp [windows] at hw
    subst hw
    exact ⟨w1, w2⟩
  · intro pos total acc hsmall
    have hmin : ∀ p w, xpress_huff_compress_chunk W E Find inp p w n out_len =
        (⟨0, some .E_INSUFFICIENT_BUFFER, []⟩, w) := by
      intro p w
      have : out_len < MIN_DATA := by simp only [MIN_DATA, HALF_SYMBOLS]; omega
      simp only [xpress_huff_compress_chunk, this, if_true]
    unfold windows
    cases (n - 1) / CHUNK_SIZE with
    | zero => simp [compressWindows, hmin]
    | succ q =>
      rw [List.replicate_succ, List.cons_append]
      cases q with
      | zero => simp [compressWindows, hmin]
      | succ q => rw [List.replicate_succ, List.cons_append]; simp [compressWindows, hmin]

/-- Witness of C13: the eight bytes of `inputC5` into 262 bytes, with the reference Bit
Coder. -/
theorem C13_chunk_windows_witness :
    1 ≤ 8 ∧ 8 < SIZE_T ∧
    xpress_huff_compress refOutputBitstream refHuffmanEncoder noMatches inputC5 8 262 =
      compressWindows refOutputBitstream refHuffmanEncoder noMatches inputC5 8 (windows 8) 0
        262 0 [] :=
  ⟨by decide, by decide,
    (C13_chunk_windows refOutputBitstream refHuffmanEncoder noMatches inputC5 8 262
      (by decide) (by decide)).1⟩

/-! ## The parse of the intermediate buffer -/

theorem encodeLength_trace (l : Nat) (log : List Event) :
    encodeLength traceWriter l log = (true, log ++ lenEvents l) := by
  unfold encodeLength lenEvents traceWriter
  split_ifs <;> simp

theorem rd8_at (pre rest : List Nat) (b : Nat) :
    rd8 (pre ++ b :: rest) pre.length = b % 256 := by
  have := rd8_append_right pre (b :: rest) 0
  rw [Nat.add_zero] at this
  rw [this]
  simp [rd8]

theorem rd16_at (pre rest : List Nat) (v : Nat) :
    rd16 (pre ++ (le16 v ++ rest)) pre.length = v % 65536 := by
  have := rd16_append_right pre (le16 v ++ rest) 0
  rw [Nat.add_zero] at this
  rw [this, rd16_le16]

theorem readMatch_bytes (pre rest : List Nat) (off l : Nat) (h : (Token.mtch off l).wf) :
    readMatch (pre ++ ((Token.mtch off l).bytes ++ rest)) pre.length =
      (off, l, (Token.mtch off l).bytes.length) := by
  obtain ⟨ho, hl⟩ := h
  have hnot : ¬ (l > 0xFFFF) := by omega
  have hoff : off % 65536 = off := Nat.mod_eq_of_lt ho
  unfold readMatch
  by_cases hbig : l ≥ 0xFF
  · have hbytes : (Token.mtch off l).bytes = le16 off ++ ([0xFF] ++ le16 l) := by
      simp [Token.bytes, hnot, hbig]
    rw [hbytes]
    have e1 : rd16 (pre ++ (le16 off ++ ([0xFF] ++ le16 l) ++ rest)) pre.length = off := by
      rw [List.append_assoc (le16 off), rd16_at, hoff]
    have e2 : rd8 (pre ++ (le16 off ++ ([0xFF] ++ le16 l) ++ rest)) (pre.length + 2) = 0xFF := by
      have := rd8_at (pre ++ le16 off) (le16 l ++ rest) 0xFF
      simp only [List.length_append, le16, List.length_cons, List.length_nil] at this
      simpa [le16, List.append_assoc] using this
    have e3 : rd16 (pre ++ (le16 off ++ ([0xFF] ++ le16 l) ++ rest)) (pre.length + 3) = l := by
      have := rd16_at (pre ++ le16 off ++ [0xFF]) rest l
      have hlen : (pre ++ le16 off ++ [0xFF]).length = pre.length + 3 := by simp [le16]
      have hlt : l % 65536 = l := Nat.mod_eq_of_lt (by omega)
      have hlist : pre ++ (le16 off ++ ([0xFF] ++ le16 l) ++ rest) =
          pre ++ le16 off ++ [0xFF] ++ (le16 l ++ rest) := by simp [List.append_assoc]
      rw [hlen, hlt] at this
      rw [hlist]
      exact this
    have hl0 : ¬ (l = 0) := by omega
    simp only [e1, e2, e3, if_true, hl0, and_false, if_false]
    simp [le16]
  · have hbytes : (Token.mtch off l).bytes = le16 off ++ [l % 256] := by
      simp [Token.bytes, hnot, hbig]
    rw [hbytes]
    have hlm : l % 256 = l := Nat.mod_eq_of_lt (by omega)
    have e1 : rd16 (pre ++ (le16 off ++ [l % 256] ++ rest)) pre.length = off := by
      rw [List.append_assoc (le16 off), rd16_at, hoff]
    have e2 : rd8 (pre ++ (le16 off ++ [l % 256] ++ rest)) (pre.length + 2) = l := by
      have := rd8_at (pre ++ le16 off) rest (l % 256)
      simp only [List.length_append, le16, List.length_cons, List.length_nil] at this
      rw [Nat.mod_mod, hlm] at this
      simpa [le16, List.append_assoc, hlm] using this
    have hne : ¬ (l = 0xFF) := by omega
    simp only [e1, e2, hne, false_and, if_false]
    simp [le16]

theorem Token_bytes_pos (t : Token) : 1 ≤ t.bytes.length := by
  cases t with
  | lit b => simp [Token.bytes]
  | mtch off l => simp [Token.bytes, le16]

theorem encodeToken_trace (t : Token) (ht : t.wf) (pre rest : List Nat) (mask : Nat)
    (hbit : mask % 2 = t.bit) (rem : Int) (log : List Event) :
    encodeToken traceWriter traceEncoder () (pre ++ (t.bytes ++ rest)) mask
        ⟨pre.length, rem, log⟩ =
      (true, ⟨pre.length + t.bytes.length, rem - (t.bytes.length : Int),
        log ++ t.events⟩) := by
  cases t with
  | lit b =>
    have hb : b < 256 := ht
    have hm : ¬ (mask &&& 1 = 1) := by
      rw [Nat.and_one_is_mod]
      simp only [Token.bit] at hbit
      omega
    have hr := rd8_at pre rest b
    rw [Nat.mod_eq_of_lt hb] at hr
    simp only [Token.bytes, List.singleton_append, encodeToken, hm, if_false, hr, traceEncoder,
      Token.events, List.length_singleton, Nat.cast_one]
    simp
  | mtch off l =>
    have hm : mask &&& 1 = 1 := by
      rw [Nat.and_one_is_mod]
      simp only [Token.bit] at hbit
      omega
    have h := readMatch_bytes pre rest off l ht
    unfold readMatch at h
    simp only [Prod.mk.injEq] at h
    obtain ⟨h1, h2, h3⟩ := h
    simp only [encodeToken, hm, if_true, h1, h2, h3, traceEncoder, encodeLength_trace]
    simp [traceWriter, Token.events]

theorem maskOf_bit (t : Token) (ts : List Token) : maskOf (t :: ts) % 2 = t.bit := by
  cases t <;> simp [maskOf, Token.bit, Nat.add_mul_mod_self_left]

theorem maskOf_shift (t : Token) (ts : List Token) : maskOf (t :: ts) >>> 1 = maskOf ts := by
  rw [Nat.shiftRight_one]
  cases t <;> simp only [maskOf, Token.bit] <;> omega

theorem encodeGroup_trace (rest : List Nat) : ∀ (g : List Token) (k i : Nat) (pre : List Nat)
    (log : List Event), (∀ t ∈ g, t.wf) → loopCount g ≤ k →
    encodeGroup traceWriter traceEncoder () (pre ++ (g.flatMap Token.bytes ++ rest)) k i
        (maskOf g) ⟨pre.length, ((g.flatMap Token.bytes ++ rest).length : Int), log⟩ =
      (i - loopCount g,
        ⟨pre.length + ((g.take (loopCount g)).flatMap Token.bytes).length,
          ((((g.drop (loopCount g)).flatMap Token.bytes) ++ rest).length : Int),
          log ++ (g.take (loopCount g)).flatMap Token.events⟩) := by
  intro g
  induction g with
  | nil =>
    intro k i pre log _ _
    cases k <;> simp [encodeGroup, maskOf, loopCount]
  | cons t ts ih =>
    intro k i pre log hwf hk
    by_cases h0 : maskOf (t :: ts) = 0
    · cases k <;> simp [encodeGroup, loopCount, h0]
    · simp only [loopCount, h0, if_false] at hk ⊢
      obtain ⟨k, rfl⟩ : ∃ k1, k = k1 + 1 := ⟨k - 1, by omega⟩
      have htw : t.wf := hwf t (List.mem_cons_self _ _)
      have hpos := Token_bytes_pos t
      have hrem : (0 : Int) < (((t :: ts).flatMap Token.bytes ++ rest).length : Int) := by
        simp only [List.flatMap_cons, List.length_append]
        omega
      have hlist : pre ++ ((t :: ts).flatMap Token.bytes ++ rest) =
          pre ++ (t.bytes ++ (ts.flatMap Token.bytes ++ rest)) := by
        simp [List.flatMap_cons, List.append_assoc]
      have hstep := encodeToken_trace t htw pre (ts.flatMap Token.bytes ++ rest)
        (maskOf (t :: ts)) (maskOf_bit t ts)
        ((((t :: ts).flatMap Token.bytes ++ rest).length : Int)) log
      rw [← hlist] at hstep
      rw [encodeGroup]
      simp only [ne_eq, h0, not_false_eq_true, hrem, and_self, if_true, hstep, maskOf_shift]
      have hih := ih k (i - 1) (pre ++ t.bytes) (log ++ t.events)
        (fun x hx => hwf x (List.mem_cons_of_mem _ hx)) (by omega)
      have hlist2 : pre ++ t.bytes ++ (ts.flatMap Token.bytes ++ rest) =
          pre ++ ((t :: ts).flatMap Token.bytes ++ rest) := by
        simp [List.flatMap_cons, List.append_assoc]
      rw [hlist2] at hih
      have hremeq : ((((t :: ts).flatMap Token.bytes ++ rest).length : Int)) -
          (t.bytes.length : Int) = ((ts.flatMap Token.bytes ++ rest).length : Int) := by
        simp only [List.flatMap_cons, List.length_append]
        push_cast
        omega
      rw [hremeq]
      have hlen : (pre ++ t.bytes).length = pre.length + t.bytes.length := List.length_append _ _
      rw [hlen] at hih
      rw [hih]
      have e1 : 1 + loopCount ts = loopCount ts + 1 := Nat.add_comm _ _
      simp only [e1, List.take_succ_cons, List.drop_succ_cons, List.flatMap_cons,
        List.length_append, List.append_assoc]
      refine Prod.ext ?_ ?_
      · show i - 1 - loopCount ts = i - (loopCount ts + 1)
        omega
      · simp only [Nat.add_assoc]

theorem maskOf_zero_lits : ∀ g : List Token, maskOf g = 0 → ∀ t ∈ g, ∃ b, t = .lit b := by
  intro g
  induction g with
  | nil => intro _ t ht; simp at ht
  | cons a g ih =>
    intro h t ht
    have ha : a.bit = 0 ∧ maskOf g = 0 := by
      simp only [maskOf] at h
      omega
    rcases List.mem_cons.mp ht with rfl | ht
    · cases t with
      | lit b => exact ⟨b, rfl⟩
      | mtch off l => simp [Token.bit] at ha
    · exact ih ha.2 t ht

theorem maskOf_drop_loopCount : ∀ g : List Token, maskOf (g.drop (loopCount g)) = 0 := by
  intro g
  induction g with
  | nil => simp [loopCount, maskOf]
  | cons t ts ih =>
    by_cases h0 : maskOf (t :: ts) = 0
    · simp [loopCount, h0]
    · simp only [loopCount, h0, if_false, Nat.add_comm 1, List.drop_succ_cons]
      exact ih

theorem loopCount_le : ∀ g : List Token, loopCount g ≤ g.length := by
  intro g
  induction g with
  | nil => simp [loopCount]
  | cons t ts ih =>
    simp only [loopCount, List.length_cons]
    split_ifs <;> omega

theorem lits_bytes_length : ∀ ls : List Token, (∀ t ∈ ls, ∃ b, t = .lit b) →
    (ls.flatMap Token.bytes).length = ls.length := by
  intro ls
  induction ls with
  | nil => intro _; rfl
  | cons a ls ih =>
    intro h
    obtain ⟨b, rfl⟩ := h a (List.mem_cons_self _ _)
    simp only [List.flatMap_cons, List.length_append, List.length_cons, Token.bytes,
      List.length_nil, ih (fun x hx => h x (List.mem_cons_of_mem _ hx))]
    omega

theorem encodeLits_trace (rest : List Nat) : ∀ (ls : List Token) (pre : List Nat) (rem : Int)
    (log : List Event), (∀ t ∈ ls, t.wf) → (∀ t ∈ ls, ∃ b, t = .lit b) →
    encodeLits traceEncoder () (pre ++ (ls.flatMap Token.bytes ++ rest)) ls.length
        ⟨pre.length, rem, log⟩ =
      (true, ⟨pre.length + ls.length, rem, log ++ ls.flatMap Token.events⟩) := by
  intro ls
  induction ls with
  | nil => intro pre rem log _ _; simp [encodeLits]
  | cons a ls ih =>
    intro pre rem log hwf hl
    obtain ⟨b, rfl⟩ := hl _ (List.mem_cons_self _ _)
    have hb : b < 256 := hwf _ (List.mem_cons_self _ _)
    have hr := rd8_at pre (ls.flatMap Token.bytes ++ rest) b
    rw [Nat.mod_eq_of_lt hb] at hr
    have hih := ih (pre ++ [b]) rem (log ++ [.sym b])
      (fun x hx => hwf x (List.mem_cons_of_mem _ hx))
      (fun x hx => hl x (List.mem_cons_of_mem _ hx))
    have hlist : pre ++ [b] ++ (ls.flatMap Token.bytes ++ rest) =
        pre ++ b :: (ls.flatMap Token.bytes ++ rest) := by simp
    rw [hlist] at hih
    have hlen : (pre ++ [b]).length = pre.length + 1 := by simp
    rw [hlen] at hih
    have hflat : (Token.lit b :: ls).flatMap Token.bytes ++ rest =
        b :: (ls.flatMap Token.bytes ++ rest) := by simp [Token.bytes]
    have hev : (Token.lit b :: ls).flatMap Token.events =
        [.sym b] ++ ls.flatMap Token.events := by simp [Token.events]
    rw [hflat, hev, List.length_cons, encodeLits]
    simp only [hr]
    have hsym : traceEncoder.EncodeSymbol () b log = (true, log ++ [.sym b]) := rfl
    simp only [hsym, if_true]
    rw [hih]
    simp [Nat.add_assoc, Nat.add_comm 1]

theorem take_drop_events (g : List Token) (k : Nat) :
    (g.take k).flatMap Token.events ++ (g.drop k).flatMap Token.events =
      g.flatMap Token.events := by
  rw [← List.flatMap_append, List.take_append_drop]

theorem take_drop_bytes (g : List Token) (k : Nat) :
    ((g.take k).flatMap Token.bytes).length + ((g.drop k).flatMap Token.bytes).length =
      (g.flatMap Token.bytes).length := by
  rw [← List.length_append, ← List.flatMap_append, List.take_append_drop]

theorem encodeLoop_group (g : List Token) (pre rest : List Nat) (log : List Event)
    (fuel : Nat) (hwf : ∀ t ∈ g, t.wf) (hlen : g.length = 32 ∨ (rest = [] ∧ g.length ≤ 32)) :
    encodeLoop traceWriter traceEncoder () (pre ++ (grpBytes g ++ rest)) (fuel + 1)
        ⟨pre.length, ((grpBytes g ++ rest).length : Int), log⟩ =
      encodeLoop traceWriter traceEncoder () (pre ++ (grpBytes g ++ rest)) fuel
        ⟨pre.length + (grpBytes g).length, (rest.length : Int),
          log ++ g.flatMap Token.events⟩ := by
  have hle : g.length ≤ 32 := by rcases hlen with h | h <;> omega
  have hlc := loopCount_le g
  have hmask : maskOf g % U32 = maskOf g := by
    apply Nat.mod_eq_of_lt
    have h1 := maskOf_lt g
    have h2 : 2 ^ g.length ≤ 2 ^ 32 := Nat.pow_le_pow_right (by decide) hle
    have h3 : (2 : Nat) ^ 32 = U32 := by decide
    omega
  have hbuf : pre ++ (grpBytes g ++ rest) =
      pre ++ le32 (maskOf g) ++ (g.flatMap Token.bytes ++ rest) := by
    simp [grpBytes, List.append_assoc]
  have hrd : rd32 (pre ++ (grpBytes g ++ rest)) pre.length = maskOf g := by
    have h := rd32_append_right pre (grpBytes g ++ rest) 0
    rw [Nat.add_zero] at h
    rw [h, grpBytes, List.append_assoc, rd32_le32, hmask]
  have hgrp := encodeGroup_trace rest g 32 32 (pre ++ le32 (maskOf g)) log hwf (by omega)
  rw [← hbuf] at hgrp
  have hplen : (pre ++ le32 (maskOf g)).length = pre.length + 4 := by
    rw [List.length_append, le32_length]
  rw [hplen] at hgrp
  have hrem4 : (((grpBytes g ++ rest).length : Nat) : Int) - 4 =
      ((g.flatMap Token.bytes ++ rest).length : Int) := by
    simp only [grpBytes, List.length_append, le32_length]
    push_cast
    omega
  have hpos : (0 : Int) < ((grpBytes g ++ rest).length : Int) := by
    simp only [grpBytes, List.length_append, le32_length]
    omega
  have hlits := maskOf_zero_lits _ (maskOf_drop_loopCount g)
  have hdl := lits_bytes_length _ hlits
  have hdlen : (g.drop (loopCount g)).length = g.length - loopCount g := List.length_drop _ _
  have hbuf2 : pre ++ (grpBytes g ++ rest) =
      (pre ++ le32 (maskOf g) ++ (g.take (loopCount g)).flatMap Token.bytes) ++
        ((g.drop (loopCount g)).flatMap Token.bytes ++ rest) := by
    rw [hbuf]
    simp only [List.append_assoc]
    rw [← List.append_assoc ((g.take (loopCount g)).flatMap Token.bytes),
      ← List.flatMap_append, List.take_append_drop]
  have hl := encodeLits_trace rest (g.drop (loopCount g))
    (pre ++ le32 (maskOf g) ++ (g.take (loopCount g)).flatMap Token.bytes)
    ((((g.drop (loopCount g)).flatMap Token.bytes) ++ rest).length : Int)
    (log ++ (g.take (loopCount g)).flatMap Token.events)
    (fun t ht => hwf t (List.mem_of_mem_drop ht)) hlits
  rw [← hbuf2] at hl
  have hplen2 : (pre ++ le32 (maskOf g) ++ (g.take (loopCount g)).flatMap Token.bytes).length =
      pre.length + 4 + ((g.take (loopCount g)).flatMap Token.bytes).length := by
    rw [List.length_append, hplen]
  rw [hplen2] at hl
  have hi : (if ((((g.drop (loopCount g)).flatMap Token.bytes) ++ rest).length : Int) <
        ((32 - loopCount g : Nat) : Int)
      then ((((g.drop (loopCount g)).flatMap Token.bytes) ++ rest).length : Int).toNat % 256
      else 32 - loopCount g) = (g.drop (loopCount g)).length := by
    rw [List.length_append, hdl, hdlen]
    rcases hlen with h | ⟨h, _⟩
    · have : ¬ (((g.length - loopCount g + rest.length : Nat) : Int) <
          ((32 - loopCount g : Nat) : Int)) := by omega
      rw [if_neg this]
      omega
    · subst h
      simp only [List.length_nil, Nat.add_zero, Int.toNat_ofNat]
      split_ifs <;> omega
  rw [encodeLoop]
  simp only [hpos, if_true, hrd, hrem4, hgrp]
  have hneg : ¬ (((((g.drop (loopCount g)).flatMap Token.bytes) ++ rest).length : Int) < 0) := by
    omega
  simp only [hneg, if_false, hi, hl, if_true]
  congr 1
  have e1 := take_drop_bytes g (loopCount g)
  have e2 := take_drop_events g (loopCount g)
  rw [List.append_assoc, e2]
  congr 1
  · simp only [grpBytes, List.length_append, le32_length]
    omega
  · rw [List.length_append, hdl]
    push_cast
    omega

theorem encodeLoop_groups : ∀ (gs : List (List Token)) (fuel : Nat) (pre : List Nat)
    (log : List Event), FullButLast gs → (∀ g ∈ gs, ∀ t ∈ g, t.wf) →
    encodeLoop traceWriter traceEncoder () (pre ++ gs.flatMap grpBytes) fuel
        ⟨pre.length, ((gs.flatMap grpBytes).length : Int), log⟩ =
      ⟨pre.length + ((gs.take fuel).flatMap grpBytes).length,
        (((gs.drop fuel).flatMap grpBytes).length : Int),
        log ++ (gs.take fuel).flatten.flatMap Token.events⟩ := by
  intro gs
  induction gs with
  | nil =>
    intro fuel pre log _ _
    cases fuel <;> simp [encodeLoop]
  | cons g gs ih =>
    intro fuel pre log hfull hwf
    cases fuel with
    | zero => simp [encodeLoop]
    | succ f =>
      have hlen : g.length = 32 ∨ (gs.flatMap grpBytes = [] ∧ g.length ≤ 32) := by
        cases gs with
        | nil => exact Or.inr ⟨rfl, hfull.2⟩
        | cons g1 gs1 => exact Or.inl hfull.1
      have hfull2 : FullButLast gs := by
        cases gs with
        | nil => trivial
        | cons g1 gs1 => exact hfull.2
      have hstep := encodeLoop_group g pre (gs.flatMap grpBytes) log f
        (hwf g (List.mem_cons_self _ _)) hlen
      have hih := ih f (pre ++ grpBytes g) (log ++ g.flatMap Token.events) hfull2
        (fun x hx => hwf x (List.mem_cons_of_mem _ hx))
      rw [List.append_assoc, List.length_append] at hih
      rw [List.flatMap_cons, hstep, hih]
      simp [List.flatMap_cons, List.flatten_cons, List.flatMap_append, Nat.add_assoc]

theorem FullButLast_concat : ∀ (init : List (List Token)) (last : List Token),
    (∀ g ∈ init, g.length = 32) → 1 ≤ last.length → last.length ≤ 32 →
    FullButLast (init ++ [last]) := by
  intro init
  induction init with
  | nil => intro last _ h1 h2; exact ⟨h1, h2⟩
  | cons g init ih =>
    intro last h h1 h2
    have hrest := ih last (fun x hx => h x (List.mem_cons_of_mem _ hx)) h1 h2
    cases init with
    | nil => exact ⟨h g (List.mem_cons_self _ _), hrest⟩
    | cons g1 init => exact ⟨h g (List.mem_cons_self _ _), hrest⟩

theorem lzGroups_full (Find : Dictionary) (inp : List Nat) (pos n in_end : Nat) (hn : 1 ≤ n) :
    FullButLast (lzGroups Find inp pos n in_end) := by
  have hfull := chunkGroups_full Find inp n pos n
  unfold lzGroups
  by_cases hend : pos + n = in_end
  · simp only [hend, if_true]
    obtain ⟨f, rfl⟩ : ∃ f, n = f + 1 := ⟨n - 1, by omega⟩
    have hne := chunkGroups_ne_nil Find inp f pos (f + 1) (by omega)
    rw [← List.dropLast_append_getLast hne] at hfull ⊢
    obtain ⟨a, b, c⟩ := FullButLast_split _ _ hfull
    rw [addTerminator_concat]
    split_ifs with h32
    · apply FullButLast_concat
      · intro x hx
        rcases List.mem_append.mp hx with hx | hx
        · exact a x hx
        · rw [List.mem_singleton.mp hx]; exact h32
      · simp
      · simp
    · apply FullButLast_concat _ _ a
      · simp
      · rw [List.length_append, List.length_singleton]; omega
  · simp only [hend, if_false]
    exact hfull

theorem lzGroups_flatten (Find : Dictionary) (inp : List Nat) (pos n in_end : Nat)
    (hn : 1 ≤ n) :
    (lzGroups Find inp pos n in_end).flatten =
      (chunkGroups Find inp n pos n).flatten ++
        (if pos + n = in_end then [terminator] else []) := by
  unfold lzGroups
  by_cases hend : pos + n = in_end
  · simp only [hend, if_true]
    obtain ⟨f, rfl⟩ : ∃ f, n = f + 1 := ⟨n - 1, by omega⟩
    have hne := chunkGroups_ne_nil Find inp f pos (f + 1) (by omega)
    rw [← List.dropLast_append_getLast hne, addTerminator_concat]
    split_ifs <;> simp [List.flatten_append]
  · simp [hend]

theorem groupToks_mem (Find : Dictionary) (inp : List Nat) : ∀ (k pos rem : Nat) (t : Token),
    t ∈ groupToks Find inp k pos rem → ∃ p r, t = lzNext Find inp p r := by
  intro k
  induction k with
  | zero => intro pos rem t ht; simp [groupToks] at ht
  | succ k ih =>
    intro pos rem t ht
    rw [groupToks] at ht
    split_ifs at ht with h
    · rcases List.mem_cons.mp ht with rfl | ht
      · exact ⟨pos, rem, rfl⟩
      · exact ih _ _ t ht
    · simp at ht

theorem chunkGroups_mem (Find : Dictionary) (inp : List Nat) : ∀ (fuel pos rem : Nat)
    (t : Token), t ∈ (chunkGroups Find inp fuel pos rem).flatten →
    ∃ p r, t = lzNext Find inp p r := by
  intro fuel
  induction fuel with
  | zero => intro pos rem t ht; simp [chunkGroups] at ht
  | succ f ih =>
    intro pos rem t ht
    rw [chunkGroups] at ht
    split_ifs at ht with h
    · rw [List.flatten_cons] at ht
      rcases List.mem_append.mp ht with ht | ht
      · exact groupToks_mem Find inp _ _ _ t ht
      · exact ih _ _ t ht
    · simp at ht

theorem lzGroups_wf (Find : Dictionary) (inp : List Nat) (pos n in_end : Nat)
    (h1 : 1 ≤ n) (h2 : n ≤ 65536) (hoff : ∀ p, (Find p).2 < 65536)
    (hbyte : ∀ p, inp.getD p 0 < 256) :
    ∀ t ∈ (lzGroups Find inp pos n in_end).flatten, t.wf := by
  intro t ht
  rw [lzGroups_flatten Find inp pos n in_end h1] at ht
  rcases List.mem_append.mp ht with ht | ht
  · have hfit := chunkGroups_fit Find inp n pos n (le_refl _)
    have hspan := TokensFit_span_le _ _ hfit t ht
    obtain ⟨p, r, rfl⟩ := chunkGroups_mem Find inp n pos n t ht
    unfold lzNext at hspan ⊢
    by_cases hm : 3 ≤ r ∧ 3 ≤ (Find p).1
    · rw [if_pos hm] at hspan ⊢
      simp only [Token.span] at hspan
      exact ⟨hoff p, by omega⟩
    · rw [if_neg hm]
      exact hbyte p
  · split_ifs at ht
    · rw [List.mem_singleton.mp ht]
      exact ⟨by decide, by decide⟩
    · simp at ht

theorem maskOf_bits : ∀ (g : List Token) (j : Nat) (t : Token), g[j]? = some t →
    maskOf g / 2 ^ j % 2 = t.bit := by
  intro g
  induction g with
  | nil => intro j t h; simp at h
  | cons a g ih =>
    intro j t h
    cases j with
    | zero =>
      simp only [List.getElem?_cons_zero, Option.some.injEq] at h
      subst h
      simpa using maskOf_bit a g
    | succ j =>
      simp only [List.getElem?_cons_succ] at h
      have hshift := maskOf_shift a g
      rw [Nat.shiftRight_one] at hshift
      rw [Nat.pow_succ, Nat.mul_comm, ← Nat.div_div_eq_div_mul, hshift]
      exact ih j t h

/-! ## The token stream read back -/

theorem getD_lt_of_forall (inp : List Nat) (h : ∀ b ∈ inp, b < 256) (p : Nat) :
    inp.getD p 0 < 256 := by
  rw [List.getD_eq_getElem?_getD]
  cases hp : inp[p]? with
  | none => simp
  | some b => exact h b (List.getElem?_mem hp)

theorem groups_length_le : ∀ gs : List (List Token), gs.length ≤ (gs.flatMap grpBytes).length := by
  intro gs
  induction gs with
  | nil => simp
  | cons g gs ih =>
    rw [List.flatMap_cons, List.length_append, grpBytes_length, List.length_cons]
    omega

/-- When no write fails: for a chunk of 1 to 65536 bytes, with dictionary offsets below 65536
and input bytes below 256, the buffer that `xh_lz77_compress` returns is the bytes of its groups of tokens
and `buf_len` is its length; after `k` passes of the loop `while (rem > 0)` of `xh_encode`
(run with a coder that records its calls and lets them succeed) the parse has read exactly the first `k` groups,
`rem` is the number of bytes of the groups still to read, and the calls made are those of the
tokens of the first `k` groups in order; the complete parse ends at index `buf_len` with
`rem = 0`. What `xh_encode` reads at the place of a token is that token: for a literal its
byte, for a match its offset and its length minus 3 (at most 65533), for the terminator
offset 0 and length field 0; the mask read at the start of a group is the mask of that
group, and its bit `j`, least significant first, is the bit of the `j`-th token. -/
theorem token_roundtrip_complete (Find : Dictionary) (inp : List Nat) (pos n in_end : Nat)
    (h1 : 1 ≤ n) (h2 : n ≤ 65536) (hoff : ∀ p, (Find p).2 < 65536)
    (hbyte : ∀ b ∈ inp, b < 256) :
    (xh_lz77_compress Find inp pos n in_end).buf =
      (lzGroups Find inp pos n in_end).flatMap grpBytes ∧
    (xh_lz77_compress Find inp pos n in_end).ret =
      (xh_lz77_compress Find inp pos n in_end).buf.length ∧
    (∀ k, encodeLoop traceWriter traceEncoder () (xh_lz77_compress Find inp pos n in_end).buf k
        ⟨0, ((xh_lz77_compress Find inp pos n in_end).ret : Int), []⟩ =
      ⟨(((lzGroups Find inp pos n in_end).take k).flatMap grpBytes).length,
        ((((lzGroups Find inp pos n in_end).drop k).flatMap grpBytes).length : Int),
        ((lzGroups Find inp pos n in_end).take k).flatten.flatMap Token.events⟩) ∧
    encodeLoop traceWriter traceEncoder () (xh_lz77_compress Find inp pos n in_end).buf
        (xh_lz77_compress Find inp pos n in_end).ret
        ⟨0, ((xh_lz77_compress Find inp pos n in_end).ret : Int), []⟩ =
      ⟨(xh_lz77_compress Find inp pos n in_end).ret, 0,
        (lzGroups Find inp pos n in_end).flatten.flatMap Token.events⟩ ∧
    (lzGroups Find inp pos n in_end).flatten =
      (chunkGroups Find inp n pos n).flatten ++
        (if pos + n = in_end then [terminator] else []) ∧
    (∀ b, Token.lit b ∈ (lzGroups Find inp pos n in_end).flatten → ∀ pre rest : List Nat,
      rd8 (pre ++ ((Token.lit b).bytes ++ rest)) pre.length = b) ∧
    (∀ off l, Token.mtch off l ∈ (lzGroups Find inp pos n in_end).flatten →
      l ≤ 65533 ∧ ∀ pre rest : List Nat,
        readMatch (pre ++ ((Token.mtch off l).bytes ++ rest)) pre.length =
          (off, l, (Token.mtch off l).bytes.length)) ∧
    (∀ pre rest : List Nat, readMatch (pre ++ (terminator.bytes ++ rest)) pre.length =
      (0, 0, 3)) ∧
    (∀ g ∈ lzGroups Find inp pos n in_end, ∀ pre rest : List Nat,
      rd32 (pre ++ (grpBytes g ++ rest)) pre.length = maskOf g) ∧
    (∀ g ∈ lzGroups Find inp pos n in_end, ∀ j t, g[j]? = some t →
      maskOf g / 2 ^ j % 2 = t.bit) := by
  have heq := xh_lz77_compress_eq Find inp pos n in_end h1
  have hfull := lzGroups_full Find inp pos n in_end h1
  have hwf := lzGroups_wf Find inp pos n in_end h1 h2 hoff (getD_lt_of_forall inp hbyte)
  have hwf2 : ∀ g ∈ lzGroups Find inp pos n in_end, ∀ t ∈ g, t.wf :=
    fun g hg t ht => hwf t (List.mem_flatten.mpr ⟨g, hg, ht⟩)
  have hloop := fun k => encodeLoop_groups (lzGroups Find inp pos n in_end) k [] [] hfull hwf2
  simp only [List.nil_append, List.length_nil, Nat.zero_add] at hloop
  have hflat := lzGroups_flatten Find inp pos n in_end h1
  rw [heq]
  refine ⟨rfl, rfl, hloop, ?_, hflat, ?_, ?_, ?_, ?_, ?_⟩
  · have hk := hloop ((lzGroups Find inp pos n in_end).flatMap grpBytes).length
    have hle := groups_length_le (lzGroups Find inp pos n in_end)
    rw [List.take_of_length_le hle, List.drop_of_length_le hle] at hk
    simpa using hk
  · intro b hb pre rest
    have hlt : b < 256 := hwf _ hb
    have := rd8_at pre rest b
    rw [Nat.mod_eq_of_lt hlt] at this
    simpa [Token.bytes] using this
  · intro off l hm
    refine ⟨?_, fun pre rest => readMatch_bytes pre rest off l (hwf _ hm)⟩
    rw [hflat] at hm
    rcases List.mem_append.mp hm with hm | hm
    · have hfit := chunkGroups_fit Find inp n pos n (le_refl _)
      have := TokensFit_span_le _ _ hfit _ hm
      simp only [Token.span] at this
      omega
    · split_ifs at hm
      · have := List.mem_singleton.mp hm
        simp only [terminator, Token.mtch.injEq] at this
        omega
      · simp at hm
  · intro pre rest
    exact readMatch_bytes pre rest 0 0 ⟨by decide, by decide⟩
  · intro g hg pre rest
    have hle : g.length ≤ 32 := by
      obtain ⟨a, b, hab⟩ := List.append_of_mem hg
      rw [hab] at hfull
      cases b with
      | nil =>
        exact (FullButLast_split a g hfull).2.2
      | cons c b =>
        have hsplit : a ++ g :: c :: b = (a ++ g :: (c :: b).dropLast) ++
            [(c :: b).getLast (by simp)] := by
          rw [List.append_assoc, List.cons_append,
            List.dropLast_append_getLast]
        rw [hsplit] at hfull
        have := (FullButLast_split _ _ hfull).1 g (by simp)
        omega
    have hmask : maskOf g % U32 = maskOf g := by
      apply Nat.mod_eq_of_lt
      have h1 := maskOf_lt g
      have h2 : 2 ^ g.length ≤ 2 ^ 32 := Nat.pow_le_pow_right (by decide) hle
      have h3 : (2 : Nat) ^ 32 = U32 := by decide
      omega
    have h := rd32_append_right pre (grpBytes g ++ rest) 0
    rw [Nat.add_zero] at h
    rw [h, grpBytes, List.append_assoc, rd32_le32, hmask]
  · intro g _ j t h
    exact maskOf_bits g j t h

theorem matchesC1_off (p : Nat) : (matchesC1 p).2 < 65536 := by
  unfold matchesC1
  split_ifs <;> decide

/-- An instance: the seven bytes `abababa` with a match at index 2, which give two
literals, a match of length 5 and the terminator. -/
theorem token_roundtrip_complete_example :
    1 ≤ 7 ∧ 7 ≤ 65536 ∧ (∀ p, (matchesC1 p).2 < 65536) ∧ (∀ b ∈ inputC16, b < 256) ∧
    encodeLoop traceWriter traceEncoder () (xh_lz77_compress matchesC1 inputC16 0 7 7).buf
        (xh_lz77_compress matchesC1 inputC16 0 7 7).ret
        ⟨0, ((xh_lz77_compress matchesC1 inputC16 0 7 7).ret : Int), []⟩ =
      ⟨(xh_lz77_compress matchesC1 inputC16 0 7 7).ret, 0,
        (lzGroups matchesC1 inputC16 0 7 7).flatten.flatMap Token.events⟩ :=
  ⟨by decide, by decide, matchesC1_off, by decide,
    (token_roundtrip_complete matchesC1 inputC16 0 7 7 (by decide) (by decide) matchesC1_off
      (by decide)).2.2.2.1⟩

set_option maxRecDepth 1000000 in
theorem inputRun_tokens :
    (xh_lz77_compress matchesRun inputRun 0 50 50).buf =
      [0, 0, 0, 192] ++ List.replicate 30 97 ++ [1, 0, 17] ++ [0, 0, 0] ∧
    (xh_lz77_compress matchesRun inputRun 0 50 50).ret = 40 ∧
    (lzGroups matchesRun inputRun 0 50 50).flatten =
      List.replicate 30 (Token.lit 97) ++ [Token.mtch 1 17, terminator] := by
  decide!

set_option maxRecDepth 1000000 in
theorem inputRun_parse :
    (encodeGroup refOutputBitstream refHuffmanEncoder
      (refCreateCodes (xh_lz77_compress matchesRun inputRun 0 50 50).counts)
      (xh_lz77_compress matchesRun inputRun 0 50 50).buf 32 32 0xC0000000
      ⟨4, 36, refOutputBitstream.init 4⟩).1 = 2 ∧
    (encodeGroup refOutputBitstream refHuffmanEncoder
      (refCreateCodes (xh_lz77_compress matchesRun inputRun 0 50 50).counts)
      (xh_lz77_compress matchesRun inputRun 0 50 50).buf 32 32 0xC0000000
      ⟨4, 36, refOutputBitstream.init 4⟩).2.p = 37 ∧
    (encodeGroup refOutputBitstream refHuffmanEncoder
      (refCreateCodes (xh_lz77_compress matchesRun inputRun 0 50 50).counts)
      (xh_lz77_compress matchesRun inputRun 0 50 50).buf 32 32 0xC0000000
      ⟨4, 36, refOutputBitstream.init 4⟩).2.rem = 3 ∧
    (encodeLoop refOutputBitstream refHuffmanEncoder
      (refCreateCodes (xh_lz77_compress matchesRun inputRun 0 50 50).counts)
      (xh_lz77_compress matchesRun inputRun 0 50 50).buf 1
      ⟨0, 40, refOutputBitstream.init 4⟩).p = 39 ∧
    (encodeLoop refOutputBitstream refHuffmanEncoder
      (refCreateCodes (xh_lz77_compress matchesRun inputRun 0 50 50).counts)
      (xh_lz77_compress matchesRun inputRun 0 50 50).buf 1
      ⟨0, 40, refOutputBitstream.init 4⟩).rem = 1 ∧
    (encodeLoop refOutputBitstream refHuffmanEncoder
      (refCreateCodes (xh_lz77_compress matchesRun inputRun 0 50 50).counts)
      (xh_lz77_compress matchesRun inputRun 0 50 50).buf 40
      ⟨0, 40, refOutputBitstream.init 4⟩).p = 43 ∧
    (encodeLoop refOutputBitstream refHuffmanEncoder
      (refCreateCodes (xh_lz77_compress matchesRun inputRun 0 50 50).counts)
      (xh_lz77_compress matchesRun inputRun 0 50 50).buf 40
      ⟨0, 40, refOutputBitstream.init 4⟩).rem = -3 ∧
    (xh_encode refOutputBitstream refHuffmanEncoder
      (refCreateCodes (xh_lz77_compress matchesRun inputRun 0 50 50).counts)
      (xh_lz77_compress matchesRun inputRun 0 50 50).buf 40 260).ret = 260 ∧
    (xh_encode refOutputBitstream refHuffmanEncoder
      (refCreateCodes (xh_lz77_compress matchesRun inputRun 0 50 50).counts)
      (xh_lz77_compress matchesRun inputRun 0 50 50).buf 40 260).errno = none := by
  decide!

/-- C16 fails on the code: for the fifty bytes `a` of `inputRun`, tokenized as thirty
literals, the match of length 20 at index 30 and the terminator (a buffer of 40 bytes), and a
destination of 260 bytes, the parse of `xh_encode` reads the thirty literals and the match
(index 37, `rem = 3`), whose length byte cannot be written; the loop over the mask is left
with `i = 2`, and the first two bytes of the terminator are read as literals: the first pass
of `while (rem > 0)` ends at index 39 with `rem = 1`. The second pass reads a mask at index
39, beyond the terminator, and ends at index 43, three bytes past the end of the buffer, with
`rem = -3`. The terminator is never read as a token, and `xh_encode` returns 260 without
setting `errno`. -/
theorem C16_parse_overruns :
    (xh_lz77_compress matchesRun inputRun 0 50 50).buf =
      [0, 0, 0, 192] ++ List.replicate 30 97 ++ [1, 0, 17] ++ [0, 0, 0] ∧
    (xh_lz77_compress matchesRun inputRun 0 50 50).ret = 40 ∧
    (lzGroups matchesRun inputRun 0 50 50).flatten =
      List.replicate 30 (Token.lit 97) ++ [Token.mtch 1 17, terminator] ∧
    (encodeGroup refOutputBitstream refHuffmanEncoder
      (refCreateCodes (xh_lz77_compress matchesRun inputRun 0 50 50).counts)
      (xh_lz77_compress matchesRun inputRun 0 50 50).buf 32 32 0xC0000000
      ⟨4, 36, refOutputBitstream.init 4⟩).1 = 2 ∧
    (encodeGroup refOutputBitstream refHuffmanEncoder
      (refCreateCodes (xh_lz77_compress matchesRun inputRun 0 50 50).counts)
      (xh_lz77_compress matchesRun inputRun 0 50 50).buf 32 32 0xC0000000
      ⟨4, 36, refOutputBitstream.init 4⟩).2.p = 37 ∧
    (encodeGroup refOutputBitstream refHuffmanEncoder
      (refCreateCodes (xh_lz77_compress matchesRun inputRun 0 50 50).counts)
      (xh_lz77_compress matchesRun inputRun 0 50 50).buf 32 32 0xC0000000
      ⟨4, 36, refOutputBitstream.init 4⟩).2.rem = 3 ∧
    (encodeLoop refOutputBitstream refHuffmanEncoder
      (refCreateCodes (xh_lz77_compress matchesRun inputRun 0 50 50).counts)
      (xh_lz77_compress matchesRun inputRun 0 50 50).buf 1
      ⟨0, 40, refOutputBitstream.init 4⟩).p = 39 ∧
    (encodeLoop refOutputBitstream refHuffmanEncoder
      (refCreateCodes (xh_lz77_compress matchesRun inputRun 0 50 50).counts)
      (xh_lz77_compress matchesRun inputRun 0 50 50).buf 1
      ⟨0, 40, refOutputBitstream.init 4⟩).rem = 1 ∧
    (encodeLoop refOutputBitstream refHuffmanEncoder
      (refCreateCodes (xh_lz77_compress matchesRun inputRun 0 50 50).counts)
      (xh_lz77_compress matchesRun inputRun 0 50 50).buf 40
      ⟨0, 40, refOutputBitstream.init 4⟩).p = 43 ∧
    (encodeLoop refOutputBitstream refHuffmanEncoder
      (refCreateCodes (xh_lz77_compress matchesRun inputRun 0 50 50).counts)
      (xh_lz77_compress matchesRun inputRun 0 50 50).buf 40
      ⟨0, 40, refOutputBitstream.init 4⟩).rem = -3 ∧
    (xh_encode refOutputBitstream refHuffmanEncoder
      (refCreateCodes (xh_lz77_compress matchesRun inputRun 0 50 50).counts)
      (xh_lz77_compress matchesRun inputRun 0 50 50).buf 40 260).ret = 260 ∧
    (xh_encode refOutputBitstream refHuffmanEncoder
      (refCreateCodes (xh_lz77_compress matchesRun inputRun 0 50 50).counts)
      (xh_lz77_compress matchesRun inputRun 0 50 50).buf 40 260).errno = none :=
  ⟨inputRun_tokens.1, inputRun_tokens.2.1, inputRun_tokens.2.2, inputRun_parse.1,
    inputRun_parse.2.1, inputRun_parse.2.2.1, inputRun_parse.2.2.2.1, inputRun_parse.2.2.2.2.1,
    inputRun_parse.2.2.2.2.2.1, inputRun_parse.2.2.2.2.2.2.1, inputRun_parse.2.2.2.2.2.2.2.1,
    inputRun_parse.2.2.2.2.2.2.2.2⟩

/-! ## The symbol counts -/

theorem symsOf_append (a b : List Event) : symsOf (a ++ b) = symsOf a ++ symsOf b := by
  simp [symsOf, List.filterMap_append]

theorem symsOf_lenEvents (l : Nat) : symsOf (lenEvents l) = [] := by
  unfold lenEvents
  split_ifs <;> rfl

theorem symsOf_events (t : Token) : symsOf t.events = [t.sym] := by
  cases t with
  | lit b => rfl
  | mtch off l =>
    simp only [Token.events, symsOf_append, symsOf_lenEvents, Token.sym]
    rfl

theorem symsOf_flatMap : ∀ ts : List Token,
    symsOf (ts.flatMap Token.events) = ts.map Token.sym := by
  intro ts
  induction ts with
  | nil => rfl
  | cons t ts ih =>
    rw [List.flatMap_cons, symsOf_append, symsOf_events, ih]
    rfl

theorem bump_length (c : List Nat) (s : Nat) : (bump c s).length = c.length := by
  simp [bump]

theorem bump_getD (c : List Nat) (a s : Nat) (ha : a < c.length) :
    (bump c a).getD s 0 = if a = s then (c.getD s 0 + 1) % U32 else c.getD s 0 := by
  unfold bump
  rw [List.getD_eq_getElem?_getD, List.getElem?_set]
  by_cases h : a = s
  · subst h
    simp [ha]
  · simp [h, List.getD_eq_getElem?_getD]

theorem foldl_bump_getD : ∀ (syms : List Nat) (c : List Nat) (s : Nat),
    (∀ a ∈ syms, a < c.length) →
    (syms.foldl bump c).getD s 0 = (c.getD s 0 + syms.count s) % U32 ∨
      (syms.count s = 0 ∧ (syms.foldl bump c).getD s 0 = c.getD s 0) := by
  intro syms
  induction syms with
  | nil => intro c s _; right; simp
  | cons a syms ih =>
    intro c s h
    have ha : a < c.length := h a (List.mem_cons_self _ _)
    have hrest : ∀ x ∈ syms, x < (bump c a).length := by
      intro x hx
      rw [bump_length]
      exact h x (List.mem_cons_of_mem _ hx)
    rw [List.foldl_cons]
    have hb := bump_getD c a s ha
    by_cases has : a = s
    · subst has
      left
      rw [if_pos rfl] at hb
      rw [List.count_cons_self]
      rcases ih (bump c a) a hrest with h1 | ⟨h0, h1⟩
      · rw [h1, hb, Nat.mod_add_mod]
        congr 1
        omega
      · rw [h1, hb, h0]
    · rw [if_neg has] at hb
      have hc : (a :: syms).count s = syms.count s := by
        rw [List.count_cons]
        simp [has]
      rw [hc]
      rcases ih (bump c a) s hrest with h1 | ⟨h0, h1⟩
      · left; rw [h1, hb]
      · right; exact ⟨h0, by rw [h1, hb]⟩

theorem sym_range : ∀ O, O < 16 → ∀ m, m < 16 →
    0x100 ≤ ((O <<< 4) ||| m ||| 0x100) ∧ ((O <<< 4) ||| m ||| 0x100) ≤ 0x1FF ∧
    ((O <<< 4) ||| m ||| 0x100) = (0x100 ||| (O <<< 4) ||| m) := by
  decide

theorem highbit_le (off : Nat) (h : off < 65536) : highbit off < 16 := by
  by_cases h0 : off = 0
  · subst h0
    decide
  · have := (highbit_bounds off (by omega) (by omega)).1
    omega

theorem Token_sym_lt (t : Token) (h : t.wf) : t.sym < SYMBOLS := by
  cases t with
  | lit b =>
    have hb : b < 256 := h
    show b < 512
    omega
  | mtch off l =>
    have hO := highbit_le off h.1
    have hm : min 0xF l < 16 := by omega
    have := (sym_range _ hO _ hm).2.1
    show ((highbit off <<< 4) ||| min 0xF l ||| 0x100) < 512
    omega

theorem foldl_bump_length : ∀ (syms : List Nat) (c : List Nat),
    (syms.foldl bump c).length = c.length := by
  intro syms
  induction syms with
  | nil => intro c; rfl
  | cons a syms ih => intro c; rw [List.foldl_cons, ih, bump_length]

theorem encodeLoop_complete (Find : Dictionary) (inp : List Nat) (pos n in_end : Nat)
    (h1 : 1 ≤ n) (h2 : n ≤ 65536) (hoff : ∀ p, (Find p).2 < 65536)
    (hbyte : ∀ b ∈ inp, b < 256) :
    encodeLoop traceWriter traceEncoder () (xh_lz77_compress Find inp pos n in_end).buf
        (xh_lz77_compress Find inp pos n in_end).ret
        ⟨0, ((xh_lz77_compress Find inp pos n in_end).ret : Int), []⟩ =
      ⟨(xh_lz77_compress Find inp pos n in_end).ret, 0,
        (lzGroups Find inp pos n in_end).flatten.flatMap Token.events⟩ := by
  have heq := xh_lz77_compress_eq Find inp pos n in_end h1
  have hfull := lzGroups_full Find inp pos n in_end h1
  have hwf := lzGroups_wf Find inp pos n in_end h1 h2 hoff (getD_lt_of_forall inp hbyte)
  have hwf2 : ∀ g ∈ lzGroups Find inp pos n in_end, ∀ t ∈ g, t.wf :=
    fun g hg t ht => hwf t (List.mem_flatten.mpr ⟨g, hg, ht⟩)
  have hk := encodeLoop_groups (lzGroups Find inp pos n in_end)
    ((lzGroups Find inp pos n in_end).flatMap grpBytes).length [] [] hfull hwf2
  simp only [List.nil_append, List.length_nil, Nat.zero_add] at hk
  have hle := groups_length_le (lzGroups Find inp pos n in_end)
  rw [List.take_of_length_le hle, List.drop_of_length_le hle] at hk
  rw [heq]
  simpa using hk

theorem lzGroups_count_le (Find : Dictionary) (inp : List Nat) (pos n in_end : Nat)
    (h1 : 1 ≤ n) : (lzGroups Find inp pos n in_end).flatten.length ≤ n + 1 := by
  rw [lzGroups_flatten Find inp pos n in_end h1, List.length_append]
  have hfit := chunkGroups_fit Find inp n pos n (le_refl _)
  have hsum := TokensFit_sum _ _ hfit
  have hlen := length_le_spanSum (chunkGroups Find inp n pos n).flatten
    (fun t _ => Token_span_pos t)
  have : (if pos + n = in_end then [terminator] else []).length ≤ 1 := by
    split_ifs <;> simp
  omega

/-- When no write fails: for a chunk of 1 to 65536 bytes, with dictionary offsets below 65536
and input bytes below 256, the symbols that `xh_encode` passes to `EncodeSymbol` while it reads the buffer of
`xh_lz77_compress` (with a coder that records its calls and lets them succeed) are the symbols
of the tokens in order; the table `symbol_counts` has 512 entries and entry `s` is the number
of times `s` is passed to `EncodeSymbol`; so every symbol that is encoded is below 512 and has
a non-zero count. The symbol of a literal `b` is `b`; the symbol of a match with offset `off`
below 65536 and length minus 3 `l` is `0x100 | (highbit(off) << 4) | min(15, l)`, which lies
in `0x100..0x1FF`; the symbol of the terminator is `0x100`. -/
theorem counts_match_complete (Find : Dictionary) (inp : List Nat) (pos n in_end : Nat)
    (h1 : 1 ≤ n) (h2 : n ≤ 65536) (hoff : ∀ p, (Find p).2 < 65536)
    (hbyte : ∀ b ∈ inp, b < 256) :
    symsOf (encodeLoop traceWriter traceEncoder () (xh_lz77_compress Find inp pos n in_end).buf
        (xh_lz77_compress Find inp pos n in_end).ret
        ⟨0, ((xh_lz77_compress Find inp pos n in_end).ret : Int), []⟩).bstr =
      (lzGroups Find inp pos n in_end).flatten.map Token.sym ∧
    (xh_lz77_compress Find inp pos n in_end).counts.length = SYMBOLS ∧
    (∀ s, (xh_lz77_compress Find inp pos n in_end).counts.getD s 0 =
      (symsOf (encodeLoop traceWriter traceEncoder ()
        (xh_lz77_compress Find inp pos n in_end).buf
        (xh_lz77_compress Find inp pos n in_end).ret
        ⟨0, ((xh_lz77_compress Find inp pos n in_end).ret : Int), []⟩).bstr).count s) ∧
    (∀ s ∈ symsOf (encodeLoop traceWriter traceEncoder ()
        (xh_lz77_compress Find inp pos n in_end).buf
        (xh_lz77_compress Find inp pos n in_end).ret
        ⟨0, ((xh_lz77_compress Find inp pos n in_end).ret : Int), []⟩).bstr,
      s < SYMBOLS ∧ (xh_lz77_compress Find inp pos n in_end).counts.getD s 0 ≠ 0) ∧
    (∀ b, (Token.lit b).sym = b) ∧
    (∀ off l, off < 65536 →
      (Token.mtch off l).sym = (0x100 ||| (highbit off <<< 4) ||| min 15 l) ∧
      0x100 ≤ (Token.mtch off l).sym ∧ (Token.mtch off l).sym ≤ 0x1FF) ∧
    terminator.sym = 0x100 := by
  have hrun := encodeLoop_complete Find inp pos n in_end h1 h2 hoff hbyte
  have heq := xh_lz77_compress_eq Find inp pos n in_end h1
  have hwf := lzGroups_wf Find inp pos n in_end h1 h2 hoff (getD_lt_of_forall inp hbyte)
  have hsyms : symsOf (encodeLoop traceWriter traceEncoder ()
      (xh_lz77_compress Find inp pos n in_end).buf
      (xh_lz77_compress Find inp pos n in_end).ret
      ⟨0, ((xh_lz77_compress Find inp pos n in_end).ret : Int), []⟩).bstr =
      (lzGroups Find inp pos n in_end).flatten.map Token.sym := by
    rw [hrun]
    exact symsOf_flatMap _
  have hcounts : (xh_lz77_compress Find inp pos n in_end).counts =
      ((lzGroups Find inp pos n in_end).flatten.map Token.sym).foldl bump
        (List.replicate SYMBOLS 0) := by
    rw [heq]
    rfl
  have hlt : ∀ a ∈ (lzGroups Find inp pos n in_end).flatten.map Token.sym,
      a < (List.replicate SYMBOLS 0).length := by
    intro a ha
    obtain ⟨t, ht, rfl⟩ := List.mem_map.mp ha
    rw [List.length_replicate]
    exact Token_sym_lt t (hwf t ht)
  have hcount : ∀ s, (xh_lz77_compress Find inp pos n in_end).counts.getD s 0 =
      ((lzGroups Find inp pos n in_end).flatten.map Token.sym).count s := by
    intro s
    have hzero : (List.replicate SYMBOLS 0).getD s 0 = 0 := by
      rw [List.getD_eq_getElem?_getD, List.getElem?_replicate]
      split_ifs <;> rfl
    have hle : ((lzGroups Find inp pos n in_end).flatten.map Token.sym).count s ≤ n + 1 := by
      have hc := List.count_le_length s ((lzGroups Find inp pos n in_end).flatten.map Token.sym)
      rw [List.length_map] at hc
      have := lzGroups_count_le Find inp pos n in_end h1
      omega
    rw [hcounts]
    rcases foldl_bump_getD _ (List.replicate SYMBOLS 0) s hlt with h | ⟨h0, h⟩
    · rw [h, hzero, Nat.zero_add]
      apply Nat.mod_eq_of_lt
      have : n + 1 < U32 := by
        have : U32 = 4294967296 := by decide
        omega
      omega
    · rw [h, hzero, h0]
  refine ⟨hsyms, ?_, ?_, ?_, fun _ => rfl, ?_, by decide⟩
  · rw [hcounts, foldl_bump_length, List.length_replicate]
  · intro s
    rw [hsyms]
    exact hcount s
  · intro s hs
    rw [hsyms] at hs
    refine ⟨?_, ?_⟩
    · have := hlt s hs
      rwa [List.length_replicate] at this
    · rw [hcount s]
      exact Nat.pos_iff_ne_zero.mp (List.count_pos_iff.mpr hs)
  · intro off l ho
    have hO := highbit_le off ho
    have hm : min 0xF l < 16 := by omega
    obtain ⟨a, b, c⟩ := sym_range _ hO _ hm
    exact ⟨c, a, b⟩

/-- An instance: the seven bytes `abababa` with a match at index 2; the counts are those
of two literals, one match and the terminator. -/
theorem counts_match_complete_example :
    1 ≤ 7 ∧ 7 ≤ 65536 ∧ (∀ p, (matchesC1 p).2 < 65536) ∧ (∀ b ∈ inputC16, b < 256) ∧
    ∀ s, (xh_lz77_compress matchesC1 inputC16 0 7 7).counts.getD s 0 =
      (symsOf (encodeLoop traceWriter traceEncoder ()
        (xh_lz77_compress matchesC1 inputC16 0 7 7).buf
        (xh_lz77_compress matchesC1 inputC16 0 7 7).ret
        ⟨0, ((xh_lz77_compress matchesC1 inputC16 0 7 7).ret : Int), []⟩).bstr).count s :=
  ⟨by decide, by decide, matchesC1_off, by decide,
    (counts_match_complete matchesC1 inputC16 0 7 7 (by decide) (by decide) matchesC1_off
      (by decide)).2.2.1⟩

set_option maxRecDepth 1000000 in
theorem inputRun_counts :
    (∀ k, k < 20 → inputRun.getD (30 + k) 0 = inputRun.getD (30 + k - 1) 0) ∧
    (xh_lz77_compress matchesRun inputRun 0 50 50).buf =
      [0, 0, 0, 192] ++ List.replicate 30 97 ++ [1, 0, 17] ++ [0, 0, 0] ∧
    (xh_lz77_compress matchesRun inputRun 0 50 50).ret = 40 ∧
    (xh_lz77_compress matchesRun inputRun 0 50 50).counts.getD 0 0 = 0 ∧
    (xh_lz77_compress matchesRun inputRun 0 50 50).counts.getD 97 0 = 30 ∧
    (xh_lz77_compress matchesRun inputRun 0 50 50).counts.getD 0x10F 0 = 1 ∧
    (xh_lz77_compress matchesRun inputRun 0 50 50).counts.getD 0x100 0 = 1 := by
  decide!

set_option maxRecDepth 1000000 in
theorem inputRun_symbols :
    symsOf (encodeLoop (logWriter refOutputBitstream) (logEncoder refHuffmanEncoder)
      (refCreateCodes (xh_lz77_compress matchesRun inputRun 0 50 50).counts)
      (xh_lz77_compress matchesRun inputRun 0 50 50).buf 40
      ⟨0, 40, (logWriter refOutputBitstream).init 4⟩).bstr.2 =
        List.replicate 30 97 ++ [0x10F, 0, 0] ∧
    (xpress_huff_compress (logWriter refOutputBitstream) (logEncoder refHuffmanEncoder)
      matchesRun inputRun 50 260).ret = 260 ∧
    (xpress_huff_compress (logWriter refOutputBitstream) (logEncoder refHuffmanEncoder)
      matchesRun inputRun 50 260).errno = none ∧
    (xpress_huff_compress refOutputBitstream refHuffmanEncoder matchesRun inputRun 50
      260).ret = 260 ∧
    (xpress_huff_compress refOutputBitstream refHuffmanEncoder matchesRun inputRun 50
      260).errno = none ∧
    (xpress_huff_compress refOutputBitstream refHuffmanEncoder matchesRun inputRun 50
      260).out.drop 256 = [0, 0, 3, 0] := by
  decide!

/-- C11 fails on the code: for the fifty bytes `a` of `inputRun`, tokenized as thirty literals,
the match of length 20 at index 30 and the terminator, and a destination of 260 bytes, the
table counts 30 for the symbol 97, 1 for the match symbol 0x10F, 1 for the symbol 0x100 and 0
for the symbol 0. The write of the length byte of the match fails, and the bytes of the
terminator are then taken for literals: `EncodeSymbol` is called thirty times with 97, once
with 0x10F and twice with 0, whose count is 0, and never with 0x100, whose count is 1. Yet
`xpress_huff_compress` returns 260 without setting `errno`; the four bytes of payload hold
the thirty literals and the match symbol and nothing else. -/
theorem C11_counts_diverge :
    (∀ k, k < 20 → inputRun.getD (30 + k) 0 = inputRun.getD (30 + k - 1) 0) ∧
    (xh_lz77_compress matchesRun inputRun 0 50 50).buf =
      [0, 0, 0, 192] ++ List.replicate 30 97 ++ [1, 0, 17] ++ [0, 0, 0] ∧
    (xh_lz77_compress matchesRun inputRun 0 50 50).ret = 40 ∧
    (xh_lz77_compress matchesRun inputRun 0 50 50).counts.getD 0 0 = 0 ∧
    (xh_lz77_compress matchesRun inputRun 0 50 50).counts.getD 97 0 = 30 ∧
    (xh_lz77_compress matchesRun inputRun 0 50 50).counts.getD 0x10F 0 = 1 ∧
    (xh_lz77_compress matchesRun inputRun 0 50 50).counts.getD 0x100 0 = 1 ∧
    symsOf (encodeLoop (logWriter refOutputBitstream) (logEncoder refHuffmanEncoder)
      (refCreateCodes (xh_lz77_compress matchesRun inputRun 0 50 50).counts)
      (xh_lz77_compress matchesRun inputRun 0 50 50).buf 40
      ⟨0, 40, (logWriter refOutputBitstream).init 4⟩).bstr.2 =
        List.replicate 30 97 ++ [0x10F, 0, 0] ∧
    (xpress_huff_compress (logWriter refOutputBitstream) (logEncoder refHuffmanEncoder)
      matchesRun inputRun 50 260).ret = 260 ∧
    (xpress_huff_compress (logWriter refOutputBitstream) (logEncoder refHuffmanEncoder)
      matchesRun inputRun 50 260).errno = none ∧
    (xpress_huff_compress refOutputBitstream refHuffmanEncoder matchesRun inputRun 50
      260).ret = 260 ∧
    (xpress_huff_compress refOutputBitstream refHuffmanEncoder matchesRun inputRun 50
      260).errno = none ∧
    (xpress_huff_compress refOutputBitstream refHuffmanEncoder matchesRun inputRun 50
      260).out.drop 256 = [0, 0, 3, 0] :=
  ⟨inputRun_counts.1, inputRun_counts.2.1, inputRun_counts.2.2.1, inputRun_counts.2.2.2.1,
    inputRun_counts.2.2.2.2.1, inputRun_counts.2.2.2.2.2.1, inputRun_counts.2.2.2.2.2.2,
    inputRun_symbols.1, inputRun_symbols.2.1, inputRun_symbols.2.2.1, inputRun_symbols.2.2.2.1,
    inputRun_symbols.2.2.2.2.1, inputRun_symbols.2.2.2.2.2⟩

/-! ## Termination of decompression -/

theorem decodeLength_contract {τ δ : Type} (B : InputBitstream τ) (H : HuffmanDecoder τ δ)
    (bitsLeft : τ → Nat) (Inv : Nat → τ → Prop) (hc : ReaderContract B H bitsLeft Inv)
    (n : Nat) (nib : Nat) (s s1 : τ) (len : Nat) (hs : Inv n s)
    (h : decodeLength B nib s = .ok (len, s1)) : Inv n s1 ∧ bitsLeft s1 ≤ bitsLeft s := by
  unfold decodeLength at h
  simp only at h
  split_ifs at h with h1 h2 h3 h4 h5 h6 h7 h8
  · have a := hc.rawByte n s hs (by omega)
    have b := hc.rawUInt16 n _ a.1 (by omega)
    have c := hc.rawUInt32 n _ b.1 (by omega)
    simp only [Except.ok.injEq, Prod.mk.injEq] at h
    rw [← h.2]
    exact ⟨c.1, by omega⟩
  · have a := hc.rawByte n s hs (by omega)
    have b := hc.rawUInt16 n _ a.1 (by omega)
    simp only [Except.ok.injEq, Prod.mk.injEq] at h
    rw [← h.2]
    exact ⟨b.1, by omega⟩
  · have a := hc.rawByte n s hs (by omega)
    simp only [Except.ok.injEq, Prod.mk.injEq] at h
    rw [← h.2]
    exact a
  · simp only [Except.ok.injEq, Prod.mk.injEq] at h
    rw [← h.2]
    exact ⟨hs, le_refl _⟩

theorem decodeMatch_contract {τ δ : Type} (B : InputBitstream τ) (H : HuffmanDecoder τ δ)
    (bitsLeft : τ → Nat) (Inv : Nat → τ → Prop) (hc : ReaderContract B H bitsLeft Inv)
    (n out_len sym : Nat) (st st1 : DecState τ) (hs : Inv n st.bstr)
    (h : decodeMatch B out_len sym st = .next st1) :
    Inv n st1.bstr ∧ bitsLeft st1.bstr ≤ bitsLeft st.bstr := by
  unfold decodeMatch at h
  simp only at h
  cases hd : decodeLength B (sym &&& 0xF) st.bstr with
  | error e =>
    rw [hd] at h
    split_ifs at h
  | ok r =>
    obtain ⟨len, s1⟩ := r
    rw [hd] at h
    have a := decodeLength_contract B H bitsLeft Inv hc n _ _ _ _ hs hd
    have b := hc.skip n s1 ((sym >>> 4) &&& 0xF) a.1
    simp only at h
    split_ifs at h
    all_goals
      cases h
      exact ⟨b.1, by simp only; omega⟩

/-- One pass through the loop body that runs to its end has taken at least one bit. -/
theorem decodeStep_contract {τ δ : Type} (B : InputBitstream τ) (H : HuffmanDecoder τ δ)
    (bitsLeft : τ → Nat) (Inv : Nat → τ → Prop) (hc : ReaderContract B H bitsLeft Inv)
    (hdr : List Nat) (hb : ∀ b ∈ hdr, b < 256) (dec : δ)
    (hdec : H.SetCodeLengths (readHeader hdr) = some dec)
    (n out_len : Nat) (st : DecState τ) (hs : Inv n st.bstr) :
    (∀ st1, decodeStep B H dec out_len st = .stop st1 → Inv n st1.bstr) ∧
    (∀ st1, decodeStep B H dec out_len st = .next st1 →
      Inv n st1.bstr ∧ bitsLeft st1.bstr < bitsLeft st.bstr) := by
  have a := hc.decode hdr dec n st.bstr hb hdec hs
  unfold decodeStep
  simp only
  by_cases h1 : (H.DecodeSymbol dec st.bstr).1 = H.INVALID_SYMBOL
  · simp [h1]
  · have hlt := a.2 h1
    simp only [h1, if_false]
    by_cases h2 : (H.DecodeSymbol dec st.bstr).1 = STREAM_END ∧
        B.MaskIsZero (H.DecodeSymbol dec st.bstr).2 = true
    · simp only [h2, and_self, if_true]
      refine ⟨?_, ?_⟩
      · intro st1 h; cases h; exact a.1
      · intro st1 h; cases h
    · simp only [h2, if_false]
      by_cases h3 : (H.DecodeSymbol dec st.bstr).1 < 0x100
      · simp only [h3, if_true]
        by_cases h4 : st.i = out_len
        · simp [h4]
        · simp only [h4, if_false]
          refine ⟨?_, ?_⟩
          · intro st1 h; cases h
          · intro st1 h; cases h; exact ⟨a.1, hlt⟩
      · simp only [h3, if_false]
        refine ⟨?_, ?_⟩
        · intro st1 h
          unfold decodeMatch at h
          simp only at h
          split_ifs at h
          all_goals first
            | cases h
            | (split at h <;> first | cases h | split_ifs at h)
        · intro st1 h
          have b := decodeMatch_contract B H bitsLeft Inv hc n out_len _ _ st1 a.1 h
          exact ⟨b.1, by simp only at b; omega⟩

theorem decodeLoop_terminates {τ δ : Type} (B : InputBitstream τ) (H : HuffmanDecoder τ δ)
    (bitsLeft : τ → Nat) (Inv : Nat → τ → Prop) (hc : ReaderContract B H bitsLeft Inv)
    (hdr : List Nat) (hb : ∀ b ∈ hdr, b < 256) (dec : δ)
    (hdec : H.SetCodeLengths (readHeader hdr) = some dec)
    (n out_len : Nat) (hn : n + HALF_SYMBOLS < SIZE_T) :
    ∀ (fuel : Nat) (st : DecState τ), Inv n st.bstr → bitsLeft st.bstr < fuel →
    ∃ r, decodeLoop B H dec out_len fuel st = some r ∧ ChunkConsumes (n + HALF_SYMBOLS) r := by
  have hok : ∀ s : τ, Inv n s → ∀ (i : Nat) (out : List Nat) (e : Bool),
      ChunkConsumes (n + HALF_SYMBOLS) (.ok (B.RawPosition s + HALF_SYMBOLS) i out e) := by
    intro s hs i out e
    have hp := hc.position n s hs
    refine ⟨by omega, by omega, ?_⟩
    have h256 : HALF_SYMBOLS = 256 := rfl
    have : n + HALF_SYMBOLS + SIZE_T - (B.RawPosition s + HALF_SYMBOLS) =
        (n - B.RawPosition s) + SIZE_T := by omega
    rw [this, Nat.add_mod_right, Nat.mod_eq_of_lt (by omega)]
    omega
  intro fuel
  induction fuel with
  | zero => intro st _ h; omega
  | succ f ih =>
    intro st hs hfuel
    have hstep := decodeStep_contract B H bitsLeft Inv hc hdr hb dec hdec n out_len st hs
    rw [decodeLoop]
    cases hd : decodeStep B H dec out_len st with
    | fail e out => exact ⟨_, rfl, trivial⟩
    | stop st1 => exact ⟨_, rfl, hok _ (hstep.1 st1 hd) _ _ _⟩
    | next st1 =>
      obtain ⟨hinv, hlt⟩ := hstep.2 st1 hd
      simp only
      split_ifs
      · exact ih st1 hinv (by omega)
      · exact ⟨_, rfl, hok _ hinv _ _ _⟩

theorem chunk_terminates {τ δ : Type} (B : InputBitstream τ) (H : HuffmanDecoder τ δ)
    (bitsLeft : τ → Nat) (Inv : Nat → τ → Prop) (hc : ReaderContract B H bitsLeft Inv)
    (fuel : Nat) (inp : List Nat) (in_len : Nat) (hist : List Nat) (out_len : Nat)
    (hb : ∀ b ∈ inp, b < 256) (hlen : in_len < SIZE_T) (hfuel : 8 * in_len < fuel) :
    ∃ r, xpress_huff_decompress_chunk B H fuel inp in_len hist out_len = some r ∧
      ChunkConsumes in_len r := by
  unfold xpress_huff_decompress_chunk
  by_cases h1 : in_len < MIN_DATA
  · simp only [h1, if_true]
    exact ⟨_, rfl, trivial⟩
  · simp only [h1, if_false]
    have hmin : MIN_DATA = 260 := rfl
    have h256 : HALF_SYMBOLS = 256 := rfl
    cases hd : H.SetCodeLengths (readHeader inp) with
    | none => exact ⟨_, rfl, trivial⟩
    | some dec =>
      simp only
      have hinv := hc.init_inv (inp.drop HALF_SYMBOLS) (in_len - HALF_SYMBOLS) (by omega)
      have hbits := hc.init_bits (inp.drop HALF_SYMBOLS) (in_len - HALF_SYMBOLS) (by omega)
      have := decodeLoop_terminates B H bitsLeft Inv hc inp hb dec hd (in_len - HALF_SYMBOLS)
        out_len (by omega) fuel ⟨hist, 0, B.init (inp.drop HALF_SYMBOLS) (in_len - HALF_SYMBOLS)⟩
        hinv (by simp only; omega)
      have he : in_len - HALF_SYMBOLS + HALF_SYMBOLS = in_len := by omega
      rw [he] at this
      exact this

theorem decompressLoop_terminates {τ δ : Type} (B : InputBitstream τ) (H : HuffmanDecoder τ δ)
    (bitsLeft : τ → Nat) (Inv : Nat → τ → Prop) (hc : ReaderContract B H bitsLeft Inv)
    (fuel : Nat) : ∀ (n : Nat) (inp : List Nat) (in_len : Nat) (hist : List Nat) (out_len : Nat),
    (∀ b ∈ inp, b < 256) → in_len < SIZE_T → 8 * in_len < fuel → in_len < 256 * n →
    ∃ r, decompressLoop B H fuel n inp in_len hist out_len = some r := by
  intro n
  induction n with
  | zero => intro inp in_len hist out_len _ _ _ h; omega
  | succ n ih =>
    intro inp in_len hist out_len hb hlen hfuel hn
    obtain ⟨r, hr, hcons⟩ := chunk_terminates B H bitsLeft Inv hc fuel inp in_len hist out_len
      hb hlen hfuel
    rw [decompressLoop, hr]
    cases r with
    | fail e out => exact ⟨_, rfl⟩
    | ok in_pos out_pos out eos =>
      simp only
      obtain ⟨h1, h2, h3⟩ := hcons
      have h256 : HALF_SYMBOLS = 256 := rfl
      have hsub : (in_len + SIZE_T - in_pos) % SIZE_T = in_len - in_pos := by
        have : in_len + SIZE_T - in_pos = (in_len - in_pos) + SIZE_T := by omega
        rw [this, Nat.add_mod_right, Nat.mod_eq_of_lt (by omega)]
      split_ifs
      · exact ⟨_, rfl⟩
      · apply ih
        · exact fun b hm => hb b (List.mem_of_mem_drop hm)
        · omega
        · omega
        · omega

theorem flatMap_pair_length (f g : Nat → Nat) : ∀ l : List Nat,
    (l.flatMap (fun i => [f i, g i])).length = 2 * l.length := by
  intro l
  induction l with
  | nil => rfl
  | cons a l ih =>
    rw [List.flatMap_cons, List.length_append, ih, List.length_cons]
    simp only [List.length_cons, List.length_nil]
    omega

theorem readHeader_length (hdr : List Nat) : (readHeader hdr).length = 512 := by
  unfold readHeader
  rw [flatMap_pair_length, List.length_range]
  rfl

theorem readHeader_lt (hdr : List Nat) (hb : ∀ b ∈ hdr, b < 256) (s : Nat) :
    (readHeader hdr).getD s 0 < 16 := by
  have hget : ∀ i, hdr.getD i 0 < 256 := by
    intro i
    rw [List.getD_eq_getElem?_getD]
    cases hp : hdr[i]? with
    | none => simp
    | some b => exact hb b (List.getElem?_mem hp)
  rw [List.getD_eq_getElem?_getD]
  cases hp : (readHeader hdr)[s]? with
  | none => simp
  | some v =>
    have hm := List.getElem?_mem hp
    simp only [readHeader, List.mem_flatMap, List.mem_range, List.mem_cons,
      List.mem_singleton, List.not_mem_nil, or_false] at hm
    obtain ⟨i, _, hv | hv⟩ := hm
    · simp only [Option.getD_some, hv]
      exact Nat.lt_of_le_of_lt Nat.and_le_right (by decide)
    · simp only [Option.getD_some, hv, Nat.shiftRight_eq_div_pow]
      have := hget i
      omega

theorem codeOf_le (lens : List Nat) (s : Nat) :
    codeOf lens s ≤ lens.length * 2 ^ lens.getD s 0 := by
  unfold codeOf
  have h := List.sum_le_card_nsmul (lens.enum.map (fun tl =>
    if 0 < tl.2 ∧ (tl.2 < lens.getD s 0 ∨ (tl.2 = lens.getD s 0 ∧ tl.1 < s))
    then 2 ^ (lens.getD s 0 - tl.2) else 0)) (2 ^ lens.getD s 0) (by
      intro x hx
      obtain ⟨tl, _, rfl⟩ := List.mem_map.mp hx
      split_ifs
      · exact Nat.pow_le_pow_right (by decide) (Nat.sub_le _ _)
      · exact Nat.zero_le _)
  simpa using h

theorem InBits_Skip_contract (len : Nat) (s : InBits) (n : Nat) (hs : s.Inv len) :
    (s.Skip n).Inv len ∧ (s.Skip n).bitsLeft ≤ s.bitsLeft ∧
    (1 ≤ n → n ≤ s.bits → (s.Skip n).bitsLeft < s.bitsLeft) := by
  obtain ⟨h1, h2⟩ := hs
  unfold InBits.Skip
  simp only
  split_ifs with h
  · simp only [InBits.Inv, InBits.bitsLeft]
    refine ⟨⟨h1, by omega⟩, by omega, fun _ _ => by omega⟩
  · simp only [InBits.Inv, InBits.bitsLeft]
    refine ⟨⟨h1, h2⟩, by omega, fun _ _ => by omega⟩

/-- The reference reader and decoder meet the assumptions. -/
theorem refReader_contract :
    ReaderContract refInputBitstream refHuffmanDecoder InBits.bitsLeft InBits.Inv where
  init_inv := by
    intro inp len h
    exact ⟨rfl, h⟩
  init_bits := by
    intro inp len h
    show 32 + 8 * (len - 4) ≤ 8 * len
    omega
  position := by
    intro len s hs
    show s.index ≤ len
    have := hs.1
    have := hs.2
    omega
  decode := by
    intro hdr dec len s hb hset hs
    have hdec : dec = readHeader hdr := by
      simp only [refHuffmanDecoder] at hset
      split_ifs at hset
      cases hset
      rfl
    subst hdec
    simp only [refHuffmanDecoder]
    cases hf : (readHeader hdr).enum.find? (fun tl =>
        decide (0 < tl.2 ∧ s.Peek tl.2 = codeOf (readHeader hdr) tl.1)) with
    | none => exact ⟨hs, fun h => absurd rfl h⟩
    | some tl =>
      have hp := List.find?_some hf
      simp only [decide_eq_true_eq] at hp
      obtain ⟨hpos, hpeek⟩ := hp
      have hbits : tl.2 ≤ s.bits := by
        by_contra hgt
        have hgt2 : tl.2 > s.bits := by omega
        simp only [InBits.Peek, hgt2, if_true] at hpeek
        have hle := codeOf_le (readHeader hdr) tl.1
        rw [readHeader_length] at hle
        have hlt := readHeader_lt hdr hb tl.1
        have hpow : 2 ^ (readHeader hdr).getD tl.1 0 ≤ 2 ^ 15 :=
          Nat.pow_le_pow_right (by decide) (by omega)
        have h15 : (2 : Nat) ^ 15 = 32768 := by decide
        omega
      have hskip := InBits_Skip_contract len s tl.2 hs
      exact ⟨hskip.1, fun _ => hskip.2.2 hpos hbits⟩
  skip := by
    intro len s n hs
    have := InBits_Skip_contract len s n hs
    exact ⟨this.1, this.2.1⟩
  rawByte := by
    intro len s hs h
    obtain ⟨h1, h2⟩ := hs
    have h3 : 1 ≤ s.len - s.index := h
    simp only [refInputBitstream, InBits.Inv, InBits.bitsLeft]
    exact ⟨⟨h1, by omega⟩, by omega⟩
  rawUInt16 := by
    intro len s hs h
    obtain ⟨h1, h2⟩ := hs
    have h3 : 2 ≤ s.len - s.index := h
    simp only [refInputBitstream, InBits.Inv, InBits.bitsLeft]
    exact ⟨⟨h1, by omega⟩, by omega⟩
  rawUInt32 := by
    intro len s hs h
    obtain ⟨h1, h2⟩ := hs
    have h3 : 4 ≤ s.len - s.index := h
    simp only [refInputBitstream, InBits.Inv, InBits.bitsLeft]
    exact ⟨⟨h1, by omega⟩, by omega⟩

/-- C20: `xpress_huff_decompress` ends on every input. Under the assumptions on the bit reader
and the decoder (`ReaderContract`: the raw position is at most the number of bytes given, a
symbol decode that succeeds takes at least one of the at most `8 * len` bits and no operation
adds any), for input bytes below 256 and `in_len` below `2^64`, a fuel above `8 * in_len`
is enough: `xpress_huff_decompress` returns a result; every call of
`xpress_huff_decompress_chunk` returns, and when it succeeds `256 ≤ in_pos ≤ in_len`, so that
the `in_len` of the next call, `in_len - in_pos`, is smaller; and a pass through the body
of the decode loop that neither fails nor stops leaves fewer bits than it found. -/
theorem C20_decompress_terminates {τ δ : Type} (B : InputBitstream τ)
    (H : HuffmanDecoder τ δ) (bitsLeft : τ → Nat) (Inv : Nat → τ → Prop)
    (hc : ReaderContract B H bitsLeft Inv) (fuel : Nat) (inp : List Nat)
    (in_len out_len : Nat) (hb : ∀ b ∈ inp, b < 256) (hlen : in_len < SIZE_T)
    (hfuel : 8 * in_len < fuel) :
    (∃ r, xpress_huff_decompress B H fuel inp in_len out_len = some r) ∧
    (∀ (inp1 : List Nat) (in_len1 : Nat) (hist : List Nat) (out_len1 : Nat),
      (∀ b ∈ inp1, b < 256) → in_len1 ≤ in_len →
      ∃ r, xpress_huff_decompress_chunk B H fuel inp1 in_len1 hist out_len1 = some r ∧
        ∀ in_pos out_pos out eos, r = .ok in_pos out_pos out eos →
          256 ≤ in_pos ∧ in_pos ≤ in_len1 ∧
          (in_len1 + SIZE_T - in_pos) % SIZE_T = in_len1 - in_pos ∧
          in_len1 - in_pos < in_len1) ∧
    (∀ (hdr : List Nat) (dec : δ) (n out_len1 : Nat) (st st1 : DecState τ),
      (∀ b ∈ hdr, b < 256) → H.SetCodeLengths (readHeader hdr) = some dec →
      Inv n st.bstr → decodeStep B H dec out_len1 st = .next st1 →
      Inv n st1.bstr ∧ bitsLeft st1.bstr < bitsLeft st.bstr) := by
  refine ⟨?_, ?_, ?_⟩
  · exact decompressLoop_terminates B H bitsLeft Inv hc fuel fuel inp in_len [] out_len hb hlen
      hfuel (by omega)
  · intro inp1 in_len1 hist out_len1 hb1 hle
    obtain ⟨r, hr, hcons⟩ := chunk_terminates B H bitsLeft Inv hc fuel inp1 in_len1 hist
      out_len1 hb1 (by omega) (by omega)
    refine ⟨r, hr, ?_⟩
    intro in_pos out_pos out eos he
    subst he
    obtain ⟨h1, h2, h3⟩ := hcons
    have h256 : HALF_SYMBOLS = 256 := rfl
    have hsub : (in_len1 + SIZE_T - in_pos) % SIZE_T = in_len1 - in_pos := by
      have : in_len1 + SIZE_T - in_pos = (in_len1 - in_pos) + SIZE_T := by omega
      rw [this, Nat.add_mod_right, Nat.mod_eq_of_lt (by omega)]
    exact ⟨by omega, h2, hsub, by omega⟩
  · intro hdr dec n out_len1 st st1 hb1 hdec hs hstep
    exact (decodeStep_contract B H bitsLeft Inv hc hdr hb1 dec hdec n out_len1 st hs).2 st1 hstep

set_option maxRecDepth 100000 in
theorem streamC5_bytes : ∀ b ∈ streamC5, b < 256 := by decide

/-- Witness of C20: the reference reader and decoder on the 260 bytes of `streamC5`. -/
theorem C20_decompress_terminates_witness :
    ReaderContract refInputBitstream refHuffmanDecoder InBits.bitsLeft InBits.Inv ∧
    (∀ b ∈ streamC5, b < 256) ∧ 260 < SIZE_T ∧ 8 * 260 < 2081 ∧
    ∃ r, xpress_huff_decompress refInputBitstream refHuffmanDecoder 2081 streamC5 260 8 =
      some r :=
  ⟨refReader_contract, streamC5_bytes, by decide, by decide,
    (C20_decompress_terminates refInputBitstream refHuffmanDecoder InBits.bitsLeft InBits.Inv
      refReader_contract 2081 streamC5 260 8 streamC5_bytes (by decide) (by decide)).1⟩

end XpressHuff
